import Mathlib

/-!
Virtual file system: codecs, file nodes and the namespace.

A shallow embedding of `Compression.cpp`, `Encryption.cpp`, `FileNode.cpp` and
`VirtualFileSystem.cpp`, followed by theorems about them.

Conventions of the embedding

* A `std::string` is a `List Byte`, a byte being a `Fin 256` (the bit pattern of the `char`);
  `str` turns a literal into one.
* `size_t` is 64 bits wide and stored little-endian, `int` is 32 bits wide, and plain `char` is
  signed: the x86-64 System V ABI.  `charToInt` is the integral promotion of a `char`.
* `<cctype>` classification is that of the "C" locale; bytes outside ASCII are in no class.
* A C++ null pointer is `HuffmanNode.null`, respectively `none` for a `FileNode*`.  A non-null
  `FileNode*` into a tree is a `NodePtr`: the child indices leading from the root to the node.
* A function returns `none` where the C++ code dereferences a null pointer, reads past the end
  of a buffer or throws: it produces no value there.
* `std::map` and `std::unordered_map` are association lists with unique keys (`mapFind`,
  `mapSet`, `mapIndex`).
-/

set_option autoImplicit false
set_option maxRecDepth 100000

/-- One `char` of a `std::string`, as its bit pattern. -/
abbrev Byte := Fin 256

/-- The `std::string` of an ASCII literal. -/
def str (s : String) : List Byte := s.toList.map fun c => Fin.ofNat c.toNat

/-! ## Machine integers and raw memory -/

/-- The number of values of a `size_t`. -/
def sizeTModulus : Nat := 2 ^ 64

/-- The `width` bytes of the object representation of `n`, least significant first. -/
def littleEndian : Nat → Nat → List Byte
  | 0, _ => []
  | width + 1, n => Fin.ofNat (n % 256) :: littleEndian width (n / 256)

/-- The unsigned value whose little-endian object representation is `bytes`. -/
def fromLittleEndian : List Byte → Nat
  | [] => 0
  | b :: rest => b.val + 256 * fromLittleEndian rest

/-- The bytes appended by `append(reinterpret_cast<char*>(&x), sizeof(size_t))`. -/
def sizeTBytes (n : Nat) : List Byte := littleEndian 8 (n % sizeTModulus)

/-- The value read by `*reinterpret_cast<const size_t*>(p)` from the first eight bytes at `p`. -/
def readSizeT (bytes : List Byte) : Nat := fromLittleEndian (bytes.take 8)

/-- The bytes appended by `append(reinterpret_cast<char*>(&code), sizeof(int))`. -/
def intBytes (code : Int) : List Byte := littleEndian 4 (code % (2 ^ 32 : Int)).toNat

/-- The `int` read from four bytes of memory (two's complement). -/
def readInt (bytes : List Byte) : Int :=
  let u := fromLittleEndian (bytes.take 4)
  if u < 2 ^ 31 then (u : Int) else (u : Int) - 2 ^ 32

/-- Integral promotion of a (signed) `char`. -/
def charToInt (b : Byte) : Int := if b.val < 128 then (b.val : Int) else (b.val : Int) - 256

/-- The conversion `static_cast<char>(i)`: the low eight bits of `i`. -/
def intToChar (i : Int) : Byte := Fin.ofNat (i % 256).toNat

/-! ## Associative containers -/

/-- Lookup `m.find(k)`: the mapped value, or `none` for `end()`. -/
def mapFind {κ ν : Type} [DecidableEq κ] : List (κ × ν) → κ → Option ν
  | [], _ => none
  | (k', v) :: rest, k => if k' = k then some v else mapFind rest k

/-- The assignment `m[k] = v`: replaces the mapped value or adds the entry. -/
def mapSet {κ ν : Type} [DecidableEq κ] : List (κ × ν) → κ → ν → List (κ × ν)
  | [], k, v => [(k, v)]
  | (k', v') :: rest, k, v =>
    if k' = k then (k, v) :: rest else (k', v') :: mapSet rest k v

/-- The read access `m[k]`: the mapped value and the map, which gains a value-initialised
entry when the key was absent. -/
def mapIndex {κ ν : Type} [DecidableEq κ] (dflt : ν) (m : List (κ × ν)) (k : κ) :
    ν × List (κ × ν) :=
  match mapFind m k with
  | some v => (v, m)
  | none => (dflt, mapSet m k dflt)

/-! ## Run-length encoding (`RLECompression`) -/

namespace RLECompression

/-- The `for` loop of `compress` over the bytes after the first, followed by the final two
`push_back`s. -/
def compressLoop : List Byte → Byte → Nat → List Byte → List Byte
  | [], current, count, result => result ++ [Fin.ofNat count, current]
  | b :: rest, current, count, result =>
    if b = current ∧ count < 255 then compressLoop rest current (count + 1) result
    else compressLoop rest b 1 (result ++ [Fin.ofNat count, current])

/-- The function `RLECompression::compress`. -/
def compress (input : List Byte) : List Byte :=
  match input with
  | [] => []
  | first :: rest =>
    let result := compressLoop rest first 1 []
    if result.length < input.length then result else input

/-- The `for` loop of `decompress`: one (count, value) pair per step; a last byte without a
partner is skipped by the test `i + 1 < input.length()`. -/
def decompressLoop : List Byte → List Byte → List Byte
  | count :: c :: rest, result => decompressLoop rest (result ++ List.replicate count.val c)
  | _, result => result

/-- The function `RLECompression::decompress`. -/
def decompress (input : List Byte) : List Byte :=
  if input = [] then []
  else if input.length % 2 ≠ 0 then input
  else decompressLoop input []

end RLECompression

/-! ## Huffman coding (`HuffmanCompression`) -/

/-- A `std::shared_ptr<HuffmanNode>`: null, or a node with its character, frequency and two
child pointers. -/
inductive HuffmanNode where
  | null : HuffmanNode
  | node (ch : Byte) (freq : Nat) (left right : HuffmanNode) : HuffmanNode
  deriving DecidableEq, Repr

namespace HuffmanNode

/-- The member `left`; null for a null pointer. -/
def left : HuffmanNode → HuffmanNode
  | null => null
  | node _ _ l _ => l

/-- The member `right`; null for a null pointer. -/
def right : HuffmanNode → HuffmanNode
  | null => null
  | node _ _ _ r => r

/-- The member `freq`. -/
def freq : HuffmanNode → Nat
  | null => 0
  | node _ f _ _ => f

/-- The member `ch`. -/
def ch : HuffmanNode → Byte
  | null => 0
  | node c _ _ _ => c

/-- The test `!p`. -/
def isNull : HuffmanNode → Bool
  | null => true
  | node _ _ _ _ => false

/-- The test `!p->left && !p->right` on a non-null pointer. -/
def isLeaf (p : HuffmanNode) : Bool := p.left.isNull && p.right.isNull

end HuffmanNode

namespace HuffmanCompression

open HuffmanNode

/-- The statement `freqMap[c]++`. -/
def bump : List (Byte × Nat) → Byte → List (Byte × Nat)
  | [], c => [(c, 1)]
  | (k, n) :: rest, c => if k = c then (k, n + 1) :: rest else (k, n) :: bump rest c

/-- The frequency table built by the first loop of `buildHuffmanTree`. -/
def freqMap (input : List Byte) : List (Byte × Nat) := input.foldl bump []

/-- The priority queue of `buildHuffmanTree`.  Its comparator `std::greater` on
`std::shared_ptr` orders the entries by the address of the node, so every entry carries the
address its node was allocated at. -/
abbrev PriorityQueue := List (Nat × HuffmanNode)

/-- The entry with the least address among `best` and `entries`. -/
def pqMin : Nat × HuffmanNode → PriorityQueue → Nat × HuffmanNode
  | best, [] => best
  | best, e :: rest => if e.1 < best.1 then pqMin e rest else pqMin best rest

/-- The call `pq.top()`. -/
def pqTop : PriorityQueue → HuffmanNode
  | [] => null
  | e :: rest => (pqMin e rest).2

/-- Removes the first entry allocated at `address`. -/
def pqErase (address : Nat) : PriorityQueue → PriorityQueue
  | [] => []
  | e :: rest => if e.1 = address then rest else e :: pqErase address rest

/-- The call `pq.pop()`. -/
def pqPop : PriorityQueue → PriorityQueue
  | [] => []
  | e :: rest => pqErase (pqMin e rest).1 (e :: rest)

/-- The `while (pq.size() > 1)` loop of `buildHuffmanTree`; `next` counts the nodes allocated
so far and `addr next` is where the next node is allocated.  Every round shortens the queue by
one, so a fuel of the queue's length is enough. -/
def mergeLoop (addr : Nat → Nat) : Nat → Nat → PriorityQueue → PriorityQueue
  | 0, _, pq => pq
  | fuel + 1, next, pq =>
    if 1 < pq.length then
      let left := pqTop pq
      let pq1 := pqPop pq
      let right := pqTop pq1
      let pq2 := pqPop pq1
      let parent := node 0 (left.freq + right.freq) left right
      mergeLoop addr fuel (next + 1) ((addr next, parent) :: pq2)
    else pq

/-- The leaves pushed by the second loop of `buildHuffmanTree`, the `i`-th one allocated at
`addr i`.  The iteration order of the `unordered_map` only decides which leaf gets which
address, and `addr` is arbitrary. -/
def leafQueue (addr : Nat → Nat) (table : List (Byte × Nat)) : PriorityQueue :=
  table.enum.map fun e => (addr e.1, node e.2.1 e.2.2 null null)

/-- The function `HuffmanCompression::buildHuffmanTree`, for the allocator `addr`. -/
def buildHuffmanTree (addr : Nat → Nat) (input : List Byte) : HuffmanNode :=
  if input = [] then null
  else
    let pq := leafQueue addr (freqMap input)
    pqTop (mergeLoop addr pq.length pq.length pq)

/-- The function `HuffmanCompression::generateCodes`; a code is the list of its characters,
`false` for '0' and `true` for '1'. -/
def generateCodes : HuffmanNode → List Bool → List (Byte × List Bool) → List (Byte × List Bool)
  | null, _, codes => codes
  | node ch f l r, code, codes =>
    let codes1 :=
      if (node ch f l r).isLeaf then mapSet codes ch (if code = [] then [false] else code)
      else codes
    let codes2 := generateCodes l (code ++ [false]) codes1
    generateCodes r (code ++ [true]) codes2

/-- The function `HuffmanCompression::serializeHuffmanTree`. -/
def serializeHuffmanTree : HuffmanNode → List Byte
  | null => []
  | node ch f l r =>
    if (node ch f l r).isLeaf then [49, ch]
    else 48 :: (serializeHuffmanTree l ++ serializeHuffmanTree r)

/-- The function `HuffmanCompression::deserializeHuffmanTree`; the index into the serialized
tree is the list of the bytes from the index on.  Every call starts further on in the string,
so a fuel above its length is enough. -/
def deserializeHuffmanTree : Nat → List Byte → HuffmanNode × List Byte
  | 0, rest => (null, rest)
  | _ + 1, [] => (null, [])
  | fuel + 1, tag :: rest =>
    if tag = 49 then
      match rest with
      | ch :: rest1 => (node ch 0 null null, rest1)
      | [] => (null, [])
    else
      let l := deserializeHuffmanTree fuel rest
      let r := deserializeHuffmanTree fuel l.2
      (node 0 0 l.1 r.1, r.2)

/-- The value `bits.to_ulong()` of a `std::bitset<8>` in which bit `7 - j` is set for every
`j` with `chunk[j] == '1'`. -/
def bitsToByte (chunk : List Bool) : Byte :=
  Fin.ofNat ((chunk.enum.map fun e => if e.2 then 2 ^ (7 - e.1) else 0).sum)

/-- The loop of `compress` that converts the binary string to bytes, eight characters a
byte. -/
def packBits : List Bool → List Byte
  | b0 :: b1 :: b2 :: b3 :: b4 :: b5 :: b6 :: b7 :: rest =>
    bitsToByte [b0, b1, b2, b3, b4, b5, b6, b7] :: packBits rest
  | [] => []
  | b0 :: rest => [bitsToByte (b0 :: rest)]

/-- The string `std::bitset<8>(b).to_string()`, most significant bit first. -/
def byteToBits (b : Byte) : List Bool :=
  (List.range 8).map fun j => b.val / 2 ^ (7 - j) % 2 = 1

/-- The part of `compress` after the tree is built: code table, encoded string, serialized
tree, header, packed bits and the final choice between the record and the input. -/
def encodeWithTree (root : HuffmanNode) (input : List Byte) : List Byte :=
  let huffmanCodes := generateCodes root [] []
  let encodedString := input.flatMap fun ch => (mapFind huffmanCodes ch).getD []
  let serializedTree := serializeHuffmanTree root
  let padding := if 8 - encodedString.length % 8 = 8 then 0 else 8 - encodedString.length % 8
  let header :=
    sizeTBytes serializedTree.length ++ sizeTBytes encodedString.length ++ [Fin.ofNat padding]
  let result := header ++ serializedTree ++ packBits encodedString
  if result.length < input.length then result else input

/-- The function `HuffmanCompression::compress`, for the allocator `addr`. -/
def compress (addr : Nat → Nat) (input : List Byte) : List Byte :=
  if input.length < 2 then input
  else
    let root := buildHuffmanTree addr input
    if root.isNull then input else encodeWithTree root input

/-- The decoding loop of `decompress`.  After the step to a child the test
`!current->left` dereferences `current`: a null child ends the run without a value. -/
def decodeLoop (root : HuffmanNode) : List Bool → HuffmanNode → List Byte → Option (List Byte)
  | [], _, result => some result
  | bit :: bits, current, result =>
    let next := if bit then current.right else current.left
    if next.isNull then none
    else if next.isLeaf then decodeLoop root bits root (result ++ [next.ch])
    else decodeLoop root bits next result

/-- The function `HuffmanCompression::decompress`. -/
def decompress (input : List Byte) : Option (List Byte) :=
  if input.length ≤ 8 * 2 + 1 then some input
  else
    let treeSize := readSizeT input
    let encodedBitsCount := readSizeT (input.drop 8)
    let padding := (input.getD 16 0).val
    let index := 17
    if input.length < (index + treeSize + (encodedBitsCount + 7) % sizeTModulus / 8) % sizeTModulus then
      some input
    else
      let serializedTree := (input.drop index).take treeSize
      let index := (index + treeSize) % sizeTModulus
      let root := (deserializeHuffmanTree (serializedTree.length + 1) serializedTree).1
      if root.isNull then some input
      else
        let encodedBits := (input.drop index).flatMap byteToBits
        let encodedBits :=
          if 0 < padding ∧ padding < encodedBits.length then
            encodedBits.take (encodedBits.length - padding)
          else encodedBits
        decodeLoop root (encodedBits.take (min encodedBits.length encodedBitsCount)) root []

end HuffmanCompression

/-! ## LZW coding (`LZWCompression`) -/

namespace LZWCompression

/-- The dictionary `lzwEncode` starts from: every one-byte string, mapped to its byte value. -/
def encodeDictionary : List (List Byte × Int) :=
  (List.range 256).map fun (i : Nat) => ([Fin.ofNat i], Int.ofNat i)

/-- The `for` loop of `lzwEncode` and the final `push_back` of the pending string. -/
def encodeLoop : List Byte → List (List Byte × Int) → Int → List Byte → List Int → List Int
  | [], dictionary, _, current, result =>
    if current ≠ [] then result ++ [(mapIndex 0 dictionary current).1] else result
  | c :: rest, dictionary, dictSize, current, result =>
    let next := current ++ [c]
    if (mapFind dictionary next).isSome then encodeLoop rest dictionary dictSize next result
    else
      let code := mapIndex 0 dictionary current
      encodeLoop rest (mapSet code.2 next dictSize) (dictSize + 1) [c] (result ++ [code.1])

/-- The function `LZWCompression::lzwEncode`. -/
def lzwEncode (input : List Byte) : List Int :=
  encodeLoop input encodeDictionary 256 [] []

/-- The dictionary `lzwDecode` starts from: every byte value, mapped to its one-byte string. -/
def decodeDictionary : List (Int × List Byte) :=
  (List.range 256).map fun (i : Nat) => (Int.ofNat i, [Fin.ofNat i])

/-- The `for` loop of `lzwDecode` over the codes after the first.  `s[0]` of an empty string
is the terminating NUL. -/
def decodeLoop : List Int → List (Int × List Byte) → Int → Int → List Byte → List Byte
  | [], _, _, _, result => result
  | code :: rest, dictionary, dictSize, oldCode, result =>
    let continue_ (dictionary : List (Int × List Byte)) (s : List Byte) : List Byte :=
      let old := mapIndex [] dictionary oldCode
      decodeLoop rest (mapSet old.2 dictSize (old.1 ++ [s.headD 0])) (dictSize + 1) code
        (result ++ s)
    if (mapFind dictionary code).isSome then
      let s := mapIndex [] dictionary code
      continue_ s.2 s.1
    else if code = dictSize then
      let old := mapIndex [] dictionary oldCode
      continue_ old.2 (old.1 ++ [old.1.headD 0])
    else []

/-- The function `LZWCompression::lzwDecode`. -/
def lzwDecode (codes : List Int) : List Byte :=
  match codes with
  | [] => []
  | oldCode :: rest =>
    let entry := mapIndex [] decodeDictionary oldCode
    decodeLoop rest entry.2 256 oldCode entry.1

/-- The function `LZWCompression::compress`. -/
def compress (input : List Byte) : List Byte :=
  if input.length < 3 then input
  else
    let codes := lzwEncode input
    let result := sizeTBytes codes.length ++ codes.flatMap intBytes
    if result.length < input.length then result else input

/-- The codes `codePtr[0]`, ..., `codePtr[codeCount - 1]` read from the memory after the
header. -/
def readCodes : Nat → List Byte → List Int
  | 0, _ => []
  | codeCount + 1, bytes => readInt bytes :: readCodes codeCount (bytes.drop 4)

/-- The function `LZWCompression::decompress`.  The length test is computed in `size_t`; when
it wraps around, the copy loop reads past the end of the input and there is no value. -/
def decompress (input : List Byte) : Option (List Byte) :=
  if input.length ≤ 8 then some input
  else
    let codeCount := readSizeT input
    if input.length < (8 + codeCount * 4) % sizeTModulus then some input
    else if input.length < 8 + codeCount * 4 then none
    else some (lzwDecode (readCodes codeCount (input.drop 8)))

end LZWCompression

/-- The codecs `CompressionFactory::createAlgorithm` can return. -/
inductive CompressionAlgorithm where
  | rle
  | huffman
  | lzw
  deriving DecidableEq, Repr

namespace CompressionFactory

/-- The function `CompressionFactory::createAlgorithm`. -/
def createAlgorithm (type : List Byte) : CompressionAlgorithm :=
  if type = str "RLE" then .rle
  else if type = str "Huffman" then .huffman
  else if type = str "LZW" then .lzw
  else .rle

/-- The function `CompressionFactory::listAvailableAlgorithms`. -/
def listAvailableAlgorithms : List (List Byte) := [str "RLE", str "Huffman", str "LZW"]

/-- The function `CompressionFactory::getDefaultAlgorithm`. -/
def getDefaultAlgorithm : CompressionAlgorithm := .huffman

end CompressionFactory

namespace CompressionAlgorithm

/-- The virtual function `CompressionAlgorithm::getName`. -/
def getName : CompressionAlgorithm → List Byte
  | rle => str "RLE"
  | huffman => str "Huffman"
  | lzw => str "LZW"

/-- The virtual function `CompressionAlgorithm::compress`; `addr` is the allocator the Huffman
codec builds its tree with. -/
def compress (addr : Nat → Nat) : CompressionAlgorithm → List Byte → List Byte
  | rle, input => RLECompression.compress input
  | huffman, input => HuffmanCompression.compress addr input
  | lzw, input => LZWCompression.compress input

/-- The virtual function `CompressionAlgorithm::decompress`. -/
def decompress : CompressionAlgorithm → List Byte → Option (List Byte)
  | rle, input => some (RLECompression.decompress input)
  | huffman, input => HuffmanCompression.decompress input
  | lzw, input => LZWCompression.decompress input

end CompressionAlgorithm

/-! ## Character classification (`<cctype>`, "C" locale) -/

/-- The function `isalpha` on a `char`. -/
def isalpha (c : Byte) : Bool :=
  (65 ≤ c.val && c.val ≤ 90) || (97 ≤ c.val && c.val ≤ 122)

/-- The function `islower` on a `char`. -/
def islower (c : Byte) : Bool := 97 ≤ c.val && c.val ≤ 122

/-- The function `tolower` on the promoted value of a `char`. -/
def tolower (c : Int) : Int := if 65 ≤ c ∧ c ≤ 90 then c + 32 else c

/-! ## XOR cipher (`XOREncryption`) -/

namespace XOREncryption

/-- The function `XOREncryption::encrypt`. -/
def encrypt (input key : List Byte) : List Byte :=
  if input = [] ∨ key = [] then input
  else input.mapIdx fun i b => b ^^^ key.getD (i % key.length) 0

/-- The function `XOREncryption::decrypt`. -/
def decrypt (input key : List Byte) : List Byte := encrypt input key

end XOREncryption

/-! ## Caesar cipher (`CaesarCipher`) -/

namespace CaesarCipher

/-- The function `CaesarCipher::keyToShift`: `std::accumulate` of the promoted characters,
then the truncating `%` of C++. -/
def keyToShift (key : List Byte) : Int :=
  (key.foldl (fun sum c => sum + charToInt c) 0).tmod 26

/-- The body of the loops of `encrypt` and `decrypt` for one character. -/
def shiftChar (shift : Int) (c : Byte) : Byte :=
  if isalpha c then
    let base : Int := if islower c then 97 else 65
    intToChar ((charToInt c - base + shift).tmod 26 + base)
  else c

/-- The function `CaesarCipher::encrypt`. -/
def encrypt (input key : List Byte) : List Byte :=
  if input = [] ∨ key = [] then input
  else input.map (shiftChar (keyToShift key))

/-- The function `CaesarCipher::decrypt`. -/
def decrypt (input key : List Byte) : List Byte :=
  if input = [] ∨ key = [] then input
  else input.map (shiftChar ((26 - keyToShift key).tmod 26))

end CaesarCipher

/-! ## Vigenere cipher (`VigenereCipher`) -/

namespace VigenereCipher

/-- The local `char keyChar = tolower(key[keyIndex % key.size()]) - 'a'`, promoted again
where it is used. -/
def keyChar (key : List Byte) (keyIndex : Nat) : Int :=
  charToInt (intToChar (tolower (charToInt (key.getD (keyIndex % key.length) 0)) - 97))

/-- The loop of `encrypt` from one character on, with the current `keyIndex`. -/
def encryptLoop (key : List Byte) : List Byte → Nat → List Byte
  | [], _ => []
  | c :: rest, keyIndex =>
    if isalpha c then
      let base : Int := if islower c then 97 else 65
      intToChar ((charToInt c - base + keyChar key keyIndex).tmod 26 + base) ::
        encryptLoop key rest (keyIndex + 1)
    else c :: encryptLoop key rest keyIndex

/-- The function `VigenereCipher::encrypt`. -/
def encrypt (input key : List Byte) : List Byte :=
  if input = [] ∨ key = [] then input else encryptLoop key input 0

/-- The loop of `decrypt` from one character on, with the current `keyIndex`. -/
def decryptLoop (key : List Byte) : List Byte → Nat → List Byte
  | [], _ => []
  | c :: rest, keyIndex =>
    if isalpha c then
      let base : Int := if islower c then 97 else 65
      intToChar ((charToInt c - base - keyChar key keyIndex + 26).tmod 26 + base) ::
        decryptLoop key rest (keyIndex + 1)
    else c :: decryptLoop key rest keyIndex

/-- The function `VigenereCipher::decrypt`. -/
def decrypt (input key : List Byte) : List Byte :=
  if input = [] ∨ key = [] then input else decryptLoop key input 0

end VigenereCipher

/-! ## Toy block cipher (`AESEncryption`) -/

namespace AESEncryption

/-- The table `sBox`. -/
def sBox : List Nat :=
  [0x9, 0x4, 0xA, 0xB, 0xD, 0x1, 0x8, 0x5, 0x6, 0x2, 0x0, 0x3, 0xC, 0xE, 0xF, 0x7]

/-- The table `invSBox`. -/
def invSBox : List Nat :=
  [0xA, 0x5, 0x9, 0xB, 0x1, 0x7, 0x8, 0xF, 0x6, 0x0, 0x2, 0x3, 0xC, 0x4, 0xD, 0xE]

/-- The function `AESEncryption::padKey`: the first sixteen key bytes, zero-filled. -/
def padKey (key : List Byte) : List Byte :=
  (List.range 16).map fun i => key.getD i 0

/-- The function `AESEncryption::padInput`. -/
def padInput (input : List Byte) : List Byte :=
  let padSize := 16 - input.length % 16
  input ++ List.replicate padSize (Fin.ofNat padSize)

/-- The function `AESEncryption::processBlock`. -/
def processBlock (block key : List Byte) (encrypt : Bool) : List Byte :=
  block.mapIdx fun i b =>
    let nibbleHigh := b.val / 16 % 16
    let nibbleLow := b.val % 16
    let table := if encrypt then sBox else invSBox
    let substituted : Byte := Fin.ofNat (table.getD nibbleHigh 0 * 16 + table.getD nibbleLow 0)
    substituted ^^^ key.getD (i % key.length) 0

/-- The block loops of `encrypt` and `decrypt`: sixteen bytes a round.  Every round consumes
a block, so a fuel of the data's length is enough. -/
def processBlocks (key : List Byte) (encrypt : Bool) : Nat → List Byte → List Byte
  | 0, _ => []
  | fuel + 1, data =>
    if data = [] then []
    else processBlock (data.take 16) key encrypt ++ processBlocks key encrypt fuel (data.drop 16)

/-- The function `AESEncryption::encrypt`. -/
def encrypt (input key : List Byte) : List Byte :=
  if input = [] ∨ key = [] then input
  else
    let padded := padInput input
    processBlocks (padKey key) true padded.length padded

/-- The padding removal at the end of `decrypt`. -/
def removePadding (result : List Byte) : List Byte :=
  match result.getLast? with
  | none => result
  | some padValue =>
    if padValue.val ≤ 16 then
      if (List.range padValue.val).all fun i => result.getD (result.length - 1 - i) 0 = padValue
      then result.take (result.length - padValue.val)
      else result
    else result

/-- The function `AESEncryption::decrypt`. -/
def decrypt (input key : List Byte) : List Byte :=
  if input = [] ∨ key = [] ∨ input.length % 16 ≠ 0 then input
  else removePadding (processBlocks (padKey key) false input.length input)

end AESEncryption

/-- The codecs `EncryptionFactory::createAlgorithm` can return. -/
inductive EncryptionAlgorithm where
  | xor
  | caesar
  | vigenere
  | aes
  deriving DecidableEq, Repr

namespace EncryptionFactory

/-- The function `EncryptionFactory::createAlgorithm`. -/
def createAlgorithm (type : List Byte) : EncryptionAlgorithm :=
  if type = str "XOR" then .xor
  else if type = str "Caesar" then .caesar
  else if type = str "Vigenere" then .vigenere
  else if type = str "AES" then .aes
  else .aes

/-- The function `EncryptionFactory::listAvailableAlgorithms`. -/
def listAvailableAlgorithms : List (List Byte) :=
  [str "XOR", str "Caesar", str "Vigenere", str "AES"]

/-- The function `EncryptionFactory::getDefaultAlgorithm`. -/
def getDefaultAlgorithm : EncryptionAlgorithm := .aes

end EncryptionFactory

namespace EncryptionAlgorithm

/-- The virtual function `EncryptionAlgorithm::getName`. -/
def getName : EncryptionAlgorithm → List Byte
  | xor => str "XOR"
  | caesar => str "Caesar"
  | vigenere => str "Vigenere"
  | aes => str "AES"

/-- The virtual function `EncryptionAlgorithm::encrypt`. -/
def encrypt : EncryptionAlgorithm → List Byte → List Byte → List Byte
  | xor, input, key => XOREncryption.encrypt input key
  | caesar, input, key => CaesarCipher.encrypt input key
  | vigenere, input, key => VigenereCipher.encrypt input key
  | aes, input, key => AESEncryption.encrypt input key

/-- The virtual function `EncryptionAlgorithm::decrypt`. -/
def decrypt : EncryptionAlgorithm → List Byte → List Byte → List Byte
  | xor, input, key => XOREncryption.decrypt input key
  | caesar, input, key => CaesarCipher.decrypt input key
  | vigenere, input, key => VigenereCipher.decrypt input key
  | aes, input, key => AESEncryption.decrypt input key

end EncryptionAlgorithm

/-! ## File nodes (`FileNode`) -/

/-- What an operation takes from its host: the value `std::time(nullptr)` returns while it
runs, the address of the `n`-th Huffman node it allocates, and `sizeof(FileNode)`. -/
structure Host where
  now : Int
  addr : Nat → Nat
  sizeofFileNode : Nat

/-- The class `FileNodeVersion`. -/
structure FileNodeVersion where
  content : List Byte
  timestamp : Int
  deriving DecidableEq, Repr

/-- The class `FileNode`.  The member `parent` is not stored: a node is reached from the root
of its tree, and its parent is the node one step before it. -/
structure FileNode where
  name : List Byte
  isDir : Bool
  children : List FileNode
  content : List Byte
  size : Nat
  compressed : Bool
  compressedContent : List Byte
  compressionAlgorithm : List Byte
  encrypted : Bool
  encryptionKey : List Byte
  encryptionAlgorithm : List Byte
  versions : List FileNodeVersion
  maxVersions : Nat
  deriving Repr

/-- A non-null `FileNode*` into a tree: the indices of the children to descend through,
starting at the root. -/
abbrev NodePtr := List Nat

namespace FileNode

/-- The constructor `FileNode(name, isDirectory, parent)`. -/
def new (name : List Byte) (isDirectory : Bool) : FileNode where
  name := name
  isDir := isDirectory
  children := []
  content := []
  size := 0
  compressed := false
  compressedContent := []
  compressionAlgorithm := []
  encrypted := false
  encryptionKey := []
  encryptionAlgorithm := []
  versions := []
  maxVersions := 10

/-- The function `FileNode::compressContent`. -/
def compressContent (host : Host) (self : FileNode) (input : List Byte) : List Byte :=
  if input = [] then []
  else (CompressionFactory.createAlgorithm self.compressionAlgorithm).compress host.addr input

/-- The function `FileNode::decompressContent`. -/
def decompressContent (self : FileNode) (input : List Byte) : Option (List Byte) :=
  if input = [] then some []
  else (CompressionFactory.createAlgorithm self.compressionAlgorithm).decompress input

/-- The function `FileNode::encryptContent`. -/
def encryptContent (self : FileNode) (input key : List Byte) : List Byte :=
  if input = [] ∨ key = [] then input
  else (EncryptionFactory.createAlgorithm self.encryptionAlgorithm).encrypt input key

/-- The function `FileNode::decryptContent`. -/
def decryptContent (self : FileNode) (input key : List Byte) : List Byte :=
  if input = [] ∨ key = [] then input
  else (EncryptionFactory.createAlgorithm self.encryptionAlgorithm).decrypt input key

/-- The function `FileNode::getContent`. -/
def getContent (self : FileNode) : Option (List Byte) :=
  if self.isDir then some []
  else
    let result := self.content
    let result :=
      if self.encrypted ∧ self.encryptionKey ≠ [] then self.decryptContent result self.encryptionKey
      else result
    if self.compressed then self.decompressContent self.compressedContent else some result

/-- The function `FileNode::getSize`. -/
def getSize (self : FileNode) : Nat := self.size

/-- The function `FileNode::saveVersion`; the `while` loop pops the ledger's back until
`maxVersions` entries are left. -/
def saveVersion (host : Host) (self : FileNode) : FileNode :=
  if self.isDir then self
  else { self with versions := (⟨self.content, host.now⟩ :: self.versions).take self.maxVersions }

/-- The assignments `content = newContent; size = content.size();`. -/
def store (self : FileNode) (newContent : List Byte) : FileNode :=
  { self with content := newContent, size := newContent.length }

/-- The statement `if (compressed) compressedContent = compressContent(content);`. -/
def recompress (host : Host) (self : FileNode) : FileNode :=
  if self.compressed then
    { self with compressedContent := self.compressContent host self.content }
  else self

/-- The statement
`if (encrypted && !encryptionKey.empty()) content = encryptContent(content, encryptionKey);`. -/
def reencrypt (self : FileNode) : FileNode :=
  if self.encrypted ∧ self.encryptionKey ≠ [] then
    { self with content := self.encryptContent self.content self.encryptionKey }
  else self

/-- The function `FileNode::setContent`. -/
def setContent (host : Host) (self : FileNode) (newContent : List Byte) : FileNode :=
  if self.isDir then self
  else
    let saved := if self.content ≠ [] then self.saveVersion host else self
    reencrypt (recompress host (store saved newContent))

/-- The function `FileNode::addChild`. -/
def addChild (self child : FileNode) : FileNode :=
  if self.isDir then { self with children := self.children ++ [child] } else self

/-- The position of the first node called `childName` among `children`, counted from
`index`. -/
def findIndex (childName : List Byte) : List FileNode → Nat → Option Nat
  | [], _ => none
  | child :: rest, index =>
    if child.name = childName then some index else findIndex childName rest (index + 1)

/-- The function `FileNode::findChild`: the found child as its index, `none` for null. -/
def findChild (self : FileNode) (childName : List Byte) : Option Nat :=
  findIndex childName self.children 0

/-- The function `FileNode::removeChild`. -/
def removeChild (self : FileNode) (childName : List Byte) : FileNode :=
  { self with children := self.children.filter fun child => child.name ≠ childName }

/-- The function `FileNode::setCompressed`. -/
def setCompressed (host : Host) (self : FileNode) (compress : Bool)
    (algorithmName : List Byte) : FileNode :=
  if self.isDir ∨ self.compressed = compress then self
  else if compress then
    let self :=
      { self with
        compressed := true
        compressionAlgorithm :=
          if algorithmName ≠ [] then algorithmName
          else CompressionFactory.getDefaultAlgorithm.getName }
    { self with compressedContent := self.compressContent host self.content }
  else { self with compressed := false, compressionAlgorithm := [], compressedContent := [] }

/-- The function `FileNode::isCompressed`. -/
def isCompressed (self : FileNode) : Bool := self.compressed

/-- The function `FileNode::getCompressedContent`. -/
def getCompressedContent (self : FileNode) : List Byte := self.compressedContent

/-- The function `FileNode::getCompressionAlgorithm`. -/
def getCompressionAlgorithm (self : FileNode) : List Byte := self.compressionAlgorithm

/-- The function `FileNode::setEncrypted`. -/
def setEncrypted (self : FileNode) (encrypt : Bool) (key algorithmName : List Byte) :
    FileNode :=
  if self.isDir ∨ self.encrypted = encrypt then self
  else if encrypt ∧ key ≠ [] then
    let self :=
      { self with
        encryptionAlgorithm :=
          if algorithmName ≠ [] then algorithmName
          else EncryptionFactory.getDefaultAlgorithm.getName
        encryptionKey := key }
    let decrypted :=
      if self.encrypted then self.decryptContent self.content self.encryptionKey
      else self.content
    let self := { self with encrypted := true }
    { self with content := self.encryptContent decrypted self.encryptionKey }
  else if ¬ encrypt ∧ self.encrypted then
    { self with
      content := self.decryptContent self.content self.encryptionKey
      encrypted := false
      encryptionKey := []
      encryptionAlgorithm := [] }
  else self

/-- The function `FileNode::isEncrypted`. -/
def isEncrypted (self : FileNode) : Bool := self.encrypted

/-- The function `FileNode::setEncryptionKey`. -/
def setEncryptionKey (self : FileNode) (key : List Byte) : FileNode :=
  if self.encrypted ∧ key ≠ [] ∧ key ≠ self.encryptionKey then
    let decrypted := self.decryptContent self.content self.encryptionKey
    let self := { self with encryptionKey := key }
    { self with content := self.encryptContent decrypted self.encryptionKey }
  else if ¬ self.encrypted then { self with encryptionKey := key }
  else self

/-- The function `FileNode::getEncryptionKey`. -/
def getEncryptionKey (self : FileNode) : List Byte := self.encryptionKey

/-- The function `FileNode::getEncryptionAlgorithm`. -/
def getEncryptionAlgorithm (self : FileNode) : List Byte := self.encryptionAlgorithm

/-- The function `FileNode::restoreVersion`: the result and the node afterwards. -/
def restoreVersion (host : Host) (self : FileNode) (versionIndex : Nat) : Bool × FileNode :=
  if self.isDir ∨ self.versions.length ≤ versionIndex then (false, self)
  else
    let saved := self.saveVersion host
    let versionContent := ((saved.versions.get? versionIndex).map (·.content)).getD []
    (true, reencrypt (recompress host (store saved versionContent)))

/-- The function `FileNode::getVersionCount`. -/
def getVersionCount (self : FileNode) : Nat := self.versions.length

/-- The function `FileNode::getVersionTimestamps`. -/
def getVersionTimestamps (self : FileNode) : List Int := self.versions.map (·.timestamp)

/-- The node a pointer designates in the tree under `root`; `none` when it designates none
(a dangling pointer). -/
def nodeAt (root : FileNode) : NodePtr → Option FileNode
  | [] => some root
  | i :: rest =>
    match root.children.get? i with
    | some child => nodeAt child rest
    | none => none

/-- The tree under `root` after the node at `ptr` is replaced by its image under `f`. -/
def modifyAt (f : FileNode → FileNode) : NodePtr → FileNode → FileNode
  | [], root => f root
  | i :: rest, root => { root with children := root.children.modify (modifyAt f rest) i }

/-- The function `FileNode::getParent` for the node at `ptr`: `none` is the null parent of
the root. -/
def getParent (ptr : NodePtr) : Option NodePtr :=
  if ptr = [] then none else some ptr.dropLast

/-- The names of the nodes passed on the way from the root down to `ptr`, the root's own
name left out. -/
def namesTo (root : FileNode) : NodePtr → Option (List (List Byte))
  | [] => some []
  | i :: rest =>
    match root.children.get? i with
    | some child => (namesTo child rest).map fun names => child.name :: names
    | none => none

/-- The recursion of `FileNode::getPath` over the names from the node up to the child of the
root. -/
def pathOfNames : List (List Byte) → List Byte
  | [] => str "/"
  | [name] => str "/" ++ name
  | name :: parents => pathOfNames parents ++ str "/" ++ name

/-- The function `FileNode::getPath` for the node at `ptr`; no value for a dangling
pointer. -/
def getPath (root : FileNode) (ptr : NodePtr) : Option (List Byte) :=
  (namesTo root ptr).map fun names => pathOfNames names.reverse

end FileNode

/-! ## The namespace (`VirtualFileSystem`) -/

/-- The struct `VirtualFileSystem::MountInfo`, `fs` being the owned nested namespace. -/
structure MountInfo (FS : Type) where
  diskImage : List Byte
  fs : FS
  mountPoint : NodePtr

/-- The class `VirtualFileSystem`.  The member `currentDirectory` is `none` once the node it
pointed to has been destroyed: a dangling pointer. -/
structure VirtualFileSystem where
  root : FileNode
  currentDirectory : Option NodePtr
  diskSize : Nat
  usedSpace : Nat
  mountedVolumes : List (List Byte × MountInfo VirtualFileSystem)
  fileTags : List (List Byte × List (List Byte))

namespace VirtualFileSystem

/-- The constructor `VirtualFileSystem(diskSize)`. -/
def new (diskSize : Nat) : VirtualFileSystem where
  root := FileNode.new (str "/") true
  currentDirectory := some []
  diskSize := diskSize
  usedSpace := 0
  mountedVolumes := []
  fileTags := []

/-- The function `VirtualFileSystem::isMountPoint`. -/
def isMountPoint (self : VirtualFileSystem) (path : List Byte) : Bool :=
  (mapFind self.mountedVolumes path).isSome

/-- The function `VirtualFileSystem::getCurrentPath`. -/
def getCurrentPath (self : VirtualFileSystem) : Option (List Byte) :=
  self.currentDirectory.bind fun current => self.root.getPath current

/-- The loop of `getVolumeForPath` over the mount points. -/
def longestMatch (normalized : List Byte) : List (List Byte) → List Byte → List Byte
  | [], matchedVolume => matchedVolume
  | mountPoint :: rest, matchedVolume =>
    if mountPoint.isPrefixOf normalized ∧ matchedVolume.length < mountPoint.length then
      longestMatch normalized rest mountPoint
    else longestMatch normalized rest matchedVolume

/-- The function `VirtualFileSystem::getVolumeForPath`. -/
def getVolumeForPath (self : VirtualFileSystem) (path : List Byte) : Option (List Byte) := do
  let normalized ←
    if path.head? ≠ some 47 then
      (self.getCurrentPath).map fun currentPath => currentPath ++ str "/" ++ path
    else some path
  some (longestMatch normalized (self.mountedVolumes.map (·.1)) [])

/-- The `std::getline` loop of `splitPath`: the pieces between separators; `part` collects
the piece being read, and an empty piece at the very end is not a piece. -/
def getlines : List Byte → List Byte → List (List Byte)
  | [], part => if part = [] then [] else [part]
  | c :: rest, part => if c = 47 then part :: getlines rest [] else getlines rest (part ++ [c])

/-- The function `VirtualFileSystem::splitPath`. -/
def splitPath (path : List Byte) : List (List Byte) :=
  match path with
  | 47 :: rest => getlines rest []
  | _ => getlines path []

/-- The loop of `resolvePath` over the path parts, from the node `current`.  The inner
`none` is the null result; there is no value when `current` dangles where it is
dereferenced. -/
def resolveLoop (root : FileNode) : List (List Byte) → NodePtr → Option (Option NodePtr)
  | [], current => some (some current)
  | part :: rest, current =>
    if part = [] ∨ part = str "." then resolveLoop root rest current
    else
      match root.nodeAt current with
      | none => none
      | some node =>
        if part = str ".." then
          resolveLoop root rest ((FileNode.getParent current).getD current)
        else
          match node.findChild part with
          | none => some none
          | some i => resolveLoop root rest (current ++ [i])

/-- The function `VirtualFileSystem::resolvePath`.  Every caller dereferences a non-null
result at once, so there is no value where the result would be the dangling cursor. -/
def resolvePath (self : VirtualFileSystem) (path : List Byte) : Option (Option NodePtr) :=
  if path = [] then self.currentDirectory.map some
  else if path.head? = some 47 then resolveLoop self.root (splitPath path) []
  else self.currentDirectory.bind fun startNode => resolveLoop self.root (splitPath path) startNode

mutual
/-- The lambda `calculateSize` of `updateUsedSpace`: what it adds to `usedSpace` for the
subtree of a node. -/
def calculateSize (host : Host) : FileNode → Option Nat
  | node@(FileNode.mk name isDir children ..) =>
    if isDir then
      (calculateSizes host children).map fun sizes => host.sizeofFileNode + name.length + sizes
    else node.getContent.map fun content => host.sizeofFileNode + name.length + content.length
/-- The loop of `calculateSize` over the children of a directory. -/
def calculateSizes (host : Host) : List FileNode → Option Nat
  | [] => some 0
  | child :: rest =>
    match calculateSize host child, calculateSizes host rest with
    | some size, some sizes => some (size + sizes)
    | _, _ => none
end

/-- The function `VirtualFileSystem::updateUsedSpace`. -/
def updateUsedSpace (host : Host) (self : VirtualFileSystem) : Option VirtualFileSystem :=
  (calculateSize host self.root).map fun size => { self with usedSpace := size % sizeTModulus }

mutual
/-- The preamble every path operation starts with: `getResponsibleFS` picks the namespace
the path belongs to, and the operation `op` runs on that namespace with the path local to
it.  The result is that of `op` together with this namespace afterwards. -/
def onResponsibleFS {α : Type}
    (op : VirtualFileSystem → List Byte → Option (α × VirtualFileSystem)) :
    VirtualFileSystem → List Byte → Option (α × VirtualFileSystem)
  | ⟨root, currentDirectory, diskSize, usedSpace, mountedVolumes, fileTags⟩, path =>
    let self : VirtualFileSystem :=
      ⟨root, currentDirectory, diskSize, usedSpace, mountedVolumes, fileTags⟩
    match self.getVolumeForPath path with
    | none => none
    | some volumePath =>
      if volumePath = [] then op self path
      else if path.length < volumePath.length then none
      else
        let localPath := path.drop volumePath.length
        let localPath := if localPath = [] then str "/" else localPath
        match onMountedVolume op volumePath localPath mountedVolumes with
        | some (result, volumes) =>
          some (result, ⟨root, currentDirectory, diskSize, usedSpace, volumes, fileTags⟩)
        | none => none
/-- The call `mountedVolumes[volumePath].fs->op(localPath)`, itself starting with the
preamble in the nested namespace. -/
def onMountedVolume {α : Type}
    (op : VirtualFileSystem → List Byte → Option (α × VirtualFileSystem))
    (volumePath localPath : List Byte) :
    List (List Byte × MountInfo VirtualFileSystem) →
      Option (α × List (List Byte × MountInfo VirtualFileSystem))
  | [] => none
  | (mountPoint, ⟨diskImage, fs, mountDir⟩) :: rest =>
    if mountPoint = volumePath then
      match onResponsibleFS op fs localPath with
      | some (result, fs') => some (result, (mountPoint, ⟨diskImage, fs', mountDir⟩) :: rest)
      | none => none
    else
      match onMountedVolume op volumePath localPath rest with
      | some (result, rest') => some (result, (mountPoint, ⟨diskImage, fs, mountDir⟩) :: rest')
      | none => none
end

/-- The position `path.find_last_of('/')`, `none` for `npos`. -/
def findLastSlash (path : List Byte) : Option Nat :=
  (List.range path.length).reverse.find? fun i => path.get? i = some 47

/-- The body shared by `mkdir` and `touch` in the responsible namespace: the two bodies of the
source differ only in the flag handed to the constructor of the new node, here `isDirectory`. -/
def createLocal (host : Host) (isDirectory : Bool) (self : VirtualFileSystem)
    (path : List Byte) : Option (Bool × VirtualFileSystem) := do
  let target ←
    match findLastSlash path with
    | some lastSlash =>
      let parentPath := path.take lastSlash
      if parentPath = [] ∧ path.head? = some 47 then some (some ([], path.drop (lastSlash + 1)))
      else
        match ← self.resolvePath parentPath with
        | none => some none
        | some parent =>
          let node ← self.root.nodeAt parent
          if node.isDir then some (some (parent, path.drop (lastSlash + 1))) else some none
    | none => self.currentDirectory.map fun current => some (current, path)
  match target with
  | none => some (false, self)
  | some (targetParent, name) =>
    let node ← self.root.nodeAt targetParent
    if (node.findChild name).isSome then some (false, self)
    else
      let newNode := FileNode.new name isDirectory
      let self : VirtualFileSystem :=
        { self with root := self.root.modifyAt (fun p => p.addChild newNode) targetParent }
      let self ← self.updateUsedSpace host
      some (true, self)

/-- The body of `mkdir` in the responsible namespace. -/
def mkdirLocal (host : Host) (self : VirtualFileSystem) (path : List Byte) :
    Option (Bool × VirtualFileSystem) :=
  createLocal host true self path

/-- The body of `touch` in the responsible namespace. -/
def touchLocal (host : Host) (self : VirtualFileSystem) (path : List Byte) :
    Option (Bool × VirtualFileSystem) :=
  createLocal host false self path

/-- The function `VirtualFileSystem::mkdir`: the result and the namespace afterwards. -/
def mkdir (host : Host) (self : VirtualFileSystem) (path : List Byte) :
    Option (Bool × VirtualFileSystem) :=
  onResponsibleFS (mkdirLocal host) self path

/-- The function `VirtualFileSystem::cd`: the result and the namespace afterwards. -/
def cd (self : VirtualFileSystem) (path : List Byte) : Option (Bool × VirtualFileSystem) := do
  if path = str "/" then some (true, { self with currentDirectory := some [] })
  else if path = str ".." then
    let current ← self.currentDirectory
    let _ ← self.root.nodeAt current
    match FileNode.getParent current with
    | some parent => some (true, { self with currentDirectory := some parent })
    | none => some (false, self)
  else
    let fullPath ←
      if path.head? = some 47 then some path
      else (self.getCurrentPath).map fun currentPath => currentPath ++ str "/" ++ path
    if self.isMountPoint fullPath then some (false, self)
    else
      let volumePath ← self.getVolumeForPath path
      if volumePath ≠ [] then
        if path.length < volumePath.length then none else some (false, self)
      else
        match ← self.resolvePath path with
        | none => some (false, self)
        | some target =>
          let node ← self.root.nodeAt target
          if node.isDir then some (true, { self with currentDirectory := some target })
          else some (false, self)

/-- The body of `cat` in the responsible namespace. -/
def catLocal (self : VirtualFileSystem) (path : List Byte) :
    Option (List Byte × VirtualFileSystem) := do
  match ← self.resolvePath path with
  | none => some ([], self)
  | some target =>
    let node ← self.root.nodeAt target
    if ¬ node.isDir then
      let content ← node.getContent
      some (content, self)
    else some ([], self)

/-- The function `VirtualFileSystem::cat`. -/
def cat (self : VirtualFileSystem) (path : List Byte) : Option (List Byte) :=
  (onResponsibleFS catLocal self path).map (·.1)

/-- The body of `write` in the responsible namespace. -/
def writeLocal (host : Host) (content : List Byte) (self : VirtualFileSystem)
    (path : List Byte) : Option (Bool × VirtualFileSystem) := do
  match ← self.resolvePath path with
  | none =>
    match findLastSlash path with
    | some lastSlash =>
      let dirPath := path.take lastSlash
      let fileName := path.drop (lastSlash + 1)
      match ← self.resolvePath dirPath with
      | none => some (false, self)
      | some parent =>
        let node ← self.root.nodeAt parent
        if node.isDir then
          let newFile := (FileNode.new fileName false).setContent host content
          let self : VirtualFileSystem :=
            { self with root := self.root.modifyAt (fun p => p.addChild newFile) parent }
          let self ← self.updateUsedSpace host
          some (true, self)
        else some (false, self)
    | none =>
      let current ← self.currentDirectory
      let _ ← self.root.nodeAt current
      let newFile := (FileNode.new path false).setContent host content
      let self : VirtualFileSystem :=
        { self with root := self.root.modifyAt (fun p => p.addChild newFile) current }
      let self ← self.updateUsedSpace host
      some (true, self)
  | some target =>
    let node ← self.root.nodeAt target
    if ¬ node.isDir then
      let oldSize := node.getSize
      some (true,
        { self with
          root := self.root.modifyAt (fun t => t.setContent host content) target
          usedSpace :=
            (self.usedSpace + (sizeTModulus - oldSize % sizeTModulus) + content.length) %
              sizeTModulus })
    else some (false, self)

/-- The function `VirtualFileSystem::write`: the result and the namespace afterwards. -/
def write (host : Host) (self : VirtualFileSystem) (path content : List Byte) :
    Option (Bool × VirtualFileSystem) :=
  onResponsibleFS (writeLocal host content) self path

/-- The body of `compressFile` in the responsible namespace. -/
def compressFileLocal (host : Host) (compress : Bool) (algorithm : List Byte)
    (self : VirtualFileSystem) (path : List Byte) : Option (Bool × VirtualFileSystem) := do
  match ← self.resolvePath path with
  | none => some (false, self)
  | some target =>
    let node ← self.root.nodeAt target
    if node.isDir then some (false, self)
    else
      some (true,
        { self with
          root := self.root.modifyAt (fun t => t.setCompressed host compress algorithm) target })

/-- The function `VirtualFileSystem::compressFile`. -/
def compressFile (host : Host) (self : VirtualFileSystem) (path : List Byte) (compress : Bool)
    (algorithm : List Byte) : Option (Bool × VirtualFileSystem) :=
  onResponsibleFS (compressFileLocal host compress algorithm) self path

/-- The body of `encryptFile` in the responsible namespace. -/
def encryptFileLocal (key algorithm : List Byte) (self : VirtualFileSystem)
    (path : List Byte) : Option (Bool × VirtualFileSystem) := do
  match ← self.resolvePath path with
  | none => some (false, self)
  | some target =>
    let node ← self.root.nodeAt target
    if node.isDir then some (false, self)
    else
      some (true,
        { self with
          root := self.root.modifyAt (fun t => t.setEncrypted true key algorithm) target })

/-- The function `VirtualFileSystem::encryptFile`. -/
def encryptFile (self : VirtualFileSystem) (path key algorithm : List Byte) :
    Option (Bool × VirtualFileSystem) :=
  onResponsibleFS (encryptFileLocal key algorithm) self path

end VirtualFileSystem

/-! ## Call sequences on a file node -/

/-- One call on the version ledger of a file node. -/
inductive LedgerCall where
  | setContent (content : List Byte)
  | saveVersion
  | restoreVersion (versionIndex : Nat)

namespace LedgerCall

/-- The node after the call is made on `node` under `host`. -/
def run (host : Host) (node : FileNode) : LedgerCall → FileNode
  | setContent content => node.setContent host content
  | saveVersion => node.saveVersion host
  | restoreVersion versionIndex => (node.restoreVersion host versionIndex).2

end LedgerCall

/-- The node after the calls are made on `node` in order, each under its own host. -/
def runLedgerCalls (node : FileNode) (calls : List (Host × LedgerCall)) : FileNode :=
  calls.foldl (fun n call => call.2.run call.1 n) node

/-- The node after `setContent` is called on `node` with each content in order, each call
under its own host. -/
def setContents (node : FileNode) (writes : List (Host × List Byte)) : FileNode :=
  writes.foldl (fun n w => n.setContent w.1 w.2) node

/-- A host for the concrete runs below: the clock at the epoch, nodes allocated at rising
addresses, and a `FileNode` of 344 bytes. -/
def sampleHost : Host := ⟨0, id, 344⟩

namespace FileNode

/-- What the ledger calls keep: a ledger within its capacity of ten. -/
def LedgerBounded (node : FileNode) : Prop :=
  node.versions.length ≤ 10 ∧ node.maxVersions = 10

/-- The state of an unencrypted file whose successive contents were `contents`: it stores the
last of them, and its ledger holds the earlier ones, newest first, cut off after ten. -/
def LedgerOf (contents : List (List Byte)) (node : FileNode) : Prop :=
  node.isDir = false ∧ node.encrypted = false ∧ node.maxVersions = 10 ∧
    node.content = contents.getLast?.getD [] ∧
    node.versions.map (·.content) = (contents.dropLast.reverse).take 10

end FileNode

/-- Twelve successive writes of the one-letter contents "a" to "l". -/
def twelveWrites : List (Host × List Byte) :=
  ["a", "b", "c", "d", "e", "f", "g", "h", "i", "j", "k", "l"].map fun s => (sampleHost, str s)

/-! ## The namespace: listing, creating and removing entries -/

namespace FileNode

/-- What is left of `ptr` after the steps of `pre`, when `ptr` starts with them. -/
def dropPrefix : NodePtr → NodePtr → Option NodePtr
  | [], ptr => some ptr
  | _ :: _, [] => none
  | i :: pre, j :: ptr => if i = j then dropPrefix pre ptr else none

/-- Where a pointer into the tree points after `removeChild(childName)` was called on the
node at `parent`, whose children were `children`: nowhere (`none`) when it pointed to a
destroyed child or below one, and otherwise to the same node, which has moved up by the
number of destroyed children before it. -/
def afterRemoveChild (parent : NodePtr) (children : List FileNode) (childName : List Byte)
    (ptr : NodePtr) : Option NodePtr :=
  match dropPrefix parent ptr with
  | some (j :: rest) =>
    match children.get? j with
    | some child =>
      if child.name = childName then none
      else
        some (parent ++
          ((children.take j).filter fun sibling => sibling.name ≠ childName).length :: rest)
    | none => none
  | _ => some ptr

end FileNode

namespace VirtualFileSystem

/-- The function `VirtualFileSystem::touch`: the result and the namespace afterwards. -/
def touch (host : Host) (self : VirtualFileSystem) (path : List Byte) :
    Option (Bool × VirtualFileSystem) :=
  onResponsibleFS (touchLocal host) self path

/-- The entries `ls` makes for the children of the listed directory. -/
def childEntries (children : List FileNode) : List (List Byte) :=
  children.map fun child => if child.isDir then child.name ++ str "/" else child.name

/-- The entry `ls` of the root makes for one mount point, if it makes one: the part after the
last separator followed by '@', for a mount point of more than one character with no
separator after the first. -/
def mountEntry (mountPoint : List Byte) : Option (List Byte) :=
  if 1 < mountPoint.length then
    let mountName :=
      match findLastSlash mountPoint with
      | some lastSlash => mountPoint.drop (lastSlash + 1)
      | none => mountPoint
    if (mountPoint.drop 1).all fun c => c ≠ 47 then some (mountName ++ str "@") else none
  else none

/-- The body of `ls` in the responsible namespace: the target of a non-empty path has to be
a directory, the cursor is listed as it is. -/
def lsLocal (self : VirtualFileSystem) (path : List Byte) :
    Option (List (List Byte) × VirtualFileSystem) := do
  let target ←
    if path ≠ [] then
      match ← self.resolvePath path with
      | none => some none
      | some target =>
        let node ← self.root.nodeAt target
        if ¬ node.isDir then some none else some (some target)
    else self.currentDirectory.map some
  match target with
  | none => some ([], self)
  | some target =>
    let node ← self.root.nodeAt target
    let result := childEntries node.children
    if target = [] then
      some (result ++ (self.mountedVolumes.map (·.1)).filterMap mountEntry, self)
    else some (result, self)

/-- The function `VirtualFileSystem::ls`. -/
def ls (self : VirtualFileSystem) (path : List Byte) : Option (List (List Byte)) :=
  (onResponsibleFS lsLocal self path).map (·.1)

/-- The body of `remove` in the responsible namespace.  Destroying the children moves the
cursor's target up among its siblings or leaves the cursor dangling; the pointers kept in the
mount table are never read and are left as they are. -/
def removeLocal (host : Host) (self : VirtualFileSystem) (path : List Byte) :
    Option (Bool × VirtualFileSystem) := do
  match ← self.resolvePath path with
  | none => some (false, self)
  | some target =>
    let node ← self.root.nodeAt target
    let targetPath ← self.root.getPath target
    if self.isMountPoint targetPath then some (false, self)
    else
      match FileNode.getParent target with
      | none => some (false, self)
      | some parent =>
        let parentNode ← self.root.nodeAt parent
        let self : VirtualFileSystem :=
          { self with
            root := self.root.modifyAt (fun p => p.removeChild node.name) parent
            currentDirectory :=
              self.currentDirectory.bind
                (FileNode.afterRemoveChild parent parentNode.children node.name) }
        let self ← self.updateUsedSpace host
        some (true, self)

/-- The function `VirtualFileSystem::remove`: the result and the namespace afterwards. -/
def remove (host : Host) (self : VirtualFileSystem) (path : List Byte) :
    Option (Bool × VirtualFileSystem) :=
  onResponsibleFS (removeLocal host) self path

end VirtualFileSystem

/-! ## Disk images -/

/-- The files of the host, by name, and which names `std::ofstream` can open. -/
structure Disk where
  files : List (List Byte × List Byte)
  writable : List Byte → Bool

namespace Disk

/-- The test `std::filesystem::exists(name)`, also whether `std::ifstream` opens the file. -/
def fileExists (disk : Disk) (name : List Byte) : Bool := (mapFind disk.files name).isSome

/-- The disk after the file `name` is written anew with `bytes`. -/
def writeFile (disk : Disk) (name bytes : List Byte) : Disk :=
  { disk with files := mapSet disk.files name bytes }

end Disk

/-- The byte written for a `bool`. -/
def boolByte (b : Bool) : List Byte := [if b then 1 else 0]

/-- The eight bytes written for a `std::time_t`. -/
def timeTBytes (t : Int) : List Byte := littleEndian 8 (t % (2 ^ 64 : Int)).toNat

/-- The next `n` bytes of the stream and the rest; no value when fewer are left, which leaves
the variable read into indeterminate. -/
def takeBytes : Nat → List Byte → Option (List Byte × List Byte)
  | 0, bytes => some ([], bytes)
  | _ + 1, [] => none
  | n + 1, b :: rest => (takeBytes n rest).map fun r => (b :: r.1, r.2)

/-- Reads a `size_t`. -/
def parseSizeT (bytes : List Byte) : Option (Nat × List Byte) :=
  (takeBytes 8 bytes).map fun r => (fromLittleEndian r.1, r.2)

/-- Reads a `bool`: any non-zero byte counts as true. -/
def parseBool : List Byte → Option (Bool × List Byte)
  | [] => none
  | b :: rest => some (b ≠ 0, rest)

/-- Reads a length and that many characters. -/
def parseString (bytes : List Byte) : Option (List Byte × List Byte) :=
  (parseSizeT bytes).bind fun r => takeBytes r.1 r.2

/-- Runs `parse` `count` times in a row. -/
def parseMany {α : Type} (parse : List Byte → Option (α × List Byte)) :
    Nat → List Byte → Option (List α × List Byte)
  | 0, bytes => some ([], bytes)
  | count + 1, bytes =>
    match parse bytes with
    | none => none
    | some (a, bytes) =>
      match parseMany parse count bytes with
      | none => none
      | some (rest, bytes) => some (a :: rest, bytes)

/-- Strings are ordered as `std::map<std::string, ...>` orders its keys: byte by byte, a
proper prefix first. -/
def strLess : List Byte → List Byte → Bool
  | _, [] => false
  | [], _ :: _ => true
  | a :: x, b :: y => a.val < b.val || (a = b && strLess x y)

/-- The assignment `m[k] = v` on a `std::map`, whose entries are kept in key order. -/
def sortedSet {ν : Type} : List (List Byte × ν) → List Byte → ν → List (List Byte × ν)
  | [], k, v => [(k, v)]
  | (k', v') :: rest, k, v =>
    if k' = k then (k, v) :: rest
    else if strLess k k' then (k, v) :: (k', v') :: rest
    else (k', v') :: sortedSet rest k v

namespace VirtualFileSystem

mutual
/-- The lambda `serializeNode` of `saveToDisk`: the bytes written for the subtree of a node;
no value when the content of a file cannot be decoded. -/
def serializeNode : FileNode → Option (List Byte)
  | node@(FileNode.mk name isDir children ..) =>
    if isDir then
      (serializeNodes children).map fun records =>
        sizeTBytes name.length ++ name ++ boolByte true ++ sizeTBytes children.length ++ records
    else
      node.getContent.map fun content =>
        sizeTBytes name.length ++ name ++ boolByte false ++
          sizeTBytes content.length ++ content ++
          boolByte node.isCompressed ++
          sizeTBytes node.getCompressionAlgorithm.length ++ node.getCompressionAlgorithm ++
          boolByte node.isEncrypted ++
          (if node.isEncrypted then
            sizeTBytes node.getEncryptionAlgorithm.length ++ node.getEncryptionAlgorithm ++
              sizeTBytes node.getEncryptionKey.length ++ node.getEncryptionKey
          else []) ++
          sizeTBytes node.getVersionCount ++ node.getVersionTimestamps.flatMap timeTBytes
/-- The loop of `serializeNode` over the children of a directory. -/
def serializeNodes : List FileNode → Option (List Byte)
  | [] => some []
  | child :: rest =>
    match serializeNode child, serializeNodes rest with
    | some record, some records => some (record ++ records)
    | _, _ => none
end

/-- The bytes `saveToDisk` writes to its file. -/
def imageBytes (self : VirtualFileSystem) : Option (List Byte) := do
  let tree ← serializeNode self.root
  let currentPath ← self.getCurrentPath
  some (sizeTBytes self.diskSize ++ sizeTBytes self.usedSpace ++ tree ++
    sizeTBytes currentPath.length ++ currentPath ++
    sizeTBytes self.mountedVolumes.length ++
    self.mountedVolumes.flatMap fun m =>
      sizeTBytes m.1.length ++ m.1 ++ sizeTBytes m.2.diskImage.length ++ m.2.diskImage)

mutual
/-- The function `VirtualFileSystem::saveToDisk`: the result and the disk afterwards.  The
images of the mounted volumes are written on the way; the file itself is complete when the
function returns. -/
def saveToDisk : VirtualFileSystem → Disk → List Byte → Option (Bool × Disk)
  | ⟨root, currentDirectory, diskSize, usedSpace, mountedVolumes, fileTags⟩, disk, filename =>
    if ¬ disk.writable filename then some (false, disk)
    else
      match imageBytes ⟨root, currentDirectory, diskSize, usedSpace, mountedVolumes, fileTags⟩,
        saveMounted mountedVolumes disk with
      | some bytes, some disk => some (true, disk.writeFile filename bytes)
      | _, _ => none
/-- The calls `info.fs->saveToDisk(info.diskImage)` of `saveToDisk`, in the order of the
mount table. -/
def saveMounted : List (List Byte × MountInfo VirtualFileSystem) → Disk → Option Disk
  | [], disk => some disk
  | (_, ⟨diskImage, fs, _⟩) :: rest, disk =>
    match saveToDisk fs disk diskImage with
    | some (_, disk) => saveMounted rest disk
    | none => none
end

/-- The lambda `deserializeNode` of `loadFromDisk`: the node read and the rest of the stream.
A node record has at least nine bytes, so a fuel of the stream's length is enough. -/
def deserializeNode (host : Host) : Nat → List Byte → Option (FileNode × List Byte)
  | 0, _ => none
  | fuel + 1, bytes => do
    let (name, bytes) ← parseString bytes
    let (isDir, bytes) ← parseBool bytes
    let node := FileNode.new name isDir
    if ¬ isDir then
      let (content, bytes) ← parseString bytes
      let (compressed, bytes) ← parseBool bytes
      let (compressionAlg, bytes) ← parseString bytes
      let (encrypted, bytes) ← parseBool bytes
      let ((encryptionAlg, key), bytes) ←
        if encrypted then do
          let (encryptionAlg, bytes) ← parseString bytes
          let (key, bytes) ← parseString bytes
          some ((encryptionAlg, key), bytes)
        else some (([], []), bytes)
      let (versionCount, bytes) ← parseSizeT bytes
      let (_, bytes) ← takeBytes (8 * versionCount) bytes
      let node := node.setContent host content
      let node := if compressed then node.setCompressed host true compressionAlg else node
      let node := if encrypted ∧ key ≠ [] then node.setEncrypted true key encryptionAlg else node
      some (node, bytes)
    else
      let (childCount, bytes) ← parseSizeT bytes
      let (children, bytes) ← parseMany (deserializeNode host fuel) childCount bytes
      some (children.foldl FileNode.addChild node, bytes)

/-- The function `VirtualFileSystem::mountVolume`, with `load` standing for
`VirtualFileSystem().loadFromDisk`: the result and the namespace afterwards. -/
def mountVolumeWith (load : List Byte → Option (Bool × VirtualFileSystem)) (host : Host)
    (disk : Disk) (self : VirtualFileSystem) (diskImage mountPoint : List Byte) :
    Option (Bool × VirtualFileSystem) := do
  if ¬ disk.fileExists diskImage then some (false, self)
  else if self.isMountPoint mountPoint then some (false, self)
  else
    let found ←
      match ← self.resolvePath mountPoint with
      | some mountDir => some (some (some mountDir, self))
      | none =>
        let made ← self.mkdir host mountPoint
        if ¬ made.1 then some none
        else
          let mountDir ← made.2.resolvePath mountPoint
          some (some (mountDir, made.2))
    match found with
    | none => some (false, self)
    | some (none, self) => some (false, self)
    | some (some mountDir, self) =>
      let node ← self.root.nodeAt mountDir
      if ¬ node.isDir then some (false, self)
      else
        let loaded ← load diskImage
        if ¬ loaded.1 then some (false, self)
        else
          let mountPath ← self.root.getPath mountDir
          some (true,
            { self with
              mountedVolumes :=
                sortedSet self.mountedVolumes mountPath ⟨diskImage, loaded.2, mountDir⟩ })

/-- The loop of `loadFromDisk` over the mount records, `mount` standing for `mountVolume`. -/
def loadMounts
    (mount : VirtualFileSystem → List Byte → List Byte → Option (Bool × VirtualFileSystem)) :
    Nat → List Byte → VirtualFileSystem → Option VirtualFileSystem
  | 0, _, self => some self
  | mountCount + 1, bytes, self => do
    let (mountPoint, bytes) ← parseString bytes
    let (diskImage, bytes) ← parseString bytes
    let mounted ← mount self diskImage mountPoint
    loadMounts mount mountCount bytes mounted.2

/-- The function `VirtualFileSystem::loadFromDisk`: the result and the namespace afterwards.
Loading an image mounts the volumes it names, which loads their images in turn: the fuel
bounds how deep that goes, and there is no value beyond it. -/
def loadFromDisk (host : Host) (disk : Disk) :
    Nat → VirtualFileSystem → List Byte → Option (Bool × VirtualFileSystem)
  | 0, _, _ => none
  | fuel + 1, self, filename =>
    match mapFind disk.files filename with
    | none => some (false, self)
    | some bytes => do
      let (diskSize, bytes) ← parseSizeT bytes
      let (usedSpace, bytes) ← parseSizeT bytes
      let (root, bytes) ← deserializeNode host bytes.length bytes
      let (currentPath, bytes) ← parseString bytes
      let self : VirtualFileSystem :=
        { self with diskSize := diskSize, usedSpace := usedSpace, root := root,
                    currentDirectory := none }
      let current ←
        if currentPath = [] then some none
        else (self.resolvePath currentPath).map fun found => some (found.getD [])
      let self : VirtualFileSystem := { self with currentDirectory := current }
      match parseSizeT bytes with
      | none => some (true, self)
      | some (mountCount, bytes) =>
        let self ←
          loadMounts
            (mountVolumeWith
              (loadFromDisk host disk fuel (VirtualFileSystem.new (10 * 1024 * 1024))) host disk)
            mountCount bytes self
        some (true, self)

/-- The function `VirtualFileSystem::mountVolume`, for images nested at most `fuel` deep. -/
def mountVolume (fuel : Nat) (host : Host) (disk : Disk) (self : VirtualFileSystem)
    (diskImage mountPoint : List Byte) : Option (Bool × VirtualFileSystem) :=
  mountVolumeWith (loadFromDisk host disk fuel (VirtualFileSystem.new (10 * 1024 * 1024)))
    host disk self diskImage mountPoint

/-- The function `VirtualFileSystem::createVolume`: the result and the disk afterwards. -/
def createVolume (disk : Disk) (volumeName : List Byte) (volumeSize : Nat) :
    Option (Bool × Disk) :=
  (VirtualFileSystem.new volumeSize).saveToDisk disk volumeName

/-- The function `VirtualFileSystem::unmountVolume`: the result, the namespace and the disk
afterwards. -/
def unmountVolume (self : VirtualFileSystem) (disk : Disk) (mountPoint : List Byte) :
    Option (Bool × VirtualFileSystem × Disk) :=
  let normalizedMountPoint :=
    if mountPoint ≠ [] ∧ mountPoint.getLast? ≠ some 47 then mountPoint ++ str "/"
    else mountPoint
  match mapFind self.mountedVolumes normalizedMountPoint with
  | none => some (false, self, disk)
  | some info =>
    match info.fs.saveToDisk disk info.diskImage with
    | none => none
    | some (_, disk) =>
      some (true,
        { self with
          mountedVolumes := self.mountedVolumes.filter fun m => m.1 ≠ normalizedMountPoint },
        disk)

/-- The function `VirtualFileSystem::listMountedVolumes`. -/
def listMountedVolumes (self : VirtualFileSystem) : List (List Byte) :=
  self.mountedVolumes.map (·.1)

end VirtualFileSystem

/-- A disk with no files on which every name can be written. -/
def emptyDisk : Disk := ⟨[], fun _ => true⟩

/-! ## Search -/

/-- The struct `SearchFilter`.  A `std::regex` is kept as the test `std::regex_search` makes
with it, and a null `customFilter` is `none`. -/
structure SearchFilter where
  nameContains : Option (List Byte)
  namePattern : Option (List Byte → Bool)
  contentContains : Option (List Byte)
  contentPattern : Option (List Byte → Bool)
  filesOnly : Bool
  directoriesOnly : Bool
  minSize : Option Nat
  maxSize : Option Nat
  modifiedAfter : Option Int
  modifiedBefore : Option Int
  tags : List (List Byte)
  customFilter : Option (FileNode → Bool)

namespace SearchFilter

/-- A default-constructed `SearchFilter`. -/
def default : SearchFilter where
  nameContains := none
  namePattern := none
  contentContains := none
  contentPattern := none
  filesOnly := false
  directoriesOnly := false
  minSize := none
  maxSize := none
  modifiedAfter := none
  modifiedBefore := none
  tags := []
  customFilter := none

end SearchFilter

/-- The test `text.find(pattern) != std::string::npos`. -/
def containsSubstring (text pattern : List Byte) : Bool :=
  text.tails.any fun suffix => pattern.isPrefixOf suffix

/-- The function `getNodeModificationTime` on a non-null node. -/
def getNodeModificationTime (host : Host) (node : FileNode) : Int :=
  node.getVersionTimestamps.getLast?.getD host.now

/-- One round of the loop `while (p.find("//") != npos) p.replace(p.find("//"), 2, "/")`:
the string with its first "//" replaced, `none` when it has none. -/
def replaceFirstDoubleSlash : List Byte → Option (List Byte)
  | 47 :: 47 :: rest => some (47 :: rest)
  | c :: rest => (replaceFirstDoubleSlash rest).map fun replaced => c :: replaced
  | [] => none

/-- The loop `while (p.find("//") != npos) p.replace(p.find("//"), 2, "/")`; every round
shortens the string, so a fuel of its length is enough. -/
def collapseSlashes : Nat → List Byte → List Byte
  | 0, path => path
  | fuel + 1, path =>
    match replaceFirstDoubleSlash path with
    | some replaced => collapseSlashes fuel replaced
    | none => path

namespace VirtualFileSystem

/-- The function `VirtualFileSystem::contentMatches` on a non-null node.  For a regex the
caller passes the empty pattern, and the empty regex is found in every content. -/
def contentMatches (node : FileNode) (pattern : List Byte) (isRegex : Bool) : Option Bool :=
  if node.isDir then some false
  else node.getContent.map fun content => if isRegex then true else containsSubstring content pattern

/-- The test `bound.has_value() && rejects(bound.value())` of an optional filter field. -/
def rejectedBy {α : Type} (bound : Option α) (rejects : α → Bool) : Bool :=
  match bound with
  | some value => rejects value
  | none => false

/-- The function `VirtualFileSystem::matchesFilter` on a non-null node; no value when the
content of the node is needed and cannot be decoded. -/
def matchesFilter (host : Host) (fileTags : List (List Byte × List (List Byte)))
    (node : FileNode) (filePath : List Byte) (filter : SearchFilter) : Option Bool :=
  if filter.filesOnly && node.isDir then some false
  else if filter.directoriesOnly && !node.isDir then some false
  else if rejectedBy filter.nameContains fun s => !containsSubstring node.name s then some false
  else if rejectedBy filter.namePattern fun regex => !regex node.name then some false
  else if !node.isDir && rejectedBy filter.minSize fun m => decide (node.getSize < m) then
    some false
  else if !node.isDir && rejectedBy filter.maxSize fun m => decide (m < node.getSize) then
    some false
  else if rejectedBy filter.modifiedAfter fun t => decide (getNodeModificationTime host node < t)
  then some false
  else if rejectedBy filter.modifiedBefore fun t => decide (t < getNodeModificationTime host node)
  then some false
  else do
    let contentOk ←
      if node.isDir then some true
      else do
        let containsOk ←
          match filter.contentContains with
          | some pattern => contentMatches node pattern false
          | none => some true
        let patternOk ←
          if !containsOk then some true
          else
            match filter.contentPattern with
            | some _ => contentMatches node [] true
            | none => some true
        some (containsOk && patternOk)
    if !contentOk then some false
    else
      let tagsOk :=
        if filter.tags = [] then true
        else
          let normalizedPath :=
            (if filePath.head? ≠ some 47 then str "/" ++ filePath else filePath) ++
              str "/" ++ node.name
          match mapFind fileTags normalizedPath with
          | none => false
          | some nodeTags => filter.tags.all fun tag => nodeTags.contains tag
      if !tagsOk then some false
      else
        match filter.customFilter with
        | some custom => some (custom node)
        | none => some true

/-- The path `searchRecursive` computes for a node from the path it was reached under, both
for the result list and for the walk below the node. -/
def searchPath (isRoot : Bool) (node : FileNode) (currentPath : List Byte) : List Byte :=
  let joined :=
    if currentPath = str "/" ∨ currentPath = [] then str "/" ++ node.name
    else currentPath ++ str "/" ++ node.name
  let joined := if isRoot then str "/" else joined
  collapseSlashes joined.length joined

mutual
/-- The function `VirtualFileSystem::searchRecursive` on a non-null node: the paths it
appends to the results.  `isRoot` is the test `node == root.get()`. -/
def searchRecursive (host : Host) (fileTags : List (List Byte × List (List Byte)))
    (filter : SearchFilter) : Bool → FileNode → List Byte → Option (List (List Byte))
  | isRoot, node@(FileNode.mk _ isDir children ..), currentPath =>
    match matchesFilter host fileTags node currentPath filter with
    | none => none
    | some isMatch =>
      let own := if isMatch then [searchPath isRoot node currentPath] else []
      if isDir && !filter.filesOnly then
        (searchChildren host fileTags filter children (searchPath isRoot node currentPath)).map
          fun below => own ++ below
      else some own
/-- The loop of `searchRecursive` over the children of a directory. -/
def searchChildren (host : Host) (fileTags : List (List Byte × List (List Byte)))
    (filter : SearchFilter) : List FileNode → List Byte → Option (List (List Byte))
  | [], _ => some []
  | child :: rest, newPath =>
    match searchRecursive host fileTags filter false child newPath,
      searchChildren host fileTags filter rest newPath with
    | some found, some more => some (found ++ more)
    | _, _ => none
end

/-- The body of `search` in the responsible namespace. -/
def searchLocal (host : Host) (filter : SearchFilter) (self : VirtualFileSystem)
    (startPath : List Byte) : Option (List (List Byte) × VirtualFileSystem) := do
  let startNode ←
    if startPath ≠ [] then self.resolvePath startPath else self.currentDirectory.map some
  match startNode with
  | none => some ([], self)
  | some start =>
    let node ← self.root.nodeAt start
    let basePath ← if startPath = [] then self.getCurrentPath else some startPath
    let results ← searchRecursive host self.fileTags filter (start = []) node basePath
    some (results, self)

/-- The function `VirtualFileSystem::search`. -/
def search (host : Host) (self : VirtualFileSystem) (filter : SearchFilter)
    (startPath : List Byte) : Option (List (List Byte)) :=
  (onResponsibleFS (searchLocal host filter) self startPath).map (·.1)

/-- The function `VirtualFileSystem::searchBySize`. -/
def searchBySize (host : Host) (self : VirtualFileSystem) (minSize maxSize : Nat)
    (startPath : List Byte) : Option (List (List Byte)) :=
  search host self
    { SearchFilter.default with filesOnly := true, minSize := some minSize,
                                maxSize := some maxSize }
    startPath

end VirtualFileSystem

/-! ## The walk of a search -/

namespace VirtualFileSystem

mutual
/-- The nodes a search without `filesOnly` visits from a node on, in the order of the visits,
each with the path reported for it: the node itself, then what lies below each child of a
directory. -/
def visitedNodes : Bool → FileNode → List Byte → List (FileNode × List Byte)
  | isRoot, node@(FileNode.mk _ isDir children ..), currentPath =>
    (node, searchPath isRoot node currentPath) ::
      (if isDir then visitedBelow children (searchPath isRoot node currentPath) else [])
/-- The nodes visited below the children of a directory. -/
def visitedBelow : List FileNode → List Byte → List (FileNode × List Byte)
  | [], _ => []
  | child :: rest, newPath => visitedNodes false child newPath ++ visitedBelow rest newPath
end

/-- The paths reported for the visited nodes whose name contains `s` and which are a directory
or have a size of at least `m`. -/
def namedAndLargeOrDirectory (s : List Byte) (m : Nat)
    (visited : List (FileNode × List Byte)) : List (List Byte) :=
  (visited.filter fun entry =>
    containsSubstring entry.1.name s && (entry.1.isDir || decide (m ≤ entry.1.getSize))).map
    (·.2)

end VirtualFileSystem

/-! ## Call sequences on a namespace -/

namespace FileNode

/-- A node is well formed when no two of its children have the same name, it has no children
unless it is a directory, and its content is stored uncompressed. -/
def WellFormed (node : FileNode) : Prop :=
  (node.children.map (·.name)).Nodup ∧ (node.isDir = false → node.children = []) ∧
    node.compressed = false

/-- A tree is well formed when every node a pointer designates in it is. -/
def TreeWellFormed (root : FileNode) : Prop :=
  ∀ (ptr : NodePtr) (node : FileNode), root.nodeAt ptr = some node → node.WellFormed

end FileNode

/-- One call of `mkdir`, `touch`, `write` or `remove`, with the host it runs on. -/
inductive FsCall where
  | mkdir (host : Host) (path : List Byte)
  | touch (host : Host) (path : List Byte)
  | write (host : Host) (path content : List Byte)
  | remove (host : Host) (path : List Byte)

namespace FsCall

/-- The call made on a namespace: the result and the namespace afterwards. -/
def run : FsCall → VirtualFileSystem → Option (Bool × VirtualFileSystem)
  | mkdir host path, self => self.mkdir host path
  | touch host path, self => self.touch host path
  | write host path content, self => self.write host path content
  | remove host path, self => self.remove host path

end FsCall

/-- The namespace after a sequence of calls, whatever they return. -/
def runFsCalls : List FsCall → VirtualFileSystem → Option VirtualFileSystem
  | [], self => some self
  | call :: rest, self => (call.run self).bind fun result => runFsCalls rest result.2

namespace VirtualFileSystem

/-- The states the calls `mkdir`, `touch`, `write` and `remove` keep a fresh namespace in: no
mounts, the cursor at the root, and a well-formed tree. -/
def Plain (self : VirtualFileSystem) : Prop :=
  self.mountedVolumes = [] ∧ self.currentDirectory = some [] ∧ self.root.TreeWellFormed

end VirtualFileSystem

/-! ## Sample disks and call sequences -/

/-- The disk after `createVolume("v.img", 4096)` on the empty disk: the image of an empty
volume. -/
def volumeDisk : Disk :=
  ((VirtualFileSystem.createVolume emptyDisk (str "v.img") 4096).map (·.2)).getD emptyDisk

/-- The disk that holds, as "w.img", the image of a volume whose root has the one directory
"f". -/
def directoryVolumeDisk : Disk :=
  ((((VirtualFileSystem.new 4096).mkdir sampleHost (str "/f")).bind fun made =>
      made.2.saveToDisk emptyDisk (str "w.img")).map (·.2)).getD emptyDisk

/-- The filter of a search by name fragment and least size: only `nameContains` and `minSize`
are set. -/
def nameAndMinSizeFilter (s : List Byte) (m : Nat) : SearchFilter :=
  { SearchFilter.default with nameContains := some s, minSize := some m }

/-- The state after `write("/f", "x")` and `encryptFile("/f", "a", "AES")` on a
fresh namespace of 4096 bytes. -/
def encryptedFileState : Option VirtualFileSystem :=
  (((VirtualFileSystem.new 4096).write sampleHost (str "/f") (str "x")).bind fun written =>
    written.2.encryptFile (str "/f") (str "a") (str "AES")).map (·.2)

/-- The image `saveToDisk` writes for `encryptedFileState`: the sizes 4096 and 691, the root
record, the record of the file "f" with the content byte 0xDE, the flags, "AES" and the key
"a", no versions, the current path "/" and no mounts. -/
def encryptedFileImage : List Byte :=
  [0, 16, 0, 0, 0, 0, 0, 0, 179, 2, 0, 0, 0, 0, 0, 0,
   1, 0, 0, 0, 0, 0, 0, 0, 47, 1, 1, 0, 0, 0, 0, 0, 0, 0,
   1, 0, 0, 0, 0, 0, 0, 0, 102, 0, 1, 0, 0, 0, 0, 0, 0, 0, 222,
   0, 0, 0, 0, 0, 0, 0, 0, 0,
   1, 3, 0, 0, 0, 0, 0, 0, 0, 65, 69, 83, 1, 0, 0, 0, 0, 0, 0, 0, 97,
   0, 0, 0, 0, 0, 0, 0, 0,
   1, 0, 0, 0, 0, 0, 0, 0, 47,
   0, 0, 0, 0, 0, 0, 0, 0]

/-- The namespace of 1024 bytes holding the one directory `/a`, as `mkdir("/a")` leaves
it. -/
def sampleDirectoryState : VirtualFileSystem :=
  { VirtualFileSystem.new 1024 with
    root := (FileNode.new (str "/") true).addChild (FileNode.new (str "a") true)
    usedSpace := 690 }

/-- The namespace with the directory /logs, the 120-byte file /logs/app.log and the 1-byte
file /small.log. -/
def sampleLogState : VirtualFileSystem :=
  { VirtualFileSystem.new 4096 with
    root :=
      { FileNode.new (str "/") true with
        children :=
          [{ FileNode.new (str "logs") true with
              children :=
                [{ FileNode.new (str "app.log") false with
                    content := List.replicate 120 65, size := 120 }] },
            { FileNode.new (str "small.log") false with content := str "x", size := 1 }] } }

/-- The namespace of 1024 bytes after `mountVolume("v.img", "/b")` with the image of an empty
volume: the mount directory `/b` has been made and the volume entered under "/b". -/
def sampleMountedState : VirtualFileSystem :=
  (((VirtualFileSystem.new 1024).mountVolume 2 sampleHost volumeDisk (str "v.img")
    (str "/b")).map (·.2)).getD (VirtualFileSystem.new 1024)

/-- The namespace of 1024 bytes after `mkdir("/a")` and `mountVolume("v.img", "/a/b")` with
the image of an empty volume. -/
def sampleDeepMountedState : VirtualFileSystem :=
  ((((VirtualFileSystem.new 1024).mkdir sampleHost (str "/a")).bind fun made =>
      made.2.mountVolume 2 sampleHost volumeDisk (str "v.img") (str "/a/b")).map (·.2)).getD
    (VirtualFileSystem.new 1024)

/-- The entry of the mount table of `sampleDeepMountedState` for "/a/b". -/
def sampleVolumeInfo : MountInfo VirtualFileSystem :=
  (mapFind sampleDeepMountedState.mountedVolumes (str "/a/b")).getD
    ⟨[], VirtualFileSystem.new 0, []⟩

namespace VirtualFileSystem

/-- The function `VirtualFileSystem::searchByContent`; `compileRegex` stands for the
constructor of `std::regex`, with `none` for a `std::regex_error`. -/
def searchByContent (compileRegex : List Byte → Option (List Byte → Bool)) (host : Host)
    (self : VirtualFileSystem) (contentPattern : List Byte) (useRegex : Bool)
    (startPath : List Byte) : Option (List (List Byte)) :=
  if useRegex then
    match compileRegex contentPattern with
    | none => some []
    | some regex =>
      search host self
        { SearchFilter.default with filesOnly := true, contentPattern := some regex } startPath
  else
    search host self
      { SearchFilter.default with filesOnly := true, contentContains := some contentPattern }
      startPath

end VirtualFileSystem

/-- A byte string that is not the output of `compress`: tree size 2, one encoded bit, seven
padding bits, the serialized single leaf "1a" and one data byte. -/
def singleLeafRecord : List Byte :=
  [2, 0, 0, 0, 0, 0, 0, 0, 1, 0, 0, 0, 0, 0, 0, 0, 7, 49, 97, 0]

/-- A byte string whose header names the three bytes "01a" as the serialized tree, a tree
cut off after its left leaf, followed by the data byte 0x80 with one encoded bit. -/
def truncatedTreeRecord : List Byte :=
  [3, 0, 0, 0, 0, 0, 0, 0, 1, 0, 0, 0, 0, 0, 0, 0, 7, 48, 49, 97, 128]

/-- A byte string of 18 bytes whose header names the one byte "0" as the serialized tree and
no encoded bits. -/
def childlessTreeRecord : List Byte :=
  [1, 0, 0, 0, 0, 0, 0, 0, 0, 0, 0, 0, 0, 0, 0, 0, 0, 48]

/-- A fresh file "f" after `setEncrypted(true, "k", "XOR")`, `setContent("a")` and
`setContent("b")`. -/
def encryptedTwiceWritten : FileNode :=
  (((FileNode.new (str "f") false).setEncrypted true (str "k") (str "XOR")).setContent
    sampleHost (str "a")).setContent sampleHost (str "b")

/-- A fresh file "f" after `setContent("a")` and `setContent("b")`. -/
def plainTwiceWritten : FileNode :=
  ((FileNode.new (str "f") false).setContent sampleHost (str "a")).setContent sampleHost
    (str "b")

/-- A file "f" holding the plaintext "aaaa" under XOR encryption with the key "k". -/
def xorEncryptedFile : FileNode :=
  ((FileNode.new (str "f") false).setContent sampleHost (str "aaaa")).setEncrypted true
    (str "k") (str "XOR")

/-- The namespace of 4096 bytes after `mkdir("/docs")`, `write("/docs/a.txt", "hello")` and
`write("/g", "hello")`. -/
def sampleDocsState : VirtualFileSystem :=
  ((((VirtualFileSystem.new 4096).mkdir sampleHost (str "/docs")).bind fun s1 =>
      (s1.2.write sampleHost (str "/docs/a.txt") (str "hello")).bind fun s2 =>
        s2.2.write sampleHost (str "/g") (str "hello")).map (·.2)).getD
    (VirtualFileSystem.new 4096)

/-- The state `sampleDeepMountedState` written out: the directories /a and /a/b, and the fresh
volume of 4096 bytes entered under "/a/b". -/
def deepMountedState : VirtualFileSystem where
  root :=
    { FileNode.new (str "/") true with
      children := [{ FileNode.new (str "a") true with children := [FileNode.new (str "b") true] }] }
  currentDirectory := some []
  diskSize := 1024
  usedSpace := 1035
  mountedVolumes := [(str "/a/b", ⟨str "v.img", VirtualFileSystem.new 4096, [0, 0]⟩)]
  fileTags := []

namespace FileNode

/-- The children of a node are well named when no two of them have the same name and every
name is a path component: not empty, without separator, and not "." or "..". -/
def WellNamed (node : FileNode) : Prop :=
  (node.children.map (·.name)).Nodup ∧
    ∀ child ∈ node.children,
      child.name ≠ [] ∧ (47 : Byte) ∉ child.name ∧ child.name ≠ str "." ∧
        child.name ≠ str ".."

/-- A tree is well named when the children of every node a pointer designates in it are. -/
def TreeWellNamed (root : FileNode) : Prop :=
  ∀ (ptr : NodePtr) (node : FileNode), root.nodeAt ptr = some node → node.WellNamed

end FileNode

/-! ## Used space -/

namespace FileNode

mutual
/-- The sum over every node of the tree under a node of the per-node overhead, the length of
the name and, for a file, the length of the stored content. -/
def totalSize (overhead : Nat) : FileNode → Nat
  | FileNode.mk name isDir children content .. =>
    overhead + name.length + (if isDir then 0 else content.length) + totalSizes overhead children
/-- The sum of `totalSize` over a list of trees. -/
def totalSizes (overhead : Nat) : List FileNode → Nat
  | [] => 0
  | child :: rest => totalSize overhead child + totalSizes overhead rest
end

/-- A node is sized when it is not encrypted and its size is the length of its stored
content. -/
def Sized (node : FileNode) : Prop :=
  node.encrypted = false ∧ node.size = node.content.length

/-- A tree is sized when every node a pointer designates in it is. -/
def TreeSized (root : FileNode) : Prop :=
  ∀ (ptr : NodePtr) (node : FileNode), root.nodeAt ptr = some node → node.Sized

end FileNode

namespace FsCall

/-- The host a call runs on. -/
def host : FsCall → Host
  | mkdir host _ => host
  | touch host _ => host
  | write host _ _ => host
  | remove host _ => host

end FsCall

/-- The results of a sequence of calls, in order, and the namespace after them. -/
def runFsCallResults : List FsCall → VirtualFileSystem → Option (List Bool × VirtualFileSystem)
  | [], self => some ([], self)
  | call :: rest, self =>
    (call.run self).bind fun result =>
      (runFsCallResults rest result.2).map fun later => (result.1 :: later.1, later.2)

namespace VirtualFileSystem

/-- The function `VirtualFileSystem::getUsedSpace`. -/
def getUsedSpace (self : VirtualFileSystem) : Nat := self.usedSpace

/-- What a call of `mkdir`, `touch`, `write` or `remove` makes of a namespace: nothing, with
the result false; a new childless node under a name its parent has no child of; a new content
of a file, with the used space moved by the difference of the sizes; or the removal of the
children of one name from a node; each of the last three with the result true, and two of
them with the used space recomputed. -/
def Outcome (host : Host) (self : VirtualFileSystem) (result : Bool × VirtualFileSystem) :
    Prop :=
  result = (false, self) ∨
    (∃ (p : NodePtr) (node child : FileNode),
      self.root.nodeAt p = some node ∧ node.findChild child.name = none ∧
        child.children = [] ∧ child.compressed = false ∧ child.Sized ∧ result.1 = true ∧
        updateUsedSpace host
          { self with root := self.root.modifyAt (fun parent => parent.addChild child) p } =
          some result.2) ∨
    (∃ (target : NodePtr) (node : FileNode) (content : List Byte),
      self.root.nodeAt target = some node ∧ node.isDir = false ∧
        result =
          (true,
            { self with
              root := self.root.modifyAt (fun t => t.setContent host content) target
              usedSpace :=
                (self.usedSpace + (sizeTModulus - node.getSize % sizeTModulus) +
                  content.length) % sizeTModulus })) ∨
    ∃ (parent : NodePtr) (name : List Byte) (cursor : Option NodePtr),
      cursor = some [] ∧ result.1 = true ∧
        updateUsedSpace host
          { self with
            root := self.root.modifyAt (fun p => p.removeChild name) parent
            currentDirectory := cursor } = some result.2

end VirtualFileSystem

/-- Four calls on one host: `mkdir("/d")`, `write("/d/f", "abc")`, the overwriting
`write("/d/f", "hello")` and `touch("/g")`. -/
def sampleAccountedCalls : List FsCall :=
  [FsCall.mkdir sampleHost (str "/d"), FsCall.write sampleHost (str "/d/f") (str "abc"),
    FsCall.write sampleHost (str "/d/f") (str "hello"), FsCall.touch sampleHost (str "/g")]

namespace LZWCompression

/-- The entries the encoder has added to its dictionary for the phrases `phrases`, the first
one under the code `first`. -/
def phraseEntries (first : Int) : List (List Byte) → List (List Byte × Int)
  | [] => []
  | phrase :: rest => (phrase, first) :: phraseEntries (first + 1) rest

/-- The entries the decoder has added to its dictionary for the phrases `phrases`, the first
one under the code `first`. -/
def codeEntries (first : Int) : List (List Byte) → List (Int × List Byte)
  | [] => []
  | phrase :: rest => (first, phrase) :: codeEntries (first + 1) rest

end LZWCompression

namespace HuffmanNode

/-- A tree is proper when it is not null and every node of it has either no child or two
proper children. -/
def Proper : HuffmanNode → Prop
  | null => False
  | node _ _ l r => (l = null ∧ r = null) ∨ (Proper l ∧ Proper r)

/-- The characters of the leaves of a tree, from left to right. -/
def leaves : HuffmanNode → List Byte
  | null => []
  | node ch _ l r => if l.isNull && r.isNull then [ch] else leaves l ++ leaves r

/-- The way from the root of a tree to a leaf with the character `ch`, `false` for a step to
the left and `true` for a step to the right; of two such leaves the one further right is
taken. -/
def codeOf : HuffmanNode → Byte → Option (List Bool)
  | null, _ => none
  | node c _ l r, ch =>
    if l.isNull && r.isNull then (if c = ch then some [] else none)
    else
      match codeOf r ch with
      | some code => some (true :: code)
      | none => (codeOf l ch).map fun code => false :: code

/-- The tree `deserializeHuffmanTree` makes of the serialized form of a tree: the shape and
the characters of the leaves are kept, the frequencies and the characters of the inner nodes
are zero. -/
def strip : HuffmanNode → HuffmanNode
  | null => null
  | node ch _ l r => if l.isNull && r.isNull then node ch 0 null null else node 0 0 (strip l) (strip r)

end HuffmanNode

namespace HuffmanCompression

/-- The characters of the leaves of the trees in a queue. -/
def pqLeaves (pq : PriorityQueue) : List Byte := pq.flatMap fun entry => entry.2.leaves

/-- The number of padding bits `compress` records for an encoded string of `count`
characters. -/
def paddingOf (count : Nat) : Nat := if 8 - count % 8 = 8 then 0 else 8 - count % 8

/-- The string of '0' and '1' that `compress` makes of the input with the codes of a tree. -/
def encodedString (root : HuffmanNode) (input : List Byte) : List Bool :=
  input.flatMap fun ch => (mapFind (generateCodes root [] []) ch).getD []

end HuffmanCompression

/-- An input of two byte values that `HuffmanCompression::compress` shortens: twenty-six
times 'a' and one 'b'. -/
def sampleTwoSymbolInput : List Byte := List.replicate 26 97 ++ [98]

/-- The namespace of 4096 bytes after `mkdir("/a")`, `write("/f", c)` with `c` 24 times 'a'
and `compressFile("/f", true, "Huffman")`, with the results of the three calls; `none` when
a call has no value. -/
def huffmanCompressedFileState : Option ((Bool × Bool × Bool) × VirtualFileSystem) :=
  ((VirtualFileSystem.new 4096).mkdir sampleHost (str "/a")).bind fun made =>
    (made.2.write sampleHost (str "/f") (List.replicate 24 97)).bind fun written =>
      (written.2.compressFile sampleHost (str "/f") true (str "Huffman")).map fun compressed =>
        ((made.1, written.1, compressed.1), compressed.2)

/-! ## Theorems: codecs -/

/-- C2: the run-length codec does not round-trip the two-byte input "ab": `compress` returns
it unchanged (the encoding has four bytes), and `decompress` reads it as one (count, value)
pair and returns ninety-seven copies of 'b'. -/
theorem rle_fallback_not_restored :
    RLECompression.compress (str "ab") = str "ab" ∧
      RLECompression.decompress (RLECompression.compress (str "ab")) =
        List.replicate 97 98 ∧
      RLECompression.decompress (RLECompression.compress (str "ab")) ≠ str "ab" := by
  decide

namespace HuffmanCompression

/-- A single repeated byte gives a tree of one leaf, wherever the leaf is allocated. -/
theorem buildHuffmanTree_replicate_a (addr : Nat → Nat) :
    buildHuffmanTree addr (List.replicate 24 97) = .node 97 24 .null .null := rfl

/-- A `size_t` field takes eight bytes. -/
theorem length_sizeTBytes (n : Nat) : (sizeTBytes n).length = 8 := rfl

/-- A serialized tree has at least the two bytes of a leaf. -/
theorem two_le_length_serializeHuffmanTree (root : HuffmanNode) (h : root.isNull = false) :
    2 ≤ (serializeHuffmanTree root).length := by
  induction root with
  | null => simp [HuffmanNode.isNull] at h
  | node ch f l r ihl ihr =>
    unfold serializeHuffmanTree
    split
    · simp
    · rename_i hleaf
      simp only [HuffmanNode.isLeaf, HuffmanNode.left, HuffmanNode.right, Bool.and_eq_true,
        not_and, Bool.not_eq_true] at hleaf
      simp only [List.length_cons, List.length_append]
      cases hl : l.isNull
      · have := ihl hl; omega
      · have := ihr (hleaf hl); omega

/-- An input of at most nineteen bytes is never shortened: header and tree alone take
nineteen. -/
theorem huffman_compress_short (addr : Nat → Nat) (input : List Byte)
    (h : input.length ≤ 19) : compress addr input = input := by
  unfold compress
  split
  · rfl
  · simp only
    split
    · rfl
    · rename_i hroot
      have h2 :=
        two_le_length_serializeHuffmanTree (buildHuffmanTree addr input) (by simpa using hroot)
      unfold encodeWithTree
      simp only [List.length_append, length_sizeTBytes, List.length_singleton]
      split
      · omega
      · rfl

end HuffmanCompression

/-- C3: the Huffman codec does not round-trip, whatever the allocation order.  For twenty-four
copies of 'a' `compress` emits a record whose tree is a single leaf, and `decompress` steps
from that leaf to its null child and dereferences it: no value.  The nineteen-byte input
made of the fields 2, 0, 0 and the bytes "1a" is returned unchanged by `compress`, and
`decompress` reads it as a record with no encoded bits and returns the empty string. -/
theorem huffman_roundtrip_fails (addr : Nat → Nat) :
    HuffmanCompression.decompress
        (HuffmanCompression.compress addr (List.replicate 24 97)) = none ∧
      HuffmanCompression.compress addr (sizeTBytes 2 ++ sizeTBytes 0 ++ [0] ++ str "1a") =
        sizeTBytes 2 ++ sizeTBytes 0 ++ [0] ++ str "1a" ∧
      HuffmanCompression.decompress (sizeTBytes 2 ++ sizeTBytes 0 ++ [0] ++ str "1a") =
        some [] := by
  refine ⟨?_, HuffmanCompression.huffman_compress_short addr _ (by decide), by decide⟩
  have h : HuffmanCompression.compress addr (List.replicate 24 97) =
      HuffmanCompression.encodeWithTree (.node 97 24 .null .null) (List.replicate 24 97) := by
    unfold HuffmanCompression.compress
    rw [HuffmanCompression.buildHuffmanTree_replicate_a]
    rfl
  rw [h]
  decide

/-- C4: the LZW codec does not round-trip nine NUL bytes: `compress` returns them unchanged
(four codes and the header take twenty-four bytes), and `decompress` reads the first eight as
a code count of zero and returns the empty string. -/
theorem lzw_fallback_not_restored :
    LZWCompression.compress (List.replicate 9 0) = List.replicate 9 0 ∧
      LZWCompression.decompress (LZWCompression.compress (List.replicate 9 0)) = some [] := by
  decide

/-- C5: the toy block cipher does not decrypt what it encrypted: "x" under the key "a" comes
back as the byte 0xDE.  `decrypt` applies the inverse S-box before the key XOR, the same
order as `encrypt`, instead of XOR first. -/
theorem aes_decrypt_not_inverse :
    AESEncryption.encrypt (str "x") (str "a") = 0x37 :: List.replicate 15 0x97 ∧
      AESEncryption.decrypt (AESEncryption.encrypt (str "x") (str "a")) (str "a") = [0xDE] := by
  decide

/-- C6: the Vigenere cipher does not decrypt what it encrypted under the key "1": the key
character gives the shift -48, `encrypt` maps "a" to "K" through the truncating `%`, and
`decrypt` maps "K" to "G". -/
theorem vigenere_digit_key_not_inverse :
    VigenereCipher.encrypt (str "a") (str "1") = str "K" ∧
      VigenereCipher.decrypt (VigenereCipher.encrypt (str "a") (str "1")) (str "1") =
        str "G" := by
  decide

/-- C7: the Caesar cipher does not decrypt what it encrypted under the key "é" (UTF-8 bytes
C3 A9): the promoted characters are negative, the shift is -18, `encrypt` maps "a" to "O",
changing its case, and `decrypt` maps "O" to "G". -/
theorem caesar_negative_shift_not_inverse :
    CaesarCipher.keyToShift [0xC3, 0xA9] = -18 ∧
      CaesarCipher.encrypt (str "a") [0xC3, 0xA9] = str "O" ∧
      CaesarCipher.decrypt (CaesarCipher.encrypt (str "a") [0xC3, 0xA9]) [0xC3, 0xA9] =
        str "G" := by
  decide

namespace CaesarCipher

set_option maxHeartbeats 4000000 in
/-- Shifting by `26 - s` undoes shifting by `s`, for every shift from 0 to 25 and every
byte. -/
theorem shiftChar_cancel : ∀ s : Fin 26, ∀ b : Byte,
    shiftChar ((26 - (s.val : Int)).tmod 26) (shiftChar (s.val : Int) b) = b := by
  decide

/-- Where the promoted characters of the key sum to a non-negative number, the shift is one
of 0, ..., 25 and `decrypt` undoes `encrypt`. -/
theorem caesar_roundtrip_of_nonneg_sum (input key : List Byte)
    (h : 0 ≤ key.foldl (fun sum c => sum + charToInt c) 0) :
    decrypt (encrypt input key) key = input := by
  by_cases hk : input = [] ∨ key = []
  · simp [encrypt, decrypt, hk]
  · have hi : input ≠ [] := fun hi => hk (Or.inl hi)
    have hm : ¬ (input.map (shiftChar (keyToShift key)) = [] ∨ key = []) := by
      simpa using hk
    simp only [encrypt, decrypt, hk, hm, if_false, List.map_map]
    have h0 : 0 ≤ keyToShift key := Int.tmod_nonneg _ h
    have h26 : keyToShift key < 26 := Int.tmod_lt_of_pos _ (by norm_num)
    have hs := shiftChar_cancel ⟨(keyToShift key).toNat, by omega⟩
    have hcast : (((keyToShift key).toNat : Nat) : Int) = keyToShift key := Int.toNat_of_nonneg h0
    simp only [hcast] at hs
    conv_rhs => rw [← List.map_id input]
    apply List.map_congr_left
    intro b _
    exact hs b

end CaesarCipher

namespace VigenereCipher

/-- The key character of a letter is its position in the alphabet. -/
theorem keyChar_of_isalpha : ∀ b : Byte, isalpha b = true →
    0 ≤ charToInt (intToChar (tolower (charToInt b) - 97)) ∧
      charToInt (intToChar (tolower (charToInt b) - 97)) < 26 := by
  decide

set_option maxHeartbeats 4000000 in
/-- Under a key character from 0 to 25 a letter is encrypted to a letter of the same case,
and the decryption step gives it back. -/
theorem letter_cancel : ∀ s : Fin 26, ∀ b : Byte, isalpha b = true →
    isalpha (intToChar ((charToInt b - (if islower b then 97 else 65) + (s.val : Int)).tmod 26 +
        (if islower b then 97 else 65))) = true ∧
      islower (intToChar ((charToInt b - (if islower b then 97 else 65) + (s.val : Int)).tmod 26 +
        (if islower b then 97 else 65))) = islower b ∧
      intToChar ((charToInt (intToChar ((charToInt b - (if islower b then 97 else 65) +
          (s.val : Int)).tmod 26 + (if islower b then 97 else 65))) -
            (if islower b then 97 else 65) - (s.val : Int) + 26).tmod 26 +
          (if islower b then 97 else 65)) = b := by
  decide

/-- Under a non-empty key made of letters every key character is between 0 and 25. -/
theorem keyChar_range (key : List Byte) (hne : key ≠ []) (hkey : ∀ k ∈ key, isalpha k = true)
    (keyIndex : Nat) : 0 ≤ keyChar key keyIndex ∧ keyChar key keyIndex < 26 := by
  have hlen : 0 < key.length := List.length_pos.mpr hne
  have hlt : keyIndex % key.length < key.length := Nat.mod_lt _ hlen
  have hget : key.getD (keyIndex % key.length) 0 = key[keyIndex % key.length] := by
    simp [List.getD_eq_getElem?_getD, List.getElem?_eq_getElem hlt]
  unfold keyChar
  rw [hget]
  exact keyChar_of_isalpha _ (hkey _ (List.getElem_mem hlt))

/-- Under a non-empty key made of letters the decryption loop undoes the encryption loop. -/
theorem decryptLoop_encryptLoop (key : List Byte) (hne : key ≠ [])
    (hkey : ∀ k ∈ key, isalpha k = true) (input : List Byte) (keyIndex : Nat) :
    decryptLoop key (encryptLoop key input keyIndex) keyIndex = input := by
  induction input generalizing keyIndex with
  | nil => rfl
  | cons b rest ih =>
    by_cases hb : isalpha b = true
    · obtain ⟨h0, h26⟩ := keyChar_range key hne hkey keyIndex
      have hs := letter_cancel ⟨(keyChar key keyIndex).toNat, by omega⟩ b hb
      have hcast : (((keyChar key keyIndex).toNat : Nat) : Int) = keyChar key keyIndex :=
        Int.toNat_of_nonneg h0
      simp only [hcast] at hs
      obtain ⟨ha, hl, hc⟩ := hs
      simp only [encryptLoop, hb, if_true, decryptLoop, ha, hl, hc, ih]
    · simp only [encryptLoop, hb, decryptLoop, ih]
      simp

/-- Under a key made of letters `decrypt` undoes `encrypt`. -/
theorem vigenere_roundtrip_of_letter_key (input key : List Byte)
    (hkey : ∀ k ∈ key, isalpha k = true) : decrypt (encrypt input key) key = input := by
  by_cases hk : input = [] ∨ key = []
  · simp [encrypt, decrypt, hk]
  · have hne : key ≠ [] := fun h => hk (Or.inr h)
    have hi : input ≠ [] := fun h => hk (Or.inl h)
    have hround := decryptLoop_encryptLoop key hne hkey input 0
    have hm : ¬ (encryptLoop key input 0 = [] ∨ key = []) := by
      intro h
      rcases h with h | h
      · rw [h] at hround
        exact hi hround.symm
      · exact hne h
    simp only [encrypt, decrypt, hk, hm, if_false]
    exact hround

end VigenereCipher

/-- XOR with the same byte twice gives the byte back. -/
theorem byte_xor_cancel (a k : Byte) : (a ^^^ k) ^^^ k = a := by
  apply Fin.ext
  show (((a.val ^^^ k.val) % 256) ^^^ k.val) % 256 = a.val
  have h : a.val ^^^ k.val < 2 ^ 8 := Nat.xor_lt_two_pow (by omega) (by omega)
  have h256 : (2 : Nat) ^ 8 = 256 := by norm_num
  rw [h256] at h
  rw [Nat.mod_eq_of_lt h, Nat.xor_assoc, Nat.xor_self, Nat.xor_zero]
  exact Nat.mod_eq_of_lt a.isLt

namespace XOREncryption

/-- The output of `encrypt` has the length of the input. -/
theorem length_xor_encrypt (input k : List Byte) :
    (encrypt input k).length = input.length := by
  unfold encrypt
  split <;> simp

/-- The bytes of the output of `encrypt` under a non-empty key. -/
theorem getElem?_xor_encrypt (input k : List Byte) (hk : k ≠ []) (i : Nat)
    (hi : i < input.length) :
    (encrypt input k)[i]? = some (input[i] ^^^ k.getD (i % k.length) 0) := by
  unfold encrypt
  split
  · rename_i h
    rcases h with h | h
    · subst h; simp at hi
    · exact absurd h hk
  · simp [List.getElem?_mapIdx, hi]

end XOREncryption

/-- C8: XOR encryption is self-inverse, `decrypt` is `encrypt`, and under a non-empty key the
byte at position `i` of the output is `c[i] XOR k[i mod |k|]`. -/
theorem xor_encrypt_self_inverse (input k : List Byte) :
    XOREncryption.encrypt (XOREncryption.encrypt input k) k = input ∧
      XOREncryption.decrypt = XOREncryption.encrypt ∧
      (k ≠ [] → ∀ (i : Nat) (hi : i < input.length) (hk : i % k.length < k.length),
        (XOREncryption.encrypt input k)[i]? = some (input[i] ^^^ k[i % k.length])) := by
  refine ⟨?_, rfl, ?_⟩
  · by_cases hk : k = []
    · simp [XOREncryption.encrypt, hk]
    · apply List.ext_getElem?
      intro i
      by_cases hi : i < input.length
      · have hi' : i < (XOREncryption.encrypt input k).length := by
          rw [XOREncryption.length_xor_encrypt]; exact hi
        rw [XOREncryption.getElem?_xor_encrypt _ k hk i hi']
        have h1 := XOREncryption.getElem?_xor_encrypt input k hk i hi
        rw [List.getElem?_eq_getElem hi'] at h1
        rw [Option.some.inj h1, byte_xor_cancel, List.getElem?_eq_getElem hi]
      · have hi' : ¬ i < (XOREncryption.encrypt (XOREncryption.encrypt input k) k).length := by
          rw [XOREncryption.length_xor_encrypt, XOREncryption.length_xor_encrypt]; exact hi
        rw [List.getElem?_eq_none (by omega), List.getElem?_eq_none (by omega)]
  · intro hk i hi hki
    rw [XOREncryption.getElem?_xor_encrypt input k hk i hi]
    simp [List.getD_eq_getElem?_getD, List.getElem?_eq_getElem hki]

/-- C8 at "abc" under the key bytes 1, 2: position 2 holds 'c' XOR 1. -/
theorem xor_encrypt_self_inverse_witness :
    ([1, 2] : List Byte) ≠ [] ∧ 2 < (str "abc").length ∧
      (XOREncryption.encrypt (str "abc") [1, 2])[2]? = some 98 :=
  ⟨by decide, by decide,
    (xor_encrypt_self_inverse (str "abc") [1, 2]).2.2 (by decide) 2 (by decide) (by decide)⟩

/-- The final choice of every `compress`: the encoding when it is strictly shorter, the
input otherwise. -/
theorem fallback_never_longer (result input : List Byte) :
    (if result.length < input.length then result else input).length ≤ input.length ∧
      ((if result.length < input.length then result else input) ≠ input →
        (if result.length < input.length then result else input).length < input.length) := by
  split
  · exact ⟨by omega, fun _ => by assumption⟩
  · exact ⟨le_refl _, fun h => absurd rfl h⟩

/-- C9: no codec returns more bytes than it was given, and an output that differs from the
input is strictly shorter. -/
theorem compress_never_longer (addr : Nat → Nat) (algorithm : CompressionAlgorithm)
    (input : List Byte) :
    (algorithm.compress addr input).length ≤ input.length ∧
      (algorithm.compress addr input ≠ input →
        (algorithm.compress addr input).length < input.length) := by
  have same : input.length ≤ input.length ∧ (input ≠ input → input.length < input.length) :=
    ⟨le_refl _, fun h => absurd rfl h⟩
  cases algorithm
  · simp only [CompressionAlgorithm.compress, RLECompression.compress]
    cases input with
    | nil => simp
    | cons first rest => exact fallback_never_longer _ _
  · simp only [CompressionAlgorithm.compress, HuffmanCompression.compress]
    split
    · exact same
    · split
      · exact same
      · exact fallback_never_longer _ _
  · simp only [CompressionAlgorithm.compress, LZWCompression.compress]
    split
    · exact same
    · exact fallback_never_longer _ _

/-- C9 at "aaaa" under run-length encoding: the output (4, 'a') differs from the input and
has two bytes. -/
theorem compress_never_longer_witness :
    CompressionAlgorithm.rle.compress id (str "aaaa") ≠ str "aaaa" ∧
      (CompressionAlgorithm.rle.compress id (str "aaaa")).length < (str "aaaa").length :=
  ⟨by decide, (compress_never_longer id .rle (str "aaaa")).2 (by decide)⟩

/-! ## Theorems: the version ledger -/

namespace FileNode

@[simp] theorem versions_store (node : FileNode) (newContent : List Byte) :
    (node.store newContent).versions = node.versions := rfl

@[simp] theorem versions_recompress (host : Host) (node : FileNode) :
    (node.recompress host).versions = node.versions := by
  unfold recompress; split <;> rfl

@[simp] theorem versions_reencrypt (node : FileNode) :
    node.reencrypt.versions = node.versions := by
  unfold reencrypt; split <;> rfl

@[simp] theorem maxVersions_store (node : FileNode) (newContent : List Byte) :
    (node.store newContent).maxVersions = node.maxVersions := rfl

@[simp] theorem maxVersions_recompress (host : Host) (node : FileNode) :
    (node.recompress host).maxVersions = node.maxVersions := by
  unfold recompress; split <;> rfl

@[simp] theorem maxVersions_reencrypt (node : FileNode) :
    node.reencrypt.maxVersions = node.maxVersions := by
  unfold reencrypt; split <;> rfl

@[simp] theorem maxVersions_saveVersion (host : Host) (node : FileNode) :
    (node.saveVersion host).maxVersions = node.maxVersions := by
  unfold saveVersion; split <;> rfl

/-- After `saveVersion` the ledger holds at most `maxVersions` entries, or is as before. -/
theorem length_versions_saveVersion (host : Host) (node : FileNode) :
    (node.saveVersion host).versions.length ≤ max node.maxVersions node.versions.length := by
  unfold saveVersion
  split
  · exact le_max_right _ _
  · simp only [List.length_take]
    omega

theorem ledgerBounded_new (name : List Byte) (isDirectory : Bool) :
    LedgerBounded (FileNode.new name isDirectory) := by
  simp [LedgerBounded, FileNode.new]

theorem ledgerBounded_saveVersion (host : Host) (node : FileNode) (h : LedgerBounded node) :
    LedgerBounded (node.saveVersion host) := by
  refine ⟨?_, (maxVersions_saveVersion host node).trans h.2⟩
  have := length_versions_saveVersion host node
  rw [h.2] at this
  have := h.1
  omega

theorem ledgerBounded_setContent (host : Host) (node : FileNode) (newContent : List Byte)
    (h : LedgerBounded node) : LedgerBounded (node.setContent host newContent) := by
  unfold setContent
  split
  · exact h
  · simp only [LedgerBounded, versions_reencrypt, versions_recompress, versions_store,
      maxVersions_reencrypt, maxVersions_recompress, maxVersions_store]
    split
    · exact ledgerBounded_saveVersion host node h
    · exact h

theorem ledgerBounded_restoreVersion (host : Host) (node : FileNode) (versionIndex : Nat)
    (h : LedgerBounded node) : LedgerBounded (node.restoreVersion host versionIndex).2 := by
  unfold restoreVersion
  split
  · exact h
  · simp only [LedgerBounded, versions_reencrypt, versions_recompress, versions_store,
      maxVersions_reencrypt, maxVersions_recompress, maxVersions_store]
    exact ledgerBounded_saveVersion host node h

theorem ledgerBounded_run (host : Host) (node : FileNode) (call : LedgerCall)
    (h : LedgerBounded node) : LedgerBounded (call.run host node) := by
  cases call
  · exact ledgerBounded_setContent host node _ h
  · exact ledgerBounded_saveVersion host node h
  · exact ledgerBounded_restoreVersion host node _ h

theorem ledgerBounded_runLedgerCalls (calls : List (Host × LedgerCall)) (node : FileNode)
    (h : LedgerBounded node) : LedgerBounded (runLedgerCalls node calls) := by
  induction calls generalizing node with
  | nil => exact h
  | cons call rest ih => exact ih _ (ledgerBounded_run call.1 node call.2 h)

end FileNode

namespace FileNode

@[simp] theorem isDir_saveVersion (host : Host) (node : FileNode) :
    (node.saveVersion host).isDir = node.isDir := by
  unfold saveVersion; split <;> rfl

@[simp] theorem encrypted_saveVersion (host : Host) (node : FileNode) :
    (node.saveVersion host).encrypted = node.encrypted := by
  unfold saveVersion; split <;> rfl

@[simp] theorem isDir_store (node : FileNode) (newContent : List Byte) :
    (node.store newContent).isDir = node.isDir := rfl

@[simp] theorem encrypted_store (node : FileNode) (newContent : List Byte) :
    (node.store newContent).encrypted = node.encrypted := rfl

@[simp] theorem content_store (node : FileNode) (newContent : List Byte) :
    (node.store newContent).content = newContent := rfl

@[simp] theorem isDir_recompress (host : Host) (node : FileNode) :
    (node.recompress host).isDir = node.isDir := by
  unfold recompress; split <;> rfl

@[simp] theorem encrypted_recompress (host : Host) (node : FileNode) :
    (node.recompress host).encrypted = node.encrypted := by
  unfold recompress; split <;> rfl

@[simp] theorem content_recompress (host : Host) (node : FileNode) :
    (node.recompress host).content = node.content := by
  unfold recompress; split <;> rfl

/-- Without encryption `reencrypt` does nothing. -/
theorem reencrypt_of_not_encrypted (node : FileNode) (h : node.encrypted = false) :
    node.reencrypt = node := by
  unfold reencrypt; simp [h]

/-- The ledger after `saveVersion` on a file. -/
theorem versions_saveVersion (host : Host) (node : FileNode) (hfile : node.isDir = false) :
    (node.saveVersion host).versions =
      (⟨node.content, host.now⟩ :: node.versions).take node.maxVersions := by
  unfold saveVersion; simp [hfile]

theorem ledgerOf_new (name : List Byte) : LedgerOf [] (FileNode.new name false) := by
  simp [LedgerOf, FileNode.new]

theorem ledgerOf_setContent (host : Host) (contents : List (List Byte)) (node : FileNode)
    (newContent : List Byte) (h : LedgerOf contents node)
    (hne : ∀ x ∈ contents, x ≠ []) :
    LedgerOf (contents ++ [newContent]) (node.setContent host newContent) := by
  obtain ⟨hdir, henc, hmax, hcontent, hversions⟩ := h
  unfold setContent
  simp only [hdir, Bool.false_eq_true, if_false]
  rcases List.eq_nil_or_concat contents with hnil | ⟨front, last, hcons⟩
  · subst hnil
    have hc : node.content = [] := by simpa using hcontent
    have hv : node.versions = [] := by simpa using hversions
    simp only [hc, ne_eq, not_true_eq_false, if_false]
    rw [reencrypt_of_not_encrypted _ (by simp [henc])]
    simp [LedgerOf, hdir, henc, hmax, hv, store]
  · subst hcons
    have hlast : last ≠ [] := hne last (by simp)
    have hc : node.content = last := by simpa using hcontent
    simp only [hc, ne_eq, hlast, not_false_eq_true, if_true]
    rw [reencrypt_of_not_encrypted _ (by simp [henc])]
    refine ⟨by simp [hdir, store], by simp [henc, store], by simp [hmax, store],
      by simp [store], ?_⟩
    simp only [versions_recompress, versions_store, versions_saveVersion host node hdir, hmax,
      List.map_take, List.map_cons, hversions, hc]
    simp only [List.concat_eq_append, List.dropLast_concat, List.reverse_append,
      List.reverse_cons, List.reverse_nil, List.nil_append, List.singleton_append]
    show List.take (9 + 1) (last :: List.take 10 front.reverse) = List.take (9 + 1) (last :: front.reverse)
    rw [List.take_succ_cons, List.take_succ_cons, List.take_take]
    simp

theorem ledgerOf_setContents (writes : List (Host × List Byte)) (contents : List (List Byte))
    (node : FileNode) (h : LedgerOf contents node) (hne : ∀ x ∈ contents, x ≠ [])
    (hw : ∀ w ∈ writes, w.2 ≠ []) :
    LedgerOf (contents ++ writes.map (·.2)) (setContents node writes) := by
  induction writes generalizing contents node with
  | nil => simpa [setContents] using h
  | cons w rest ih =>
    have step := ledgerOf_setContent w.1 contents node w.2 h hne
    have := ih (contents ++ [w.2]) (node.setContent w.1 w.2) step
      (by
        intro x hx
        rcases List.mem_append.mp hx with hx | hx
        · exact hne x hx
        · rw [List.mem_singleton.mp hx]; exact hw w (by simp))
      (fun w' hw' => hw w' (by simp [hw']))
    simpa [setContents] using this

end FileNode

/-- C10: the ledger of a file node that is within its capacity of ten stays within it under
any `setContent`, `saveVersion` and `restoreVersion` calls, whatever the compression and
encryption state; a fresh file node is such a node.  After `setContent` calls with non-empty
contents c1, ..., cN on a fresh file the ledger holds the contents c(N-1), c(N-2), ... down
to the tenth, index 0 the most recent: min(N-1, 10) versions in all. -/
theorem version_ledger_bounded_newest_first (name : List Byte) :
    (∀ (node : FileNode) (calls : List (Host × LedgerCall)),
        node.maxVersions = 10 → node.getVersionCount ≤ 10 →
          (runLedgerCalls node calls).getVersionCount ≤ 10) ∧
      (∀ calls : List (Host × LedgerCall),
        (runLedgerCalls (FileNode.new name false) calls).getVersionCount ≤ 10) ∧
      (∀ writes : List (Host × List Byte), (∀ w ∈ writes, w.2 ≠ []) →
        (setContents (FileNode.new name false) writes).versions.map (·.content) =
            ((writes.map (·.2)).dropLast.reverse).take 10 ∧
          (setContents (FileNode.new name false) writes).getVersionCount =
            min (writes.length - 1) 10) := by
  refine ⟨?_, ?_, ?_⟩
  · intro node calls hmax hcount
    exact (FileNode.ledgerBounded_runLedgerCalls calls node ⟨hcount, hmax⟩).1
  · intro calls
    exact (FileNode.ledgerBounded_runLedgerCalls calls _ (FileNode.ledgerBounded_new name false)).1
  · intro writes hw
    have h := FileNode.ledgerOf_setContents writes [] _ (FileNode.ledgerOf_new name)
      (by simp) hw
    have hv := h.2.2.2.2
    simp only [List.nil_append] at hv
    refine ⟨hv, ?_⟩
    have hlen := congrArg List.length hv
    simp only [List.length_map, List.length_take, List.length_reverse,
      List.length_dropLast] at hlen
    unfold FileNode.getVersionCount
    omega

/-- C10 at twelve writes "a", ..., "l": the ledger holds "k" down to "b", ten versions, and
still ten after a further `restoreVersion(3)` and `saveVersion`. -/
theorem version_ledger_bounded_newest_first_witness :
    (∀ w ∈ twelveWrites, w.2 ≠ []) ∧
      ((setContents (FileNode.new (str "f") false) twelveWrites).versions.map (·.content) =
          ["k", "j", "i", "h", "g", "f", "e", "d", "c", "b"].map str ∧
        (setContents (FileNode.new (str "f") false) twelveWrites).getVersionCount = 10) ∧
      (setContents (FileNode.new (str "f") false) twelveWrites).maxVersions = 10 ∧
      (runLedgerCalls (setContents (FileNode.new (str "f") false) twelveWrites)
        [(sampleHost, .restoreVersion 3), (sampleHost, .saveVersion)]).getVersionCount ≤ 10 :=
  ⟨by decide, (version_ledger_bounded_newest_first (str "f")).2.2 twelveWrites (by decide),
    by decide,
    (version_ledger_bounded_newest_first (str "f")).1 _ _ (by decide) (by decide)⟩

/-! ## Theorems: the namespace -/

/-- C1: `write` followed by `cat` does not always return what was written.  On the file /f
with run-length compression enabled, `write("/f", "ab")` returns true and `cat("/f")` returns
ninety-seven copies of 'b'.  With no compression or encryption anywhere and the cursor in
/d, `write("/f", "x")` returns true, having created the file as /d/f, and `cat("/f")`
returns the empty string. -/
theorem write_then_cat_not_restored :
    (((VirtualFileSystem.new 1024).write sampleHost (str "/f") (str "x")).bind fun s1 =>
        (s1.2.compressFile sampleHost (str "/f") true (str "RLE")).bind fun s2 =>
          (s2.2.write sampleHost (str "/f") (str "ab")).map fun s3 =>
            (s1.1, s2.1, s3.1, s3.2.cat (str "/f"))) =
        some (true, true, true, some (List.replicate 97 98)) ∧
      (((VirtualFileSystem.new 1024).mkdir sampleHost (str "/d")).bind fun s1 =>
        (s1.2.cd (str "/d")).bind fun s2 =>
          (s2.2.write sampleHost (str "/f") (str "x")).map fun s3 =>
            (s1.1, s2.1, s3.1, s3.2.cat (str "/f"), s3.2.cat (str "/d/f"))) =
        some (true, true, true, some [], some (str "x")) := by
  constructor <;> rfl

/-! ## Theorems: restoring a version -/

/-- C11: on a fresh file, after `setContent(c1); setContent(c2)` with non-empty contents the
call `restoreVersion(0)` returns true, and `getContent()` afterwards returns c2, the content
of the last write, not c1: `restoreVersion` pushes the current content to the front of the
ledger before it reads `versions[versionIndex]`, so index 0 is the snapshot it has just
taken; with "a" and "b" written, "b" is returned. -/
theorem restoreVersion_zero_returns_last_write (host1 host2 host3 : Host) (name : List Byte)
    (first1 : Byte) (rest1 : List Byte) (first2 : Byte) (rest2 : List Byte) :
    ((((FileNode.new name false).setContent host1 (first1 :: rest1)).setContent host2
        (first2 :: rest2)).restoreVersion host3 0).1 = true ∧
      ((((FileNode.new name false).setContent host1 (first1 :: rest1)).setContent host2
        (first2 :: rest2)).restoreVersion host3 0).2.getContent = some (first2 :: rest2) ∧
      ((((FileNode.new (str "f") false).setContent sampleHost (str "a")).setContent sampleHost
        (str "b")).restoreVersion sampleHost 0).2.getContent = some (str "b") := by
  refine ⟨?_, ?_, by decide⟩ <;>
    simp [FileNode.setContent, FileNode.restoreVersion, FileNode.new, FileNode.store,
      FileNode.recompress, FileNode.reencrypt, FileNode.saveVersion, FileNode.getContent]

/-! ## Theorems: mounted volumes, the cursor, search and images at concrete inputs -/

/-- C13, as stated, fails: after `mkdir("/a")` and a successful `mountVolume("v.img",
"/a/b")` the listing `ls("/a")` is the single entry "b/" of the mount directory and has no
entry "b@". -/
theorem ls_parent_lacks_mount_entry :
    (((VirtualFileSystem.new 1024).mkdir sampleHost (str "/a")).bind fun s1 =>
        (s1.2.mountVolume 2 sampleHost volumeDisk (str "v.img") (str "/a/b")).bind fun s2 =>
          (s2.2.ls (str "/a")).map fun listing =>
            (s1.1, s2.1, s2.2.isMountPoint (str "/a/b"), listing,
              decide (str "b@" ∈ listing))) =
      some (true, true, true, [str "b/"], false) := by
  rfl

/-- C14, as stated, fails: with a volume mounted at /a/b whose root already has a directory
"f", `write("/a/b/f", "x")` returns false, as the volume's own `write("/f", "x")` does, and
the volume holds no file /f with content "x": `cat("/a/b/f")` is empty and the volume still
lists the directory "f/". -/
theorem write_below_mount_refused_for_directory :
    (((VirtualFileSystem.new 1024).mkdir sampleHost (str "/a")).bind fun s1 =>
        (s1.2.mountVolume 2 sampleHost directoryVolumeDisk (str "w.img") (str "/a/b")).bind
          fun s2 =>
            (s2.2.write sampleHost (str "/a/b/f") (str "x")).map fun s3 =>
              (s2.1, s3.1, s3.2.cat (str "/a/b/f"), s3.2.ls (str "/a/b"))) =
      some (true, false, some [], some [str "f/"]) := by
  rfl

/-- C15: after a successful `mountVolume("v.img", "/vol")` the call `unmountVolume("/vol")`
returns false and the volume stays mounted: the table is keyed by "/vol", and
`unmountVolume` looks up "/vol/".  The same happens at "/a/b". -/
theorem unmountVolume_misses_its_key :
    (((VirtualFileSystem.new 1024).mountVolume 2 sampleHost volumeDisk (str "v.img")
          (str "/vol")).bind fun s1 =>
        (s1.2.unmountVolume volumeDisk (str "/vol")).map fun s2 =>
          (s1.1, s2.1, s2.2.1.isMountPoint (str "/vol"), s2.2.1.listMountedVolumes)) =
        some (true, false, true, [str "/vol"]) ∧
      (((VirtualFileSystem.new 1024).mkdir sampleHost (str "/a")).bind fun s1 =>
        (s1.2.mountVolume 2 sampleHost volumeDisk (str "v.img") (str "/a/b")).bind fun s2 =>
          (s2.2.unmountVolume volumeDisk (str "/a/b")).map fun s3 =>
            (s2.1, s3.1, s3.2.1.isMountPoint (str "/a/b"), s3.2.1.listMountedVolumes)) =
        some (true, false, true, [str "/a/b"]) := by
  constructor <;> rfl

/-- C16: with a volume mounted at /vol and the cursor at the root, `cd("vol")` returns true
and moves the cursor into the mount directory: the path checked against the mount table is
"//vol".  The absolute `cd("/vol")` is refused. -/
theorem cd_enters_mount_point_by_relative_name :
    (((VirtualFileSystem.new 1024).mountVolume 2 sampleHost volumeDisk (str "v.img")
          (str "/vol")).bind fun s1 =>
        (s1.2.cd (str "vol")).bind fun s2 =>
          (s1.2.cd (str "/vol")).map fun s3 =>
            (s1.1, s1.2.getCurrentPath, s2.1, s2.2.getCurrentPath,
              s2.2.isMountPoint (str "/vol"), s3.1)) =
      some (true, some (str "/"), true, some (str "/vol"), true, false) := by
  rfl

/-- C17: after `mkdir("/d")` and `cd("/d")` the call `remove("/d")` returns true and destroys
the directory the cursor points to; the cursor is left dangling, and so it is after
`mkdir("/d/e")`, `cd("/d/e")` and `remove("/d")`, which destroys an ancestor. -/
theorem remove_leaves_cursor_dangling :
    (((VirtualFileSystem.new 1024).mkdir sampleHost (str "/d")).bind fun s1 =>
        (s1.2.cd (str "/d")).bind fun s2 =>
          (s2.2.remove sampleHost (str "/d")).map fun s3 =>
            (s1.1, s2.1, s2.2.currentDirectory, s3.1, s3.2.currentDirectory,
              s3.2.getCurrentPath, s3.2.ls (str "/"))) =
        some (true, true, some [0], true, none, none, some []) ∧
      (((VirtualFileSystem.new 1024).mkdir sampleHost (str "/d")).bind fun s1 =>
        (s1.2.mkdir sampleHost (str "/d/e")).bind fun s2 =>
          (s2.2.cd (str "/d/e")).bind fun s3 =>
            (s3.2.remove sampleHost (str "/d")).map fun s4 =>
              (s3.1, s3.2.currentDirectory, s4.1, s4.2.currentDirectory)) =
        some (true, some [0, 0], true, none) := by
  constructor <;> rfl

/-- C20: a file "x" encrypted by the default cipher under the key "a" is read by `cat` as the
byte 0xDE; `saveToDisk` writes that byte as the content of the file, and after `loadFromDisk`
of the written image into a fresh namespace, which encrypts the byte again, `cat` reads the
byte 0x0C. -/
theorem image_reload_changes_cat :
    (encryptedFileState.bind fun s => s.cat (str "/f")) = some [0xDE] ∧
      ((encryptedFileState.bind fun s => s.saveToDisk emptyDisk (str "x.img")).map fun saved =>
        (saved.1, saved.2.files)) = some (true, [(str "x.img", encryptedFileImage)]) ∧
      (((VirtualFileSystem.new 4096).loadFromDisk sampleHost
          (emptyDisk.writeFile (str "x.img") encryptedFileImage) 1 (str "x.img")).map
        fun loaded => (loaded.1, loaded.2.cat (str "/f"))) = some (true, some [0x0C]) := by
  refine ⟨by decide, by decide, by decide⟩

/-! ## Lemmas: paths -/

/-- Searching with two tests that agree on the list gives the same result. -/
theorem find?_congr_on {α : Type} (l : List α) (p q : α → Bool) (h : ∀ a ∈ l, p a = q a) :
    l.find? p = l.find? q := by
  induction l with
  | nil => rfl
  | cons a rest ih =>
    simp only [List.find?_cons, h a (List.mem_cons_self _ _)]
    rw [ih fun b hb => h b (List.mem_cons_of_mem _ hb)]

namespace VirtualFileSystem

/-- A string without separator is a single piece. -/
theorem getlines_of_not_mem (y part : List Byte) (hy : (47 : Byte) ∉ y) :
    getlines y part = if part ++ y = [] then [] else [part ++ y] := by
  induction y generalizing part with
  | nil => simp [getlines]
  | cons c rest ih =>
    have hc : c ≠ 47 := fun h => hy (by simp [h])
    have hrest : (47 : Byte) ∉ rest := fun h => hy (List.mem_cons_of_mem _ h)
    simp only [getlines, hc, if_false]
    rw [ih _ hrest]
    simp

/-- The last separator of a string that ends in one is its last character; any other last
character leaves the last separator where it was. -/
theorem findLastSlash_concat (path : List Byte) (c : Byte) :
    findLastSlash (path ++ [c]) = if c = 47 then some path.length else findLastSlash path := by
  unfold findLastSlash
  rw [List.length_append, List.length_singleton, List.range_succ, List.reverse_append,
    List.reverse_singleton, List.singleton_append, List.find?_cons]
  have hlast : (path ++ [c]).get? path.length = some c := by simp
  by_cases hc : c = 47
  · simp [hlast, hc]
  · have hne : ((path ++ [c]).get? path.length = some 47) = False := by
      simp [hlast, hc]
    simp only [hne, decide_False, hc, if_false]
    apply find?_congr_on
    intro i hi
    have hi' : i < path.length := by simpa using hi
    simp [List.getElem?_append_left hi']

/-- The last separator splits a string into a front and a back without separator. -/
theorem findLastSlash_spec (path : List Byte) :
    (findLastSlash path = none ∧ (47 : Byte) ∉ path) ∨
      ∃ front back, path = front ++ 47 :: back ∧ (47 : Byte) ∉ back ∧
        findLastSlash path = some front.length := by
  induction path using List.reverseRecOn with
  | nil => left; exact ⟨rfl, by simp⟩
  | append_singleton path c ih =>
    rw [findLastSlash_concat]
    by_cases hc : c = 47
    · right
      exact ⟨path, [], by simp [hc], by simp, by simp [hc]⟩
    · rcases ih with ⟨hnone, hmem⟩ | ⟨front, back, hpath, hback, hsome⟩
      · left
        refine ⟨by simp [hc, hnone], ?_⟩
        intro h
        rcases List.mem_append.mp h with h | h
        · exact hmem h
        · exact hc (List.mem_singleton.mp h).symm
      · right
        refine ⟨front, back ++ [c], by simp [hpath], ?_, by simp [hc, hsome]⟩
        intro h
        rcases List.mem_append.mp h with h | h
        · exact hback h
        · exact hc (List.mem_singleton.mp h).symm

/-- The last separator of `front/back`, `back` without separator, is the one in between. -/
theorem findLastSlash_append (front back : List Byte) (hback : (47 : Byte) ∉ back) :
    findLastSlash (front ++ 47 :: back) = some front.length := by
  induction back using List.reverseRecOn with
  | nil =>
    have := findLastSlash_concat front 47
    simpa using this
  | append_singleton back c ih =>
    have hc : c ≠ 47 := fun h => hback (by simp [h])
    have hb : (47 : Byte) ∉ back := fun h => hback (by simp [h])
    have := findLastSlash_concat (front ++ 47 :: back) c
    rw [List.append_assoc, List.cons_append] at this
    rw [this, if_neg hc, ih hb]

end VirtualFileSystem

/-! ## Lemmas: trees and pointers -/

namespace FileNode

@[simp] theorem nodeAt_nil (root : FileNode) : nodeAt root [] = some root := rfl

theorem nodeAt_cons (root : FileNode) (i : Nat) (rest : NodePtr) :
    nodeAt root (i :: rest) = (root.children.get? i).bind fun child => nodeAt child rest := by
  simp only [nodeAt]
  cases root.children.get? i <;> rfl

/-- Following a pointer made of two parts is following one part after the other. -/
theorem nodeAt_append (root : FileNode) (p q : NodePtr) :
    nodeAt root (p ++ q) = (nodeAt root p).bind fun node => nodeAt node q := by
  induction p generalizing root with
  | nil => simp
  | cons i rest ih =>
    rw [List.cons_append, nodeAt_cons, nodeAt_cons]
    cases root.children.get? i with
    | none => rfl
    | some child => simp [ih]

/-- A pointer that designates a node still designates one when its last step is dropped. -/
theorem nodeAt_dropLast (root : FileNode) (p : NodePtr) (node : FileNode)
    (h : nodeAt root p = some node) : ∃ parent, nodeAt root p.dropLast = some parent := by
  rcases List.eq_nil_or_concat p with hp | ⟨front, last, hp⟩
  · subst hp; exact ⟨root, rfl⟩
  · subst hp
    rw [List.concat_eq_append] at h ⊢
    rw [List.dropLast_concat]
    rw [nodeAt_append] at h
    cases hfront : nodeAt root front with
    | none => simp [hfront] at h
    | some parent => exact ⟨parent, rfl⟩

theorem modifyAt_nil (f : FileNode → FileNode) (root : FileNode) : modifyAt f [] root = f root :=
  rfl

theorem modifyAt_cons (f : FileNode → FileNode) (i : Nat) (rest : NodePtr) (root : FileNode) :
    modifyAt f (i :: rest) root =
      { root with children := root.children.modify (modifyAt f rest) i } := rfl

/-- The node at the place of a replacement is the image of the node that was there. -/
theorem nodeAt_modifyAt_self (f : FileNode → FileNode) (p : NodePtr) (root : FileNode) :
    nodeAt (modifyAt f p root) p = (nodeAt root p).map f := by
  induction p generalizing root with
  | nil => rfl
  | cons i rest ih =>
    rw [modifyAt_cons, nodeAt_cons, nodeAt_cons]
    simp only [List.get?_eq_getElem?, List.getElem?_modify_eq]
    cases root.children[i]? with
    | none => rfl
    | some child => simp [ih]

/-- A replacement that keeps names keeps the name of the root of the tree. -/
theorem modifyAt_name (f : FileNode → FileNode) (hf : ∀ node, (f node).name = node.name)
    (p : NodePtr) (root : FileNode) : (modifyAt f p root).name = root.name := by
  cases p with
  | nil => exact hf root
  | cons i rest => rfl

/-- A replacement that keeps the kind of a node keeps the kind of the root of the tree. -/
theorem modifyAt_isDir (f : FileNode → FileNode) (hf : ∀ node, (f node).isDir = node.isDir)
    (p : NodePtr) (root : FileNode) : (modifyAt f p root).isDir = root.isDir := by
  cases p with
  | nil => exact hf root
  | cons i rest => rfl

/-- The names of the children of a node after a replacement below it that keeps names. -/
theorem modifyAt_cons_children_names (f : FileNode → FileNode)
    (hf : ∀ node, (f node).name = node.name) (i : Nat) (rest : NodePtr) (root : FileNode) :
    (modifyAt f (i :: rest) root).children.map (·.name) = root.children.map (·.name) := by
  rw [modifyAt_cons]
  simp only
  apply List.ext_getElem?
  intro j
  simp only [List.getElem?_map, List.getElem?_modify]
  by_cases hij : i = j
  · subst hij
    cases root.children[i]? with
    | none => simp
    | some child => simp [modifyAt_name f hf]
  · simp [hij]

/-- The search for a name only looks at the names of the children. -/
theorem findIndex_congr (childName : List Byte) (xs ys : List FileNode) (index : Nat)
    (h : xs.map (·.name) = ys.map (·.name)) :
    findIndex childName xs index = findIndex childName ys index := by
  induction xs generalizing ys index with
  | nil =>
    cases ys with
    | nil => rfl
    | cons y ys => simp at h
  | cons x xs ih =>
    cases ys with
    | nil => simp at h
    | cons y ys =>
      simp only [List.map_cons, List.cons.injEq] at h
      simp only [findIndex, h.1]
      rw [ih ys (index + 1) h.2]

/-- No child is found exactly when no child has the name. -/
theorem findIndex_eq_none_iff (childName : List Byte) (children : List FileNode) (index : Nat) :
    findIndex childName children index = none ↔ childName ∉ children.map (·.name) := by
  induction children generalizing index with
  | nil => simp [findIndex]
  | cons child rest ih =>
    simp only [findIndex, List.map_cons, List.mem_cons, not_or]
    by_cases h : child.name = childName
    · simp [h]
    · simp only [h, if_false, ih]
      constructor
      · intro hrest; exact ⟨fun heq => h heq.symm, hrest⟩
      · intro hboth; exact hboth.2

/-- A found child is at the found position and has the name. -/
theorem findIndex_eq_some (childName : List Byte) (children : List FileNode) (index i : Nat)
    (h : findIndex childName children index = some i) :
    index ≤ i ∧ ∃ child, children.get? (i - index) = some child ∧ child.name = childName := by
  induction children generalizing index with
  | nil => simp [findIndex] at h
  | cons child rest ih =>
    simp only [findIndex] at h
    by_cases hname : child.name = childName
    · simp only [hname, if_true, Option.some.injEq] at h
      subst h
      exact ⟨le_refl _, child, by simp, hname⟩
    · simp only [hname, if_false] at h
      obtain ⟨hle, found, hget, hfound⟩ := ih (index + 1) h
      refine ⟨by omega, found, ?_, hfound⟩
      have : i - index = (i - (index + 1)) + 1 := by omega
      rw [this]
      simpa using hget

/-- A found child exists. -/
theorem findChild_eq_some (node : FileNode) (childName : List Byte) (i : Nat)
    (h : node.findChild childName = some i) :
    ∃ child, node.children.get? i = some child ∧ child.name = childName := by
  obtain ⟨_, child, hget, hname⟩ := findIndex_eq_some childName node.children 0 i h
  exact ⟨child, by simpa using hget, hname⟩

theorem findChild_eq_none_iff (node : FileNode) (childName : List Byte) :
    node.findChild childName = none ↔ childName ∉ node.children.map (·.name) :=
  findIndex_eq_none_iff childName node.children 0

/-- The search in a list of children with one more child at the end. -/
theorem findIndex_append_of_some (childName : List Byte) (xs ys : List FileNode)
    (index i : Nat) (h : findIndex childName xs index = some i) :
    findIndex childName (xs ++ ys) index = some i := by
  induction xs generalizing index with
  | nil => simp [findIndex] at h
  | cons x xs ih =>
    simp only [findIndex, List.cons_append] at h ⊢
    by_cases hname : x.name = childName
    · simpa [hname] using h
    · simp only [hname, if_false] at h ⊢
      exact ih (index + 1) h

end FileNode

/-! ## Lemmas: the namespace without mounts -/

namespace VirtualFileSystem

/-- Without mounts no volume is responsible for any path. -/
theorem getVolumeForPath_of_no_mounts (self : VirtualFileSystem) (path : List Byte)
    (hmounts : self.mountedVolumes = [])
    (hpath : path.head? = some 47 ∨ ∃ current, self.getCurrentPath = some current) :
    self.getVolumeForPath path = some [] := by
  unfold getVolumeForPath
  rw [hmounts]
  rcases hpath with habs | ⟨current, hcur⟩
  · simp [habs, longestMatch]
  · by_cases habs : path.head? = some 47
    · simp [habs, longestMatch]
    · simp [habs, hcur, longestMatch]

/-- When the namespace itself is responsible for a path, the operation runs in it. -/
theorem onResponsibleFS_of_local {α : Type}
    (op : VirtualFileSystem → List Byte → Option (α × VirtualFileSystem))
    (self : VirtualFileSystem) (path : List Byte)
    (hvol : self.getVolumeForPath path = some []) :
    onResponsibleFS op self path = op self path := by
  obtain ⟨root, currentDirectory, diskSize, usedSpace, mountedVolumes, fileTags⟩ := self
  rw [onResponsibleFS]
  simp only [hvol, if_true]

/-- Without mounts the operation runs in the namespace itself. -/
theorem onResponsibleFS_of_no_mounts {α : Type}
    (op : VirtualFileSystem → List Byte → Option (α × VirtualFileSystem))
    (self : VirtualFileSystem) (path : List Byte) (hmounts : self.mountedVolumes = [])
    (hpath : path.head? = some 47 ∨ ∃ current, self.getCurrentPath = some current) :
    onResponsibleFS op self path = op self path :=
  onResponsibleFS_of_local op self path (getVolumeForPath_of_no_mounts self path hmounts hpath)

/-- The cursor of a namespace that stands at the root has the path "/". -/
theorem getCurrentPath_of_root (self : VirtualFileSystem)
    (hcursor : self.currentDirectory = some []) : self.getCurrentPath = some (str "/") := by
  simp [getCurrentPath, hcursor, FileNode.getPath, FileNode.namesTo, FileNode.pathOfNames]

/-- What `resolvePath("/" + a)` gives for a name `a` without separator. -/
theorem resolvePath_child_of_root (self : VirtualFileSystem) (a : List Byte)
    (ha : (47 : Byte) ∉ a) :
    self.resolvePath (str "/" ++ a) =
      if a = [] ∨ a = str "." ∨ a = str ".." then some (some [])
      else
        match self.root.findChild a with
        | none => some none
        | some i => some (some [i]) := by
  have hpath : str "/" ++ a = 47 :: a := rfl
  rw [hpath]
  simp only [resolvePath, List.head?_cons, if_true, splitPath]
  rw [if_neg (by simp)]
  rw [getlines_of_not_mem a [] ha]
  by_cases hempty : a = []
  · simp [hempty, resolveLoop]
  · simp only [List.nil_append, hempty, if_false, false_or]
    by_cases hdot : a = str "."
    · simp [hdot, resolveLoop]
    · by_cases hdots : a = str ".."
      · subst hdots
        simp [resolveLoop, FileNode.getParent]
      · simp only [resolveLoop, hempty, hdot, hdots, false_or, if_false, FileNode.nodeAt_nil,
          List.nil_append]

end VirtualFileSystem

namespace VirtualFileSystem

/-- The size lambda on any node, by its kind. -/
theorem calculateSize_eq (host : Host) (node : FileNode) :
    calculateSize host node =
      if node.isDir then
        (calculateSizes host node.children).map fun sizes =>
          host.sizeofFileNode + node.name.length + sizes
      else
        node.getContent.map fun content =>
          host.sizeofFileNode + node.name.length + content.length := by
  cases node
  rw [calculateSize]

/-- The size loop has a value exactly when the lambda has one on every child. -/
theorem calculateSizes_isSome_iff (host : Host) (children : List FileNode) :
    (calculateSizes host children).isSome ↔
      ∀ child ∈ children, (calculateSize host child).isSome := by
  induction children with
  | nil => simp [calculateSizes]
  | cons child rest ih =>
    rw [calculateSizes]
    cases hchild : calculateSize host child with
    | none => simp [hchild]
    | some size =>
      cases hrest : calculateSizes host rest with
      | none =>
        rw [hrest] at ih
        simp only [Option.isSome_none, Bool.false_eq_true, false_iff] at ih ⊢
        intro hall
        exact ih fun c hc => hall c (List.mem_cons_of_mem _ hc)
      | some sizes =>
        rw [hrest] at ih
        simp only [Option.isSome_some, true_iff] at ih ⊢
        intro c hc
        rcases List.mem_cons.mp hc with rfl | hc
        · simp [hchild]
        · exact ih c hc

/-- The size lambda has a value on a node exactly when it can read the node, or, for a
directory, has a value on every child. -/
theorem calculateSize_isSome_iff (host : Host) (node : FileNode) :
    (calculateSize host node).isSome ↔
      if node.isDir then ∀ child ∈ node.children, (calculateSize host child).isSome
      else node.getContent.isSome := by
  rw [calculateSize_eq]
  by_cases hdir : node.isDir
  · simp only [hdir, if_true, Option.isSome_map', calculateSizes_isSome_iff]
  · simp only [hdir, Bool.false_eq_true, if_false, Option.isSome_map']

/-- The size lambda on a node whose children were replaced. -/
theorem calculateSize_with_children_isSome (host : Host) (node : FileNode)
    (children : List FileNode)
    (h : if node.isDir then ∀ child ∈ children, (calculateSize host child).isSome
      else node.getContent.isSome) :
    (calculateSize host { node with children := children }).isSome := by
  rw [calculateSize_isSome_iff]
  cases node with
  | mk name isDir =>
    cases isDir
    · simp only [Bool.false_eq_true, if_false] at h ⊢
      exact h
    · simp only [if_true] at h ⊢
      exact h

/-- Replacing a node by one the size lambda has a value on keeps the lambda's value on the
tree. -/
theorem calculateSize_modifyAt_isSome (host : Host) (f : FileNode → FileNode) (p : NodePtr)
    (root : FileNode) (hroot : (calculateSize host root).isSome)
    (hf : ∀ node, root.nodeAt p = some node → (calculateSize host node).isSome →
      (calculateSize host (f node)).isSome) :
    (calculateSize host (root.modifyAt f p)).isSome := by
  induction p generalizing root with
  | nil => exact hf root rfl hroot
  | cons i rest ih =>
    rw [FileNode.modifyAt_cons]
    apply calculateSize_with_children_isSome
    rw [calculateSize_isSome_iff] at hroot
    by_cases hdir : root.isDir
    · simp only [hdir, if_true] at hroot ⊢
      intro child hchild
      obtain ⟨j, hj⟩ := List.getElem?_of_mem hchild
      rw [List.getElem?_modify] at hj
      cases hget : root.children[j]? with
      | none => simp [hget] at hj
      | some old =>
        simp only [hget, Option.map_eq_map, Option.map_some', Option.some.injEq] at hj
        by_cases hij : i = j
        · subst hij
          simp only [if_true] at hj
          subst hj
          apply ih old (hroot old (List.getElem?_mem hget))
          intro node hnode
          apply hf node
          rw [FileNode.nodeAt_cons]
          simp [hget, hnode]
        · simp only [hij, if_false] at hj
          subst hj
          exact hroot old (List.getElem?_mem hget)
    · simp only [hdir, Bool.false_eq_true, if_false] at hroot ⊢
      exact hroot

/-- The size lambda has a value on a directory with one more, empty child. -/
theorem calculateSize_addChild_new_isSome (host : Host) (node : FileNode) (name : List Byte)
    (isDirectory : Bool) (hnode : (calculateSize host node).isSome) :
    (calculateSize host (node.addChild (FileNode.new name isDirectory))).isSome := by
  unfold FileNode.addChild
  by_cases hdir : node.isDir
  · simp only [hdir, if_true]
    rw [calculateSize_isSome_iff] at hnode ⊢
    simp only [hdir, if_true] at hnode ⊢
    intro child hchild
    rcases List.mem_append.mp hchild with h | h
    · exact hnode child h
    · rw [List.mem_singleton.mp h, calculateSize_isSome_iff]
      cases isDirectory <;> simp [FileNode.new, FileNode.getContent]
  · simpa [hdir] using hnode

end VirtualFileSystem

/-! ## Lemmas: resolving paths -/

namespace VirtualFileSystem

/-- The walk over the path parts, from a node that exists, has a result, and a non-null
result exists. -/
theorem resolveLoop_isSome (root : FileNode) (parts : List (List Byte)) (current : NodePtr)
    (hcurrent : (root.nodeAt current).isSome) :
    ∃ result, resolveLoop root parts current = some result ∧
      ∀ target, result = some target → (root.nodeAt target).isSome := by
  induction parts generalizing current with
  | nil =>
    exact ⟨some current, rfl, fun target h => by
      simp only [Option.some.injEq] at h
      subst h
      exact hcurrent⟩
  | cons part rest ih =>
    rw [resolveLoop]
    by_cases hskip : part = [] ∨ part = str "."
    · rw [if_pos hskip]
      exact ih current hcurrent
    · rw [if_neg hskip]
      obtain ⟨node, hnode⟩ := Option.isSome_iff_exists.mp hcurrent
      simp only [hnode]
      by_cases hup : part = str ".."
      · rw [if_pos hup]
        apply ih
        unfold FileNode.getParent
        by_cases hroot : current = []
        · simp [hroot]
        · simp only [hroot, if_false, Option.getD_some]
          obtain ⟨parent, hparent⟩ := FileNode.nodeAt_dropLast root current node hnode
          simp [hparent]
      · rw [if_neg hup]
        cases hfind : node.findChild part with
        | none => exact ⟨none, rfl, fun target h => by simp at h⟩
        | some i =>
          apply ih
          obtain ⟨child, hchild, _⟩ := FileNode.findChild_eq_some node part i hfind
          have hget : node.children[i]? = some child := by simpa using hchild
          rw [FileNode.nodeAt_append, hnode]
          simp [FileNode.nodeAt_cons, hget]

/-- Empty path parts do not matter to the walk. -/
theorem resolveLoop_filter (root : FileNode) (parts : List (List Byte)) (current : NodePtr) :
    resolveLoop root parts current =
      resolveLoop root (parts.filter fun part => part ≠ []) current := by
  induction parts generalizing current with
  | nil => rfl
  | cons part rest ih =>
    by_cases hempty : part = []
    · subst hempty
      simp only [ne_eq, not_true_eq_false, decide_False, Bool.false_eq_true, not_false_eq_true,
        List.filter_cons_of_neg]
      rw [resolveLoop, if_pos (Or.inl rfl)]
      exact ih current
    · rw [List.filter_cons_of_pos (by simpa using hempty)]
      rw [resolveLoop, resolveLoop]
      by_cases hskip : part = [] ∨ part = str "."
      · simp only [hskip, if_true]
        exact ih current
      · simp only [hskip, if_false]
        cases root.nodeAt current with
        | none => rfl
        | some node =>
          simp only
          by_cases hup : part = str ".."
          · simp only [hup, if_true]
            exact ih _
          · simp only [hup, if_false]
            cases node.findChild part with
            | none => rfl
            | some i => exact ih _

/-- The walk over two lists of parts is the walk over the second from where the walk over the
first has led. -/
theorem resolveLoop_append (root : FileNode) (first second : List (List Byte))
    (current : NodePtr) :
    resolveLoop root (first ++ second) current =
      (resolveLoop root first current).bind fun result =>
        match result with
        | none => some none
        | some target => resolveLoop root second target := by
  induction first generalizing current with
  | nil => rfl
  | cons part rest ih =>
    rw [List.cons_append, resolveLoop, resolveLoop]
    by_cases hskip : part = [] ∨ part = str "."
    · simp only [hskip, if_true]
      exact ih current
    · simp only [hskip, if_false]
      cases root.nodeAt current with
      | none => rfl
      | some node =>
        simp only
        by_cases hup : part = str ".."
        · simp only [hup, if_true]
          exact ih _
        · simp only [hup, if_false]
          cases node.findChild part with
          | none => rfl
          | some i => exact ih _

/-- The non-empty pieces of `front/back` are those of `front` and those of `back`. -/
theorem getlines_filter_append (front back part : List Byte) :
    (getlines (front ++ 47 :: back) part).filter (fun piece => piece ≠ []) =
      (getlines front part).filter (fun piece => piece ≠ []) ++
        (getlines back []).filter (fun piece => piece ≠ []) := by
  induction front generalizing part with
  | nil =>
    simp only [List.nil_append, getlines, if_true]
    by_cases hpart : part = []
    · simp [hpart]
    · simp [hpart]
  | cons c rest ih =>
    simp only [List.cons_append, getlines]
    by_cases hc : c = 47
    · simp only [hc, if_true]
      by_cases hpart : part = []
      · simpa [hpart] using ih []
      · simpa [hpart] using ih []
    · simp only [hc, if_false]
      exact ih _

/-- The non-empty parts of the path `front/back` are those of `front` and those of `back`. -/
theorem splitPath_filter_append (front back : List Byte) :
    (splitPath (front ++ 47 :: back)).filter (fun piece => piece ≠ []) =
      (splitPath front).filter (fun piece => piece ≠ []) ++
        (getlines back []).filter (fun piece => piece ≠ []) := by
  cases front with
  | nil => simp [splitPath, getlines]
  | cons c rest =>
    by_cases hc : c = 47
    · subst hc
      simp only [List.cons_append, splitPath]
      exact getlines_filter_append rest back []
    · have hleft : splitPath (c :: rest ++ 47 :: back) = getlines (c :: rest ++ 47 :: back) [] := by
        unfold splitPath
        split
        · rename_i heq
          simp only [List.cons_append, List.cons.injEq] at heq
          exact absurd heq.1 hc
        · rfl
      have hright : splitPath (c :: rest) = getlines (c :: rest) [] := by
        unfold splitPath
        split
        · rename_i heq
          simp only [List.cons.injEq] at heq
          exact absurd heq.1 hc
        · rfl
      rw [hleft, hright]
      exact getlines_filter_append (c :: rest) back []

/-- The non-empty parts of a name. -/
theorem getlines_filter_of_not_mem (name : List Byte) (hname : (47 : Byte) ∉ name) :
    (getlines name []).filter (fun piece => piece ≠ []) = if name = [] then [] else [name] := by
  rw [getlines_of_not_mem name [] hname]
  by_cases h : name = []
  · simp [h]
  · simp [h]

/-- With the cursor at the root every path is walked from the root. -/
theorem resolvePath_of_cursor_at_root (self : VirtualFileSystem) (path : List Byte)
    (hcursor : self.currentDirectory = some []) :
    self.resolvePath path =
      resolveLoop self.root ((splitPath path).filter fun piece => piece ≠ []) [] := by
  rw [← resolveLoop_filter]
  unfold resolvePath
  by_cases hempty : path = []
  · subst hempty
    simp [hcursor, splitPath, getlines, resolveLoop]
  · by_cases habs : path.head? = some 47
    · simp [hempty, habs]
    · simp [hempty, habs, hcursor]

/-- With the cursor at the root, the path `front/name` is resolved by resolving `front` and
then the name. -/
theorem resolvePath_append (self : VirtualFileSystem) (front name : List Byte)
    (hcursor : self.currentDirectory = some []) (hname : (47 : Byte) ∉ name) :
    self.resolvePath (front ++ 47 :: name) =
      (self.resolvePath front).bind fun result =>
        match result with
        | none => some none
        | some target => resolveLoop self.root (if name = [] then [] else [name]) target := by
  rw [resolvePath_of_cursor_at_root self _ hcursor, resolvePath_of_cursor_at_root self _ hcursor,
    splitPath_filter_append, resolveLoop_append, getlines_filter_of_not_mem name hname]

/-- With the cursor at the root, a path without separator is resolved as a name from the
root. -/
theorem resolvePath_name (self : VirtualFileSystem) (name : List Byte)
    (hcursor : self.currentDirectory = some []) (hname : (47 : Byte) ∉ name) :
    self.resolvePath name = resolveLoop self.root (if name = [] then [] else [name]) [] := by
  rw [resolvePath_of_cursor_at_root self _ hcursor]
  have hsplit : splitPath name = getlines name [] := by
    unfold splitPath
    split
    · rename_i rest
      exact absurd (List.mem_cons_self _ _) hname
    · rfl
  rw [hsplit, getlines_filter_of_not_mem name hname]

/-- When the step by a name from an existing node leads nowhere, the node has no child of
that name. -/
theorem findChild_eq_none_of_step (root node : FileNode) (name : List Byte) (current : NodePtr)
    (hnode : root.nodeAt current = some node)
    (hstep : resolveLoop root (if name = [] then [] else [name]) current = some none) :
    node.findChild name = none := by
  by_cases hempty : name = []
  · simp [hempty, resolveLoop] at hstep
  · simp only [hempty, if_false] at hstep
    rw [resolveLoop] at hstep
    by_cases hdot : name = str "."
    · simp [hdot, resolveLoop] at hstep
    · simp only [hempty, hdot, or_self, if_false, hnode] at hstep
      by_cases hup : name = str ".."
      · simp [hup, resolveLoop] at hstep
      · simp only [hup, if_false] at hstep
        cases hfind : node.findChild name with
        | none => rfl
        | some i => simp [hfind, resolveLoop] at hstep

/-- With the cursor at the root every path resolves, and a non-null result exists. -/
theorem resolvePath_isSome (self : VirtualFileSystem) (path : List Byte)
    (hcursor : self.currentDirectory = some []) :
    ∃ result, self.resolvePath path = some result ∧
      ∀ target, result = some target → (self.root.nodeAt target).isSome := by
  rw [resolvePath_of_cursor_at_root self path hcursor]
  exact resolveLoop_isSome self.root _ [] rfl

end VirtualFileSystem

/-! ## Lemmas: well-formed trees -/

namespace FileNode

theorem treeWellFormed_child (root child : FileNode) (i : Nat) (h : root.TreeWellFormed)
    (hchild : root.children[i]? = some child) : child.TreeWellFormed := by
  intro ptr node hnode
  apply h (i :: ptr) node
  rw [nodeAt_cons]
  simp [hchild, hnode]

/-- A tree is well formed when its root is and the trees of its children are. -/
theorem treeWellFormed_of_children (root : FileNode) (hroot : root.WellFormed)
    (hchildren : ∀ child ∈ root.children, child.TreeWellFormed) : root.TreeWellFormed := by
  intro ptr node hnode
  cases ptr with
  | nil =>
    simp only [nodeAt_nil, Option.some.injEq] at hnode
    subst hnode
    exact hroot
  | cons i rest =>
    rw [nodeAt_cons] at hnode
    cases hget : root.children[i]? with
    | none => simp [hget] at hnode
    | some child =>
      simp only [List.get?_eq_getElem?, hget, Option.some_bind] at hnode
      exact hchildren child (List.getElem?_mem hget) rest node hnode

/-- Replacing a node of a well-formed tree by a well-formed tree of the same name leaves a
well-formed tree. -/
theorem treeWellFormed_modifyAt (f : FileNode → FileNode)
    (hname : ∀ node, (f node).name = node.name) (p : NodePtr) (root : FileNode)
    (hroot : root.TreeWellFormed)
    (hf : ∀ node, root.nodeAt p = some node → (f node).TreeWellFormed) :
    (root.modifyAt f p).TreeWellFormed := by
  induction p generalizing root with
  | nil => exact hf root rfl
  | cons i rest ih =>
    apply treeWellFormed_of_children
    · obtain ⟨hnodup, hfile, hplain⟩ := hroot [] root rfl
      refine ⟨?_, ?_, hplain⟩
      · rw [modifyAt_cons_children_names f hname]
        exact hnodup
      · intro hdir
        have hnone : root.children = [] := hfile hdir
        show root.children.modify (modifyAt f rest) i = []
        rw [hnone]
        cases i <;> rfl
    · intro child hchild
      have hchild' : child ∈ root.children.modify (modifyAt f rest) i := hchild
      obtain ⟨j, hj⟩ := List.getElem?_of_mem hchild'
      rw [List.getElem?_modify] at hj
      cases hget : root.children[j]? with
      | none => simp [hget] at hj
      | some old =>
        simp only [hget, Option.map_eq_map, Option.map_some', Option.some.injEq] at hj
        by_cases hij : i = j
        · subst hij
          simp only [if_true] at hj
          subst hj
          apply ih old (treeWellFormed_child root old i hroot hget)
          intro node hnode
          apply hf node
          rw [nodeAt_cons]
          simp [hget, hnode]
        · simp only [hij, if_false] at hj
          subst hj
          exact treeWellFormed_child root old j hroot hget

/-- Adding a childless, uncompressed child under a new name keeps a tree well formed. -/
theorem treeWellFormed_addChild (node child : FileNode) (hnode : node.TreeWellFormed)
    (hfresh : node.findChild child.name = none) (hleaf : child.children = [])
    (hplain : child.compressed = false) : (node.addChild child).TreeWellFormed := by
  unfold addChild
  by_cases hdir : node.isDir
  · rw [if_pos hdir]
    obtain ⟨hnodup, _, hcompressed⟩ := hnode [] node rfl
    apply treeWellFormed_of_children
    · refine ⟨?_, ?_, hcompressed⟩
      · show ((node.children ++ [child]).map (·.name)).Nodup
        rw [List.map_append, List.map_singleton]
        rw [findChild_eq_none_iff] at hfresh
        exact List.Nodup.append hnodup (List.nodup_singleton _)
          (by
            intro name h1 h2
            rw [List.mem_singleton] at h2
            subst h2
            exact hfresh h1)
      · intro hfile
        exact absurd hdir (by simp [show node.isDir = false from hfile])
    · intro c hc
      have hc' : c ∈ node.children ++ [child] := hc
      rcases List.mem_append.mp hc' with h | h
      · obtain ⟨j, hj⟩ := List.getElem?_of_mem h
        exact treeWellFormed_child node c j hnode hj
      · rw [List.mem_singleton.mp h]
        apply treeWellFormed_of_children
        · exact ⟨by simp [hleaf], fun _ => hleaf, hplain⟩
        · intro c' hc'
          simp [hleaf] at hc'
  · rw [if_neg hdir]
    exact hnode

/-- Removing the children of a name keeps a tree well formed. -/
theorem treeWellFormed_removeChild (node : FileNode) (childName : List Byte)
    (hnode : node.TreeWellFormed) : (node.removeChild childName).TreeWellFormed := by
  obtain ⟨hnodup, hfile, hcompressed⟩ := hnode [] node rfl
  apply treeWellFormed_of_children
  · refine ⟨?_, ?_, hcompressed⟩
    · show ((node.children.filter fun c => c.name ≠ childName).map (·.name)).Nodup
      exact List.Nodup.sublist (List.Sublist.map _ (List.filter_sublist _)) hnodup
    · intro hdir
      show (node.children.filter fun c => c.name ≠ childName) = []
      rw [hfile hdir]
      rfl
  · intro c hc
    have hc' : c ∈ node.children.filter fun c => c.name ≠ childName := hc
    obtain ⟨j, hj⟩ := List.getElem?_of_mem (List.mem_of_mem_filter hc')
    exact treeWellFormed_child node c j hnode hj

/-- Writing a content keeps the name, the kind, the children and the compression flag. -/
theorem setContent_frame (host : Host) (node : FileNode) (newContent : List Byte) :
    (node.setContent host newContent).name = node.name ∧
      (node.setContent host newContent).isDir = node.isDir ∧
      (node.setContent host newContent).children = node.children ∧
      (node.setContent host newContent).compressed = node.compressed := by
  unfold setContent
  by_cases hdir : node.isDir
  · simp [hdir]
  · simp only [hdir, Bool.false_eq_true, if_false]
    unfold reencrypt recompress store saveVersion
    by_cases hcontent : node.content = [] <;> by_cases hcompressed : node.compressed <;>
      by_cases hencrypted : node.encrypted <;> by_cases hkey : node.encryptionKey = [] <;>
      simp [hdir, hcontent, hcompressed, hencrypted, hkey]

/-- Writing a content keeps a tree well formed. -/
theorem treeWellFormed_setContent (host : Host) (node : FileNode) (newContent : List Byte)
    (hnode : node.TreeWellFormed) : (node.setContent host newContent).TreeWellFormed := by
  obtain ⟨hname, hdir, hchildren, hcompressed⟩ := setContent_frame host node newContent
  obtain ⟨hnodup, hfile, hplain⟩ := hnode [] node rfl
  apply treeWellFormed_of_children
  · refine ⟨by rw [hchildren]; exact hnodup, ?_, by rw [hcompressed]; exact hplain⟩
    intro h
    rw [hchildren]
    exact hfile (by rw [← hdir]; exact h)
  · intro c hc
    rw [hchildren] at hc
    obtain ⟨j, hj⟩ := List.getElem?_of_mem hc
    exact treeWellFormed_child node c j hnode hj

end FileNode

namespace VirtualFileSystem

mutual
/-- The size lambda has a value on a tree without compressed content. -/
theorem calculateSize_isSome_of_wellFormed (host : Host) :
    ∀ (node : FileNode), node.TreeWellFormed → (calculateSize host node).isSome
  | FileNode.mk name isDir children content size compressed compressedContent
      compressionAlgorithm encrypted encryptionKey encryptionAlgorithm versions maxVersions,
      hnode => by
    rw [calculateSize_isSome_iff]
    cases isDir with
    | true =>
      simp only [if_true]
      rw [← calculateSizes_isSome_iff]
      apply calculateSizes_isSome_of_wellFormed host children
      intro child hchild
      obtain ⟨j, hj⟩ := List.getElem?_of_mem hchild
      exact FileNode.treeWellFormed_child _ child j hnode hj
    | false =>
      have hplain := (hnode [] _ rfl).2.2
      simp only at hplain
      simp [FileNode.getContent, hplain]
/-- The size loop has a value on trees without compressed content. -/
theorem calculateSizes_isSome_of_wellFormed (host : Host) :
    ∀ (children : List FileNode), (∀ child ∈ children, child.TreeWellFormed) →
      (calculateSizes host children).isSome
  | [], _ => rfl
  | child :: rest, hall => by
    rw [calculateSizes_isSome_iff]
    intro c hc
    rcases List.mem_cons.mp hc with h | h
    · rw [h]
      exact calculateSize_isSome_of_wellFormed host child (hall child (List.mem_cons_self _ _))
    · exact (calculateSizes_isSome_iff host rest).mp
        (calculateSizes_isSome_of_wellFormed host rest
          fun c' hc' => hall c' (List.mem_cons_of_mem _ hc')) c h
end

end VirtualFileSystem

namespace VirtualFileSystem

/-- What `mkdir`/`touch` do with a path `parentPath/name` in a namespace. -/
theorem createLocal_below (host : Host) (isDirectory : Bool) (self : VirtualFileSystem)
    (parentPath name : List Byte) (hname : (47 : Byte) ∉ name) (hparent : parentPath ≠ []) :
    createLocal host isDirectory self (parentPath ++ 47 :: name) =
      (self.resolvePath parentPath).bind fun resolved =>
        match resolved with
        | none => some (false, self)
        | some parent =>
          (self.root.nodeAt parent).bind fun node =>
            if node.isDir then
              if (node.findChild name).isSome then some (false, self)
              else
                (updateUsedSpace host
                  { self with
                    root :=
                      self.root.modifyAt
                        (fun p => p.addChild (FileNode.new name isDirectory)) parent }).map
                  fun self' => (true, self')
            else some (false, self) := by
  unfold createLocal
  rw [findLastSlash_append parentPath name hname]
  simp only [List.take_left', List.drop_left', hparent, false_and, if_false,
    show (parentPath ++ 47 :: name).drop (parentPath.length + 1) = name by
      rw [← List.drop_drop]; simp]
  cases hres : self.resolvePath parentPath with
  | none => rfl
  | some resolved =>
    cases resolved with
    | none => rfl
    | some parent =>
      cases hnode : self.root.nodeAt parent with
      | none => simp [hnode]
      | some node =>
        by_cases hdir : node.isDir
        · by_cases hchild : (node.findChild name).isSome
          · simp [hnode, hdir, hchild]
          · simp only [Option.pure_def, Option.bind_eq_bind, Option.some_bind, hnode, hdir,
              if_true, hchild]
            cases updateUsedSpace host
              { self with
                root :=
                  self.root.modifyAt
                    (fun p => p.addChild (FileNode.new name isDirectory)) parent } <;> rfl
        · simp [hnode, hdir]

end VirtualFileSystem

/-! ## Lemmas: the calls on a plain namespace -/

namespace FileNode

/-- The tree below a node of a well-formed tree is well formed. -/
theorem treeWellFormed_nodeAt (root node : FileNode) (p : NodePtr) (hroot : root.TreeWellFormed)
    (hnode : root.nodeAt p = some node) : node.TreeWellFormed := by
  intro ptr below hbelow
  apply hroot (p ++ ptr) below
  rw [nodeAt_append, hnode]
  exact hbelow

/-- The path of a node that exists has a value. -/
theorem getPath_isSome (root : FileNode) (p : NodePtr) (h : (root.nodeAt p).isSome) :
    (root.getPath p).isSome := by
  unfold getPath
  rw [Option.isSome_map']
  induction p generalizing root with
  | nil => rfl
  | cons i rest ih =>
    rw [nodeAt_cons] at h
    rw [namesTo]
    simp only [List.get?_eq_getElem?] at h ⊢
    cases hget : root.children[i]? with
    | none => simp [hget] at h
    | some child =>
      simp only [hget, Option.some_bind] at h
      simp only [Option.isSome_map']
      exact ih child h

/-- The cursor at the root stays where it is when children are removed anywhere. -/
theorem afterRemoveChild_nil (parent : NodePtr) (children : List FileNode)
    (childName : List Byte) : afterRemoveChild parent children childName [] = some [] := by
  unfold afterRemoveChild
  cases parent <;> rfl

end FileNode

namespace VirtualFileSystem

/-- A fresh namespace is plain. -/
theorem plain_new (diskSize : Nat) : (VirtualFileSystem.new diskSize).Plain := by
  refine ⟨rfl, rfl, ?_⟩
  apply FileNode.treeWellFormed_of_children
  · exact ⟨by simp [VirtualFileSystem.new, FileNode.new], fun _ => rfl, rfl⟩
  · intro child hchild
    simp [VirtualFileSystem.new, FileNode.new] at hchild

/-- The used space of a plain namespace with a well-formed new tree can be recomputed, and
the namespace stays plain. -/
theorem plain_updateUsedSpace (host : Host) (self : VirtualFileSystem) (root' : FileNode)
    (cursor : Option NodePtr) (hself : self.Plain) (hcursor : cursor = some [])
    (hroot : root'.TreeWellFormed) :
    ∃ self', updateUsedSpace host { self with root := root', currentDirectory := cursor } =
        some self' ∧ self'.Plain := by
  obtain ⟨size, hsize⟩ :=
    Option.isSome_iff_exists.mp (calculateSize_isSome_of_wellFormed host root' hroot)
  refine ⟨{ self with root := root', currentDirectory := cursor,
                      usedSpace := size % sizeTModulus }, ?_, hself.1, hcursor, hroot⟩
  simp [updateUsedSpace, hsize]

/-- Adding a childless, uncompressed child under a new name somewhere in a plain namespace
leaves a plain namespace. -/
theorem plain_addChild (host : Host) (self : VirtualFileSystem) (p : NodePtr)
    (node child : FileNode) (hself : self.Plain) (hnode : self.root.nodeAt p = some node)
    (hfresh : node.findChild child.name = none) (hleaf : child.children = [])
    (hplain : child.compressed = false) :
    ∃ self', updateUsedSpace host
        { self with root := self.root.modifyAt (fun parent => parent.addChild child) p } =
        some self' ∧ self'.Plain := by
  apply plain_updateUsedSpace host self _ self.currentDirectory hself hself.2.1
  apply FileNode.treeWellFormed_modifyAt _ _ p self.root hself.2.2
  · intro found hfound
    rw [hnode] at hfound
    simp only [Option.some.injEq] at hfound
    subst hfound
    exact FileNode.treeWellFormed_addChild _ child
      (FileNode.treeWellFormed_nodeAt self.root _ p hself.2.2 hnode) hfresh hleaf hplain
  · intro parent
    unfold FileNode.addChild
    split <;> rfl

/-- In a plain namespace the namespace itself is responsible for every path. -/
theorem onResponsibleFS_of_plain {α : Type}
    (op : VirtualFileSystem → List Byte → Option (α × VirtualFileSystem))
    (self : VirtualFileSystem) (path : List Byte) (hself : self.Plain) :
    onResponsibleFS op self path = op self path :=
  onResponsibleFS_of_no_mounts op self path hself.1
    (Or.inr ⟨str "/", getCurrentPath_of_root self hself.2.1⟩)

/-- The step shared by `mkdir` and `touch` once the target directory is known. -/
theorem createAt_plain (host : Host) (isDirectory : Bool) (self : VirtualFileSystem)
    (p : NodePtr) (name : List Byte) (hself : self.Plain)
    (hp : (self.root.nodeAt p).isSome) :
    ∃ result,
      ((self.root.nodeAt p).bind fun node =>
        if (node.findChild name).isSome then some (false, self)
        else
          (updateUsedSpace host
            { self with
              root :=
                self.root.modifyAt
                  (fun parent => parent.addChild (FileNode.new name isDirectory)) p }).bind
            fun self' => some (true, self')) = some result ∧ result.2.Plain := by
  obtain ⟨node, hnode⟩ := Option.isSome_iff_exists.mp hp
  by_cases hchild : (node.findChild name).isSome
  · exact ⟨(false, self), by simp [hnode, hchild], hself⟩
  · obtain ⟨self', hself', hplain⟩ :=
      plain_addChild host self p node (FileNode.new name isDirectory) hself hnode
        (by simpa using hchild) rfl rfl
    exact ⟨(true, self'), by simp [hnode, hchild, hself'], hplain⟩

/-- The calls `mkdir` and `touch` have a result on a plain namespace and leave it plain. -/
theorem createLocal_plain (host : Host) (isDirectory : Bool) (self : VirtualFileSystem)
    (path : List Byte) (hself : self.Plain) :
    ∃ result, createLocal host isDirectory self path = some result ∧ result.2.Plain := by
  rcases findLastSlash_spec path with ⟨hnone, _⟩ | ⟨front, back, hpath, hback, hsome⟩
  · obtain ⟨result, hresult, hplain⟩ :=
      createAt_plain host isDirectory self [] path hself rfl
    refine ⟨result, ?_, hplain⟩
    rw [← hresult]
    unfold createLocal
    simp [hnone, hself.2.1]
  · subst hpath
    by_cases hfront : front = []
    · subst hfront
      obtain ⟨result, hresult, hplain⟩ :=
        createAt_plain host isDirectory self [] back hself rfl
      refine ⟨result, ?_, hplain⟩
      rw [← hresult]
      have hsome' : findLastSlash (47 :: back) = some 0 := hsome
      unfold createLocal
      simp [hsome']
    · rw [createLocal_below host isDirectory self front back hback hfront]
      obtain ⟨resolved, hres, hvalid⟩ := resolvePath_isSome self front hself.2.1
      rw [hres]
      cases resolved with
      | none => exact ⟨(false, self), rfl, hself⟩
      | some parent =>
        obtain ⟨node, hnode⟩ := Option.isSome_iff_exists.mp (hvalid parent rfl)
        by_cases hdir : node.isDir
        · obtain ⟨result, hresult, hplain⟩ :=
            createAt_plain host isDirectory self parent back hself (hvalid parent rfl)
          refine ⟨result, ?_, hplain⟩
          rw [← hresult]
          simp only [Option.some_bind, hnode, hdir, if_true]
          by_cases hchild : (node.findChild back).isSome
          · simp [hchild]
          · simp only [hchild, Bool.false_eq_true, if_false]
            cases updateUsedSpace host
              { self with
                root :=
                  self.root.modifyAt
                    (fun parent => parent.addChild (FileNode.new back isDirectory)) parent } <;>
              rfl
        · exact ⟨(false, self), by simp [hnode, hdir], hself⟩

end VirtualFileSystem

namespace FileNode

/-- The search in a list of children with one more child at the end, when the name is not
among the others. -/
theorem findIndex_append_of_none (childName : List Byte) (xs : List FileNode)
    (child : FileNode) (index : Nat) (h : findIndex childName xs index = none)
    (hname : child.name = childName) :
    findIndex childName (xs ++ [child]) index = some (index + xs.length) := by
  induction xs generalizing index with
  | nil => simp [findIndex, hname]
  | cons x xs ih =>
    simp only [findIndex, List.cons_append] at h ⊢
    by_cases hx : x.name = childName
    · simp [hx] at h
    · simp only [hx, if_false] at h ⊢
      have hstep := ih (index + 1) h
      simp only [List.length_cons]
      rw [show index + (xs.length + 1) = index + 1 + xs.length by omega]
      exact hstep

end FileNode

namespace VirtualFileSystem

/-- The delegated call on the volume mounted under a key: the operation runs on the
namespace of the volume, which is put back into the table under the same key. -/
theorem onMountedVolume_of_mapFind {α : Type}
    (op : VirtualFileSystem → List Byte → Option (α × VirtualFileSystem))
    (volumePath localPath : List Byte) (volumes : List (List Byte × MountInfo VirtualFileSystem))
    (info : MountInfo VirtualFileSystem) (hinfo : mapFind volumes volumePath = some info) :
    onMountedVolume op volumePath localPath volumes =
      (onResponsibleFS op info.fs localPath).map fun result =>
        (result.1, mapSet volumes volumePath { info with fs := result.2 }) := by
  induction volumes with
  | nil => simp [mapFind] at hinfo
  | cons entry rest ih =>
    obtain ⟨mountPoint, diskImage, fs, mountDir⟩ := entry
    rw [onMountedVolume]
    by_cases hkey : mountPoint = volumePath
    · simp only [mapFind, hkey, if_true, Option.some.injEq] at hinfo
      subst hinfo
      simp only [hkey, if_true, mapSet]
      cases onResponsibleFS op fs localPath with
      | none => rfl
      | some result => rfl
    · simp only [mapFind, hkey, if_false] at hinfo
      simp only [hkey, if_false, mapSet, ih hinfo]
      cases onResponsibleFS op info.fs localPath with
      | none => rfl
      | some result => rfl

/-- The preamble when a mounted volume is responsible for the path. -/
theorem onResponsibleFS_of_mounted {α : Type}
    (op : VirtualFileSystem → List Byte → Option (α × VirtualFileSystem))
    (self : VirtualFileSystem) (mountPoint localPath : List Byte)
    (info : MountInfo VirtualFileSystem)
    (hvol : self.getVolumeForPath (mountPoint ++ localPath) = some mountPoint)
    (hmount : mountPoint ≠ []) (hlocal : localPath ≠ [])
    (hinfo : mapFind self.mountedVolumes mountPoint = some info) :
    onResponsibleFS op self (mountPoint ++ localPath) =
      (onResponsibleFS op info.fs localPath).map fun result =>
        (result.1,
          { self with
            mountedVolumes := mapSet self.mountedVolumes mountPoint { info with fs := result.2 } })
    := by
  obtain ⟨root, currentDirectory, diskSize, usedSpace, mountedVolumes, fileTags⟩ := self
  rw [onResponsibleFS]
  simp only [hvol, hmount, if_false, List.length_append, List.drop_left', hlocal]
  rw [if_neg (by omega)]
  simp only at hinfo
  rw [onMountedVolume_of_mapFind op mountPoint localPath mountedVolumes info hinfo]
  cases onResponsibleFS op info.fs localPath with
  | none => rfl
  | some result => rfl

end VirtualFileSystem

namespace FileNode

/-- The first write to a fresh file stores the content as it is. -/
theorem setContent_new (host : Host) (name content : List Byte) :
    (FileNode.new name false).setContent host content =
      { FileNode.new name false with content := content, size := content.length } := by
  simp [setContent, FileNode.new, store, recompress, reencrypt]

end FileNode

namespace VirtualFileSystem

/-- The size lambda has a value on a directory with one more child it has a value on. -/
theorem calculateSize_addChild_isSome (host : Host) (node child : FileNode)
    (hnode : (calculateSize host node).isSome) (hchild : (calculateSize host child).isSome) :
    (calculateSize host (node.addChild child)).isSome := by
  unfold FileNode.addChild
  by_cases hdir : node.isDir
  · rw [if_pos hdir]
    apply calculateSize_with_children_isSome
    rw [calculateSize_isSome_iff] at hnode
    simp only [hdir, if_true] at hnode ⊢
    intro c hc
    rcases List.mem_append.mp hc with h | h
    · exact hnode c h
    · rw [List.mem_singleton.mp h]
      exact hchild
  · simpa [hdir] using hnode

/-- In a namespace without mounts whose cursor is at the root, `write("/f", x)` for a name `f`
the root has no child of makes the file, and `cat("/f")` reads `x` afterwards. -/
theorem write_new_file_below_root (host : Host) (self : VirtualFileSystem)
    (f x : List Byte) (hmounts : self.mountedVolumes = [])
    (hcursor : self.currentDirectory = some []) (hroot : self.root.isDir = true)
    (hf : (47 : Byte) ∉ f) (hne : f ≠ []) (hdot : f ≠ str ".") (hdots : f ≠ str "..")
    (hfresh : self.root.findChild f = none) (hsize : (calculateSize host self.root).isSome) :
    ∃ self', self.write host (str "/" ++ f) x = some (true, self') ∧
      self'.cat (str "/" ++ f) = some x := by
  have habs : (str "/" ++ f).head? = some 47 := rfl
  have hres : self.resolvePath (str "/" ++ f) = some none := by
    rw [resolvePath_child_of_root self f hf]
    simp [hne, hdot, hdots, hfresh]
  have hslash : findLastSlash (str "/" ++ f) = some 0 := findLastSlash_append [] f hf
  have hdrop : (str "/" ++ f).drop 1 = f := rfl
  have hempty : self.resolvePath [] = some (some []) := by
    simp [resolvePath, hcursor]
  have hfile : (calculateSize host ((FileNode.new f false).setContent host x)).isSome := by
    rw [FileNode.setContent_new, calculateSize_isSome_iff]
    simp [FileNode.new, FileNode.getContent]
  have hsize' :
      (calculateSize host
        (self.root.addChild ((FileNode.new f false).setContent host x))).isSome :=
    calculateSize_addChild_isSome host _ _ hsize hfile
  obtain ⟨size, hsize''⟩ := Option.isSome_iff_exists.mp hsize'
  let self' : VirtualFileSystem :=
    { self with
      root := self.root.addChild ((FileNode.new f false).setContent host x)
      usedSpace := size % sizeTModulus }
  refine ⟨self', ?_, ?_⟩
  · unfold write
    rw [onResponsibleFS_of_no_mounts _ self _ hmounts (Or.inl habs)]
    unfold writeLocal
    simp [hres, hslash, hdrop, hempty, hroot, updateUsedSpace, FileNode.modifyAt_nil, hsize'',
      self']
  · unfold cat
    rw [onResponsibleFS_of_no_mounts _ self' _ hmounts (Or.inl habs)]
    have hfind : self'.root.findChild f = some self.root.children.length := by
      show FileNode.findIndex f (self.root.addChild _).children 0 = _
      simp only [FileNode.addChild, hroot, if_true]
      rw [FileNode.findIndex_append_of_none f self.root.children _ 0 hfresh
        (by rw [FileNode.setContent_new]; rfl)]
      simp
    have hres' : self'.resolvePath (str "/" ++ f) = some (some [self.root.children.length]) := by
      rw [resolvePath_child_of_root self' f hf]
      simp [hne, hdot, hdots, hfind]
    have hnode : self'.root.nodeAt [self.root.children.length] =
        some ((FileNode.new f false).setContent host x) := by
      show FileNode.nodeAt (self.root.addChild _) _ = _
      simp [FileNode.addChild, hroot, FileNode.nodeAt]
    have hkind : ((FileNode.new f false).setContent host x).isDir = false := by
      rw [FileNode.setContent_new]; rfl
    have hcontent : ((FileNode.new f false).setContent host x).getContent = some x := by
      rw [FileNode.setContent_new]
      simp [FileNode.new, FileNode.getContent]
    unfold catLocal
    simp [hres', hnode, hkind, hcontent]

end VirtualFileSystem

namespace VirtualFileSystem

/-- The step of `write` that makes a new file in a directory without a child of the name. -/
theorem writeNew_plain (host : Host) (content : List Byte) (self : VirtualFileSystem)
    (p : NodePtr) (node : FileNode) (name : List Byte) (hself : self.Plain)
    (hnode : self.root.nodeAt p = some node) (hfresh : node.findChild name = none) :
    ∃ self', updateUsedSpace host
        { self with
          root :=
            self.root.modifyAt
              (fun parent => parent.addChild ((FileNode.new name false).setContent host content))
              p } = some self' ∧ self'.Plain := by
  apply plain_addChild host self p node _ hself hnode
  · rw [FileNode.setContent_new]
    exact hfresh
  · rw [FileNode.setContent_new]
    rfl
  · rw [FileNode.setContent_new]
    rfl

/-- The call `write` has a result on a plain namespace and leaves it plain. -/
theorem writeLocal_plain (host : Host) (content : List Byte) (self : VirtualFileSystem)
    (path : List Byte) (hself : self.Plain) :
    ∃ result, writeLocal host content self path = some result ∧ result.2.Plain := by
  obtain ⟨resolved, hres, hvalid⟩ := resolvePath_isSome self path hself.2.1
  cases resolved with
  | some target =>
    obtain ⟨node, hnode⟩ := Option.isSome_iff_exists.mp (hvalid target rfl)
    by_cases hdir : node.isDir
    · exact ⟨(false, self), by simp [writeLocal, hres, hnode, hdir], hself⟩
    · refine ⟨(true,
        { self with
          root := self.root.modifyAt (fun t => t.setContent host content) target
          usedSpace :=
            (self.usedSpace + (sizeTModulus - node.getSize % sizeTModulus) + content.length) %
              sizeTModulus }), by simp [writeLocal, hres, hnode, hdir], hself.1, hself.2.1, ?_⟩
      apply FileNode.treeWellFormed_modifyAt _ _ target self.root hself.2.2
      · intro found hfound
        exact FileNode.treeWellFormed_setContent host found content
          (FileNode.treeWellFormed_nodeAt self.root found target hself.2.2 hfound)
      · intro found
        exact (FileNode.setContent_frame host found content).1
  | none =>
    rcases findLastSlash_spec path with ⟨hnone, hmem⟩ | ⟨front, back, hpath, hback, hsome⟩
    · have hstep := resolvePath_name self path hself.2.1 hmem
      rw [hres] at hstep
      have hfresh := findChild_eq_none_of_step self.root self.root path [] rfl hstep.symm
      obtain ⟨self', hself', hplain⟩ :=
        writeNew_plain host content self [] self.root path hself rfl hfresh
      rw [hself.2.1] at hself'
      exact ⟨(true, self'), by simp [writeLocal, hres, hnone, hself.2.1, hself'], hplain⟩
    · subst hpath
      have htake : (front ++ 47 :: back).take front.length = front := List.take_left' rfl
      have hdrop : (front ++ 47 :: back).drop (front.length + 1) = back := by
        rw [← List.drop_drop]; simp
      obtain ⟨parentResolved, hparent, hparentValid⟩ :=
        resolvePath_isSome self front hself.2.1
      cases parentResolved with
      | none =>
        exact ⟨(false, self), by simp [writeLocal, hres, hsome, htake, hparent], hself⟩
      | some parent =>
        obtain ⟨node, hnode⟩ := Option.isSome_iff_exists.mp (hparentValid parent rfl)
        by_cases hdir : node.isDir
        · have hstep := resolvePath_append self front back hself.2.1 hback
          rw [hres, hparent] at hstep
          simp only [Option.some_bind] at hstep
          have hfresh := findChild_eq_none_of_step self.root node back parent hnode hstep.symm
          obtain ⟨self', hself', hplain⟩ :=
            writeNew_plain host content self parent node back hself hnode hfresh
          exact ⟨(true, self'),
            by simp [writeLocal, hres, hsome, htake, hdrop, hparent, hnode, hdir, hself'],
            hplain⟩
        · exact ⟨(false, self),
            by simp [writeLocal, hres, hsome, htake, hparent, hnode, hdir], hself⟩

/-- The call `remove` has a result on a plain namespace and leaves it plain. -/
theorem removeLocal_plain (host : Host) (self : VirtualFileSystem) (path : List Byte)
    (hself : self.Plain) :
    ∃ result, removeLocal host self path = some result ∧ result.2.Plain := by
  obtain ⟨resolved, hres, hvalid⟩ := resolvePath_isSome self path hself.2.1
  cases resolved with
  | none => exact ⟨(false, self), by simp [removeLocal, hres], hself⟩
  | some target =>
    obtain ⟨node, hnode⟩ := Option.isSome_iff_exists.mp (hvalid target rfl)
    obtain ⟨targetPath, htargetPath⟩ :=
      Option.isSome_iff_exists.mp (FileNode.getPath_isSome self.root target (hvalid target rfl))
    have hnomount : self.isMountPoint targetPath = false := by
      simp [isMountPoint, hself.1, mapFind]
    by_cases hroot : target = []
    · subst hroot
      exact ⟨(false, self),
        by simp [removeLocal, hres, htargetPath, hnomount, FileNode.getParent],
        hself⟩
    · obtain ⟨parentNode, hparentNode⟩ := FileNode.nodeAt_dropLast self.root target node hnode
      obtain ⟨self', hself', hplain⟩ :=
        plain_updateUsedSpace host self
          (self.root.modifyAt (fun p => p.removeChild node.name) target.dropLast)
          (self.currentDirectory.bind
            (FileNode.afterRemoveChild target.dropLast parentNode.children node.name))
          hself
          (by rw [hself.2.1]; exact FileNode.afterRemoveChild_nil _ _ _)
          (by
            apply FileNode.treeWellFormed_modifyAt _ _ target.dropLast self.root hself.2.2
            · intro found hfound
              exact FileNode.treeWellFormed_removeChild found node.name
                (FileNode.treeWellFormed_nodeAt self.root found _ hself.2.2 hfound)
            · intro found
              rfl)
      exact ⟨(true, self'),
        by simp [removeLocal, hres, hnode, htargetPath, hnomount, FileNode.getParent, hroot,
          hparentNode, hself'],
        hplain⟩

/-- Every call of `mkdir`, `touch`, `write` and `remove` has a result on a plain namespace and
leaves it plain. -/
theorem run_plain (call : FsCall) (self : VirtualFileSystem) (hself : self.Plain) :
    ∃ result, call.run self = some result ∧ result.2.Plain := by
  cases call with
  | mkdir host path =>
    show ∃ result, onResponsibleFS (mkdirLocal host) self path = some result ∧ _
    rw [onResponsibleFS_of_plain _ self path hself]
    exact createLocal_plain host true self path hself
  | touch host path =>
    show ∃ result, onResponsibleFS (touchLocal host) self path = some result ∧ _
    rw [onResponsibleFS_of_plain _ self path hself]
    exact createLocal_plain host false self path hself
  | write host path content =>
    show ∃ result, onResponsibleFS (writeLocal host content) self path = some result ∧ _
    rw [onResponsibleFS_of_plain _ self path hself]
    exact writeLocal_plain host content self path hself
  | remove host path =>
    show ∃ result, onResponsibleFS (removeLocal host) self path = some result ∧ _
    rw [onResponsibleFS_of_plain _ self path hself]
    exact removeLocal_plain host self path hself

/-- Every sequence of calls of `mkdir`, `touch`, `write` and `remove` has a result on a
plain namespace and leaves it plain. -/
theorem runFsCalls_plain (calls : List FsCall) (self : VirtualFileSystem)
    (hself : self.Plain) : ∃ self', runFsCalls calls self = some self' ∧ self'.Plain := by
  induction calls generalizing self with
  | nil => exact ⟨self, rfl, hself⟩
  | cons call rest ih =>
    obtain ⟨result, hresult, hplain⟩ := run_plain call self hself
    obtain ⟨self', hself', hplain'⟩ := ih result.2 hplain
    exact ⟨self', by simp [runFsCalls, hresult, hself'], hplain'⟩

end VirtualFileSystem

/-- A key is absent from a table exactly when looking it up finds nothing. -/
theorem mapFind_eq_none_iff {ν : Type} (table : List (List Byte × ν)) (key : List Byte) :
    mapFind table key = none ↔ key ∉ table.map (·.1) := by
  induction table with
  | nil => simp [mapFind]
  | cons entry rest ih =>
    obtain ⟨k, v⟩ := entry
    simp only [mapFind, List.map_cons, List.mem_cons, not_or]
    by_cases hk : k = key
    · simp [hk]
    · simp only [hk, if_false, ih]
      constructor
      · intro h; exact ⟨fun heq => hk heq.symm, h⟩
      · intro h; exact h.2

/-- The key of an ordered assignment is a key afterwards. -/
theorem mem_keys_sortedSet {ν : Type} (table : List (List Byte × ν)) (key : List Byte)
    (value : ν) : key ∈ (sortedSet table key value).map (·.1) := by
  induction table with
  | nil => simp [sortedSet]
  | cons entry rest ih =>
    obtain ⟨k, v⟩ := entry
    simp only [sortedSet]
    by_cases hk : k = key
    · simp [hk]
    · by_cases hless : strLess key k
      · simp [hk, hless]
      · simp only [hk, hless, if_false, List.map_cons, List.mem_cons]
        right
        exact ih

namespace VirtualFileSystem

/-- No mount point is matched when none of them is a non-empty prefix of the path. -/
theorem longestMatch_eq_nil (normalized : List Byte) (mountPoints : List (List Byte))
    (h : ∀ mountPoint ∈ mountPoints, mountPoint.isPrefixOf normalized = true → mountPoint = []) :
    longestMatch normalized mountPoints [] = [] := by
  induction mountPoints with
  | nil => rfl
  | cons mountPoint rest ih =>
    rw [longestMatch]
    have hrest := ih fun k hk => h k (List.mem_cons_of_mem _ hk)
    by_cases hstarts : mountPoint.isPrefixOf normalized = true
    · have := h mountPoint (List.mem_cons_self _ _) hstarts
      subst this
      simpa using hrest
    · simpa [hstarts] using hrest

/-- The namespace itself is responsible for "/" unless a volume is mounted there. -/
theorem getVolumeForPath_root (self : VirtualFileSystem)
    (hroot : self.isMountPoint (str "/") = false) :
    self.getVolumeForPath (str "/") = some [] := by
  have hkey : str "/" ∉ self.mountedVolumes.map (·.1) := by
    rw [← mapFind_eq_none_iff]
    simpa [isMountPoint] using hroot
  unfold getVolumeForPath
  have habs : (str "/").head? = some 47 := rfl
  simp only [habs, ne_eq, not_true_eq_false, if_false, Option.pure_def, Option.bind_eq_bind,
    Option.some_bind, Option.some.injEq]
  apply longestMatch_eq_nil
  intro mountPoint hmem hstarts
  cases mountPoint with
  | nil => rfl
  | cons c rest =>
    exfalso
    apply hkey
    have : c :: rest = str "/" := by
      cases rest with
      | nil =>
        have hc : c = 47 := by simpa [str, List.isPrefixOf] using hstarts
        rw [hc]; rfl
      | cons d rest => simp [str, List.isPrefixOf] at hstarts
    rw [← this]
    exact hmem

/-- The entry `ls` of the root makes for a mount point directly under the root. -/
theorem mountEntry_child_of_root (b : List Byte) (hb : (47 : Byte) ∉ b) (hne : b ≠ []) :
    mountEntry (str "/" ++ b) = some (b ++ str "@") := by
  have hpath : str "/" ++ b = [] ++ 47 :: b := rfl
  have hlen : 1 < (str "/" ++ b).length := by
    cases b with
    | nil => exact absurd rfl hne
    | cons c rest => simp [str]
  unfold mountEntry
  rw [if_pos hlen]
  simp only [hpath, findLastSlash_append [] b hb]
  have hall : (b.all fun c => decide (c ≠ 47)) = true := by
    rw [List.all_eq_true]
    intro c hc
    simp only [decide_eq_true_eq]
    intro h
    exact hb (h ▸ hc)
  simp [hall, hb]

/-- The path of a child of the root. -/
theorem getPath_child_of_root (root child : FileNode) (i : Nat)
    (hchild : root.children.get? i = some child) :
    root.getPath [i] = some (str "/" ++ child.name) := by
  have hget : root.children[i]? = some child := by simpa using hchild
  simp [FileNode.getPath, FileNode.namesTo, hget, FileNode.pathOfNames]

end VirtualFileSystem

namespace VirtualFileSystem

/-- What a successful `mountVolume` has done: in the namespace as it was, or as `mkdir` of the
mount point left it, the mount point resolved to a node, and the volume was entered in the
mount table under the path of that node. -/
theorem mountVolumeWith_eq_some_true (load : List Byte → Option (Bool × VirtualFileSystem))
    (host : Host) (disk : Disk) (self self' : VirtualFileSystem)
    (diskImage mountPoint : List Byte)
    (h : mountVolumeWith load host disk self diskImage mountPoint = some (true, self')) :
    ∃ (mid : VirtualFileSystem) (mountDir : NodePtr) (mountPath : List Byte)
        (loaded : VirtualFileSystem),
      mid.resolvePath mountPoint = some (some mountDir) ∧
        mid.root.getPath mountDir = some mountPath ∧
        self' =
          { mid with
            mountedVolumes :=
              sortedSet mid.mountedVolumes mountPath ⟨diskImage, loaded, mountDir⟩ } := by
  have tail : ∀ (mid : VirtualFileSystem) (mountDir : NodePtr),
      mid.resolvePath mountPoint = some (some mountDir) →
      ((mid.root.nodeAt mountDir).bind fun node =>
        if ¬ node.isDir then some (false, mid)
        else
          (load diskImage).bind fun loaded =>
            if ¬ loaded.1 then some (false, mid)
            else
              (mid.root.getPath mountDir).bind fun mountPath =>
                some (true,
                  { mid with
                    mountedVolumes :=
                      sortedSet mid.mountedVolumes mountPath
                        ⟨diskImage, loaded.2, mountDir⟩ })) = some (true, self') →
      ∃ (mid : VirtualFileSystem) (mountDir : NodePtr) (mountPath : List Byte)
          (loaded : VirtualFileSystem),
        mid.resolvePath mountPoint = some (some mountDir) ∧
          mid.root.getPath mountDir = some mountPath ∧
          self' =
            { mid with
              mountedVolumes :=
                sortedSet mid.mountedVolumes mountPath ⟨diskImage, loaded, mountDir⟩ } := by
    intro mid mountDir hres htail
    cases hnode : mid.root.nodeAt mountDir with
    | none => simp [hnode] at htail
    | some node =>
      cases hload : load diskImage with
      | none =>
        by_cases hdir : node.isDir <;> simp [hnode, hload, hdir] at htail
      | some loaded =>
        cases hpath : mid.root.getPath mountDir with
        | none =>
          by_cases hdir : node.isDir <;> by_cases hok : loaded.1 <;>
            simp [hnode, hload, hdir, hok, hpath] at htail
        | some mountPath =>
          by_cases hdir : node.isDir <;> by_cases hok : loaded.1 <;>
            simp [hnode, hload, hdir, hok, hpath] at htail
          exact ⟨mid, mountDir, mountPath, loaded.2, hres, hpath, htail.symm⟩
  unfold mountVolumeWith at h
  by_cases hexists : disk.fileExists diskImage
  · by_cases hmounted : self.isMountPoint mountPoint
    · simp [hexists, hmounted] at h
    · cases hres : self.resolvePath mountPoint with
      | none => simp [hexists, hmounted, hres] at h
      | some resolved =>
        cases resolved with
        | some mountDir =>
          apply tail self mountDir hres
          simpa [hexists, hmounted, hres] using h
        | none =>
          cases hmade : self.mkdir host mountPoint with
          | none => simp [hexists, hmounted, hres, hmade] at h
          | some made =>
            by_cases hok : made.1
            · cases hres' : made.2.resolvePath mountPoint with
              | none => simp [hexists, hmounted, hres, hmade, hok, hres'] at h
              | some resolved' =>
                cases resolved' with
                | none => simp [hexists, hmounted, hres, hmade, hok, hres'] at h
                | some mountDir =>
                  apply tail made.2 mountDir hres'
                  simpa [hexists, hmounted, hres, hmade, hok, hres'] using h
            · simp [hexists, hmounted, hres, hmade, hok] at h
  · simp [hexists] at h

end VirtualFileSystem

namespace VirtualFileSystem

/-- What the filter by name fragment and least size answers for a node. -/
theorem matchesFilter_nameAndMinSize (host : Host)
    (fileTags : List (List Byte × List (List Byte))) (node : FileNode) (filePath : List Byte)
    (s : List Byte) (m : Nat) :
    matchesFilter host fileTags node filePath (nameAndMinSizeFilter s m) =
      some (containsSubstring node.name s && (node.isDir || decide (m ≤ node.getSize))) := by
  unfold matchesFilter nameAndMinSizeFilter SearchFilter.default rejectedBy
  cases hname : containsSubstring node.name s <;> cases hdir : node.isDir <;>
    by_cases hsize : m ≤ node.getSize <;> simp [hsize, hname, hdir]

mutual
/-- The search by name fragment and least size from a node on. -/
theorem searchRecursive_nameAndMinSize (host : Host)
    (fileTags : List (List Byte × List (List Byte))) (s : List Byte) (m : Nat) :
    ∀ (isRoot : Bool) (node : FileNode) (currentPath : List Byte),
      searchRecursive host fileTags (nameAndMinSizeFilter s m) isRoot node currentPath =
        some (namedAndLargeOrDirectory s m (visitedNodes isRoot node currentPath))
  | isRoot, FileNode.mk name isDir children content size compressed compressedContent
      compressionAlgorithm encrypted encryptionKey encryptionAlgorithm versions maxVersions,
      currentPath => by
    rw [searchRecursive, matchesFilter_nameAndMinSize, visitedNodes]
    have hbelow := searchChildren_nameAndMinSize host fileTags s m children
      (searchPath isRoot
        (FileNode.mk name isDir children content size compressed compressedContent
          compressionAlgorithm encrypted encryptionKey encryptionAlgorithm versions maxVersions)
        currentPath)
    rw [hbelow]
    cases isDir <;>
      cases hname : containsSubstring name s <;>
      by_cases hsize : m ≤ size <;>
      simp [namedAndLargeOrDirectory, hname, hsize, nameAndMinSizeFilter,
        SearchFilter.default, FileNode.getSize]
/-- The search by name fragment and least size below the children of a directory. -/
theorem searchChildren_nameAndMinSize (host : Host)
    (fileTags : List (List Byte × List (List Byte))) (s : List Byte) (m : Nat) :
    ∀ (children : List FileNode) (newPath : List Byte),
      searchChildren host fileTags (nameAndMinSizeFilter s m) children newPath =
        some (namedAndLargeOrDirectory s m (visitedBelow children newPath))
  | [], _ => rfl
  | child :: rest, newPath => by
    rw [searchChildren, searchRecursive_nameAndMinSize host fileTags s m false child newPath,
      searchChildren_nameAndMinSize host fileTags s m rest newPath, visitedBelow]
    simp [namedAndLargeOrDirectory]
end

end VirtualFileSystem

namespace VirtualFileSystem

/-- The listing of a directory an absolute path resolves to, without mounts. -/
theorem ls_of_resolved (self : VirtualFileSystem) (path : List Byte) (target : NodePtr)
    (node : FileNode) (hmounts : self.mountedVolumes = []) (habs : path.head? = some 47)
    (hres : self.resolvePath path = some (some target))
    (hnode : self.root.nodeAt target = some node) (hdir : node.isDir = true) :
    self.ls path = some (childEntries node.children) := by
  have hpath : path ≠ [] := by
    intro h; simp [h] at habs
  unfold ls
  rw [onResponsibleFS_of_no_mounts lsLocal self path hmounts (Or.inl habs)]
  unfold lsLocal
  simp [hpath, hres, hnode, hdir, hmounts]

/-- The listing of a list of children with one more directory at the end. -/
theorem childEntries_append_new (children : List FileNode) (name : List Byte) :
    childEntries (children ++ [FileNode.new name true]) =
      childEntries children ++ [name ++ str "/"] := by
  simp [childEntries, FileNode.new]

end VirtualFileSystem

/-! ## Theorems: creating directories -/

/-- Where the recomputation of the used space has a value, `mkdir` below a directory does
what is expected of it.  In a namespace without mounts, for names `a` and `b` (strings without
separator): when `/a` does not exist, `mkdir("/a/b")` returns false and leaves the namespace
as it was; when `/a` is a directory with no child named `b`, and the recomputation of the used
space can read every file of the tree, `mkdir("/a/b")` returns true and `ls("/a")` afterwards
is the listing before followed by the entry "b/".  The hypothesis on the used space cannot be
dropped: next to a file whose cached bytes `decompress` cannot read, `mkdir` has no value. -/
theorem mkdir_below_directory (host : Host) (self : VirtualFileSystem) (a b : List Byte)
    (hmounts : self.mountedVolumes = []) (ha : (47 : Byte) ∉ a) (hb : (47 : Byte) ∉ b) :
    (self.resolvePath (str "/" ++ a) = some none →
        self.mkdir host (str "/" ++ a ++ str "/" ++ b) = some (false, self)) ∧
      ∀ (parent : NodePtr) (node : FileNode),
        self.resolvePath (str "/" ++ a) = some (some parent) →
        self.root.nodeAt parent = some node → node.isDir = true →
        node.findChild b = none → (VirtualFileSystem.calculateSize host self.root).isSome →
        ∃ (listing : List (List Byte)) (self' : VirtualFileSystem),
          self.ls (str "/" ++ a) = some listing ∧
            self.mkdir host (str "/" ++ a ++ str "/" ++ b) = some (true, self') ∧
            self'.ls (str "/" ++ a) = some (listing ++ [b ++ str "/"]) := by
  have hpath : str "/" ++ a ++ str "/" ++ b = (str "/" ++ a) ++ 47 :: b := by
    rw [List.append_assoc (str "/" ++ a)]
    rfl
  have habs : (str "/" ++ a).head? = some 47 := rfl
  have habs2 : ((str "/" ++ a) ++ 47 :: b).head? = some 47 := rfl
  have hne : str "/" ++ a ≠ [] := by
    intro h; simp [h] at habs
  have hmkdir :
      self.mkdir host (str "/" ++ a ++ str "/" ++ b) =
        VirtualFileSystem.createLocal host true self ((str "/" ++ a) ++ 47 :: b) := by
    rw [hpath]
    unfold VirtualFileSystem.mkdir
    rw [VirtualFileSystem.onResponsibleFS_of_no_mounts _ self _ hmounts (Or.inl habs2)]
    rfl
  rw [hmkdir, VirtualFileSystem.createLocal_below host true self _ b hb hne]
  constructor
  · intro hres
    simp [hres]
  · intro parent node hres hnode hdir hchild hsize
    have hsize' :
        (VirtualFileSystem.calculateSize host
          (self.root.modifyAt (fun p => p.addChild (FileNode.new b true)) parent)).isSome := by
      apply VirtualFileSystem.calculateSize_modifyAt_isSome host _ parent self.root hsize
      intro d _ hd
      exact VirtualFileSystem.calculateSize_addChild_new_isSome host d b true hd
    obtain ⟨size, hsize''⟩ := Option.isSome_iff_exists.mp hsize'
    let self' : VirtualFileSystem :=
      { self with
        root := self.root.modifyAt (fun p => p.addChild (FileNode.new b true)) parent
        usedSpace := size % sizeTModulus }
    refine ⟨VirtualFileSystem.childEntries node.children, self',
      VirtualFileSystem.ls_of_resolved self _ parent node hmounts habs hres hnode hdir, ?_, ?_⟩
    · simp [hres, hnode, hdir, hchild, VirtualFileSystem.updateUsedSpace, hsize'', self']
    · have hnode' : self'.root.nodeAt parent = some (node.addChild (FileNode.new b true)) := by
        show FileNode.nodeAt (self.root.modifyAt _ parent) parent = _
        rw [FileNode.nodeAt_modifyAt_self, hnode]
        rfl
      have hres' : self'.resolvePath (str "/" ++ a) = some (some parent) := by
        rw [VirtualFileSystem.resolvePath_child_of_root self _ ha] at hres
        rw [VirtualFileSystem.resolvePath_child_of_root self' _ ha]
        by_cases hspecial : a = [] ∨ a = str "." ∨ a = str ".."
        · simpa [hspecial] using hres
        · simp only [hspecial, if_false] at hres ⊢
          cases hfind : self.root.findChild a with
          | none => simp [hfind] at hres
          | some i =>
            simp only [hfind, Option.some.injEq] at hres
            subst hres
            have hsame : self'.root.findChild a = self.root.findChild a := by
              apply FileNode.findIndex_congr
              exact FileNode.modifyAt_cons_children_names _
                (fun d => by unfold FileNode.addChild; split <;> rfl) i [] self.root
            rw [hsame, hfind]
      have hlist := VirtualFileSystem.ls_of_resolved self' _ parent _ hmounts habs hres' hnode'
        (by simp [FileNode.addChild, hdir])
      rw [hlist]
      simp [FileNode.addChild, hdir, VirtualFileSystem.childEntries_append_new]

/-- The theorem `mkdir_below_directory` at a concrete input: in the namespace holding the
directory `/a`, `mkdir("/a/b")` returns true and `ls("/a")` goes from the empty listing to the
single entry "b/". -/
theorem mkdir_below_directory_witness :
    ∃ (listing : List (List Byte)) (self' : VirtualFileSystem),
      VirtualFileSystem.ls sampleDirectoryState (str "/" ++ str "a") = some listing ∧
        VirtualFileSystem.mkdir sampleHost sampleDirectoryState
          (str "/" ++ str "a" ++ str "/" ++ str "b") = some (true, self') ∧
        self'.ls (str "/" ++ str "a") = some (listing ++ [str "b" ++ str "/"]) :=
  (mkdir_below_directory sampleHost sampleDirectoryState (str "a") (str "b") rfl (by decide)
    (by decide)).2 [0] (FileNode.new (str "a") true) (by decide) rfl rfl (by decide)
    (by decide)

/-! ## Theorems: listing mounted volumes -/

/-- C13, amended: after a successful `mountVolume(image, "/b")`, for a name `b` (no separator,
not empty, not "." or ".."), in a namespace whose root is a directory and has no volume
mounted on it, `ls("/")` contains the entry "b@"; and the listing of a directory other than
the root, for which the namespace itself is responsible, consists of the entries of its
children only, so a volume mounted below it adds no entry. -/
theorem ls_root_lists_volume_under_root (fuel : Nat) (host : Host) (disk : Disk)
    (self self' : VirtualFileSystem) (diskImage b : List Byte)
    (hb : (47 : Byte) ∉ b) (hne : b ≠ []) (hdot : b ≠ str ".") (hdots : b ≠ str "..")
    (hmount : self.mountVolume fuel host disk diskImage (str "/" ++ b) = some (true, self'))
    (hroot : self'.root.isDir = true) (hnone : self'.isMountPoint (str "/") = false) :
    (∃ listing, self'.ls (str "/") = some listing ∧ b ++ str "@" ∈ listing) ∧
      ∀ (path : List Byte) (target : NodePtr) (node : FileNode),
        self'.getVolumeForPath path = some [] → path ≠ [] →
        self'.resolvePath path = some (some target) → target ≠ [] →
        self'.root.nodeAt target = some node → node.isDir = true →
        self'.ls path = some (VirtualFileSystem.childEntries node.children) := by
  constructor
  · obtain ⟨mid, mountDir, mountPath, loaded, hres, hpath, hself⟩ :=
      VirtualFileSystem.mountVolumeWith_eq_some_true _ host disk self self' diskImage _ hmount
    have hkey : str "/" ++ b ∈ self'.mountedVolumes.map (·.1) := by
      rw [VirtualFileSystem.resolvePath_child_of_root mid b hb] at hres
      simp only [hne, hdot, hdots, or_self, if_false] at hres
      cases hfind : mid.root.findChild b with
      | none => simp [hfind] at hres
      | some i =>
        simp only [hfind, Option.some.injEq] at hres
        subst hres
        obtain ⟨child, hchild, hname⟩ := FileNode.findChild_eq_some mid.root b i hfind
        rw [VirtualFileSystem.getPath_child_of_root mid.root child i hchild, hname] at hpath
        simp only [Option.some.injEq] at hpath
        subst hpath
        rw [hself]
        exact mem_keys_sortedSet _ _ _
    refine ⟨VirtualFileSystem.childEntries self'.root.children ++
      (self'.mountedVolumes.map (·.1)).filterMap VirtualFileSystem.mountEntry, ?_, ?_⟩
    · unfold VirtualFileSystem.ls
      rw [VirtualFileSystem.onResponsibleFS_of_local _ self' _
        (VirtualFileSystem.getVolumeForPath_root self' hnone)]
      have hres' : self'.resolvePath (str "/") = some (some []) := rfl
      have hpath0 : str "/" ≠ [] := by decide
      simp [VirtualFileSystem.lsLocal, hres', hroot, hpath0]
    · apply List.mem_append_right
      rw [List.mem_filterMap]
      exact ⟨str "/" ++ b, hkey, VirtualFileSystem.mountEntry_child_of_root b hb hne⟩
  · intro path target node hvol hpath hres htarget hnode hdir
    unfold VirtualFileSystem.ls
    rw [VirtualFileSystem.onResponsibleFS_of_local _ self' _ hvol]
    simp [VirtualFileSystem.lsLocal, hpath, hres, hnode, hdir, htarget]

/-- C13, amended, at a concrete input: after `mountVolume("v.img", "/b")` on a new
namespace, `ls("/")` contains the entry "b@". -/
theorem ls_root_lists_volume_under_root_witness :
    ∃ listing, sampleMountedState.ls (str "/") = some listing ∧ str "b" ++ str "@" ∈ listing :=
  (ls_root_lists_volume_under_root 2 sampleHost volumeDisk (VirtualFileSystem.new 1024)
    sampleMountedState (str "v.img") (str "b") (by decide) (by decide) (by decide) (by decide)
    rfl rfl rfl).1

/-! ## Theorems: writing below a mount point -/

/-- C14, amended: when the volume mounted at `mountPoint` is responsible for the path
`mountPoint/f`, `write(mountPoint/f, x)` returns what the volume's own `write("/f", x)`
returns and leaves the volume as that call leaves it, and nothing else of the parent changes,
its own tree included.  When the volume has no mounts, its cursor is at its root, its root is
a directory without a child `f`, `f` is a name (no separator, not empty, not "." or "..") and
the recomputation of the used space can read every file of the volume, the volume's
`write("/f", x)` returns true and `cat("/f")` in the volume reads `x` afterwards. -/
theorem write_below_mount_point_is_delegated (host : Host) (self : VirtualFileSystem)
    (mountPoint f x : List Byte) (info : MountInfo VirtualFileSystem)
    (hmount : mountPoint ≠ [])
    (hvol : self.getVolumeForPath (mountPoint ++ str "/" ++ f) = some mountPoint)
    (hinfo : mapFind self.mountedVolumes mountPoint = some info) :
    self.write host (mountPoint ++ str "/" ++ f) x =
        ((info.fs.write host (str "/" ++ f) x).map fun result =>
          (result.1,
            { self with
              mountedVolumes :=
                mapSet self.mountedVolumes mountPoint { info with fs := result.2 } })) ∧
      (info.fs.mountedVolumes = [] → info.fs.currentDirectory = some [] →
        info.fs.root.isDir = true → (47 : Byte) ∉ f → f ≠ [] → f ≠ str "." → f ≠ str ".." →
        info.fs.root.findChild f = none →
        (VirtualFileSystem.calculateSize host info.fs.root).isSome →
        ∃ volume', info.fs.write host (str "/" ++ f) x = some (true, volume') ∧
          volume'.cat (str "/" ++ f) = some x) := by
  constructor
  · have hpath : mountPoint ++ str "/" ++ f = mountPoint ++ (str "/" ++ f) :=
      List.append_assoc _ _ _
    rw [hpath] at hvol ⊢
    unfold VirtualFileSystem.write
    exact VirtualFileSystem.onResponsibleFS_of_mounted _ self mountPoint (str "/" ++ f) info hvol
      hmount (by simp [str]) hinfo
  · intro hmounts hcursor hroot hf hne hdot hdots hfresh hsize
    exact VirtualFileSystem.write_new_file_below_root host info.fs f x hmounts hcursor hroot hf
      hne hdot hdots hfresh hsize

/-- C14, amended, at a concrete input: with the empty volume mounted at "/a/b",
`write("/a/b/f", "x")` is the volume's `write("/f", "x")`, which returns true, and
`cat("/f")` in the volume reads "x" afterwards. -/
theorem write_below_mount_point_is_delegated_witness :
    sampleDeepMountedState.write sampleHost (str "/a/b" ++ str "/" ++ str "f") (str "x") =
        ((sampleVolumeInfo.fs.write sampleHost (str "/" ++ str "f") (str "x")).map fun result =>
          (result.1,
            { sampleDeepMountedState with
              mountedVolumes :=
                mapSet sampleDeepMountedState.mountedVolumes (str "/a/b")
                  { sampleVolumeInfo with fs := result.2 } })) ∧
      ∃ volume', sampleVolumeInfo.fs.write sampleHost (str "/" ++ str "f") (str "x") =
          some (true, volume') ∧
        volume'.cat (str "/" ++ str "f") = some (str "x") :=
  ⟨(write_below_mount_point_is_delegated sampleHost sampleDeepMountedState (str "/a/b")
      (str "f") (str "x") sampleVolumeInfo (by decide) (by decide) rfl).1,
    (write_below_mount_point_is_delegated sampleHost sampleDeepMountedState (str "/a/b")
      (str "f") (str "x") sampleVolumeInfo (by decide) (by decide) rfl).2 rfl rfl rfl
      (by decide) (by decide) (by decide) (by decide) rfl (by decide)⟩

namespace VirtualFileSystem

/-- With the cursor at the root, `mkdir` and `touch` of `parentPath/name` change nothing when
the node `parentPath` resolves to has a child `name`. -/
theorem createLocal_existing (host : Host) (isDirectory : Bool) (self : VirtualFileSystem)
    (parentPath name : List Byte) (parent : NodePtr) (node : FileNode)
    (hcursor : self.currentDirectory = some []) (hname : (47 : Byte) ∉ name)
    (hres : self.resolvePath parentPath = some (some parent))
    (hnode : self.root.nodeAt parent = some node) (hchild : (node.findChild name).isSome) :
    createLocal host isDirectory self (parentPath ++ 47 :: name) = some (false, self) := by
  by_cases hparent : parentPath = []
  · subst hparent
    have hroot : parent = [] := by
      simp [resolvePath, hcursor] at hres
      exact hres
    subst hroot
    simp only [FileNode.nodeAt_nil, Option.some.injEq] at hnode
    subst hnode
    have hslash : findLastSlash (47 :: name) = some 0 := findLastSlash_append [] name hname
    unfold createLocal
    simp [hslash, hchild]
  · rw [createLocal_below host isDirectory self parentPath name hname hparent]
    by_cases hdir : node.isDir <;> simp [hres, hnode, hdir, hchild]

/-- With the cursor at the root, `mkdir` and `touch` of a name change nothing when the root
has a child of that name. -/
theorem createLocal_existing_name (host : Host) (isDirectory : Bool)
    (self : VirtualFileSystem) (name : List Byte)
    (hcursor : self.currentDirectory = some []) (hname : (47 : Byte) ∉ name)
    (hchild : (self.root.findChild name).isSome) :
    createLocal host isDirectory self name = some (false, self) := by
  rcases findLastSlash_spec name with ⟨hnone, _⟩ | ⟨front, back, hpath, _, _⟩
  · unfold createLocal
    simp [hnone, hcursor, hchild]
  · exact absurd (by rw [hpath]; simp) hname

end VirtualFileSystem

/-! ## Theorems: the tree after any calls -/

/-- C18: every sequence of `mkdir`, `touch`, `write` and `remove` calls, with any paths and
contents, has a result on a fresh namespace, and in the namespace it leaves no node has two
children with the same name, no file has children, and `mkdir` and `touch` of a path
`parentPath/name`, or of a bare `name` in the root, whose final name is that of a child of the
target directory return false and leave the namespace as it is. -/
theorem reachable_tree_well_formed (diskSize : Nat) (calls : List FsCall) :
    ∃ self, runFsCalls calls (VirtualFileSystem.new diskSize) = some self ∧
      (∀ (ptr : NodePtr) (node : FileNode), self.root.nodeAt ptr = some node →
        (node.children.map (·.name)).Nodup ∧ (node.isDir = false → node.children = [])) ∧
      (∀ (host : Host) (parentPath name : List Byte) (parent : NodePtr) (node : FileNode),
        (47 : Byte) ∉ name → self.resolvePath parentPath = some (some parent) →
        self.root.nodeAt parent = some node → (node.findChild name).isSome →
        self.mkdir host (parentPath ++ str "/" ++ name) = some (false, self) ∧
          self.touch host (parentPath ++ str "/" ++ name) = some (false, self)) ∧
      ∀ (host : Host) (name : List Byte), (47 : Byte) ∉ name →
        (self.root.findChild name).isSome →
        self.mkdir host name = some (false, self) ∧ self.touch host name = some (false, self)
    := by
  obtain ⟨self, hrun, hplain⟩ :=
    VirtualFileSystem.runFsCalls_plain calls _ (VirtualFileSystem.plain_new diskSize)
  refine ⟨self, hrun, ?_, ?_, ?_⟩
  · intro ptr node hnode
    exact ⟨(hplain.2.2 ptr node hnode).1, (hplain.2.2 ptr node hnode).2.1⟩
  · intro host parentPath name parent node hname hres hnode hchild
    have hpath : parentPath ++ str "/" ++ name = parentPath ++ 47 :: name := by
      rw [List.append_assoc]; rfl
    rw [hpath]
    constructor
    · show VirtualFileSystem.onResponsibleFS (VirtualFileSystem.mkdirLocal host) self _ = _
      rw [VirtualFileSystem.onResponsibleFS_of_plain _ self _ hplain]
      exact VirtualFileSystem.createLocal_existing host true self parentPath name parent node
        hplain.2.1 hname hres hnode hchild
    · show VirtualFileSystem.onResponsibleFS (VirtualFileSystem.touchLocal host) self _ = _
      rw [VirtualFileSystem.onResponsibleFS_of_plain _ self _ hplain]
      exact VirtualFileSystem.createLocal_existing host false self parentPath name parent node
        hplain.2.1 hname hres hnode hchild
  · intro host name hname hchild
    constructor
    · show VirtualFileSystem.onResponsibleFS (VirtualFileSystem.mkdirLocal host) self _ = _
      rw [VirtualFileSystem.onResponsibleFS_of_plain _ self _ hplain]
      exact VirtualFileSystem.createLocal_existing_name host true self name hplain.2.1 hname
        hchild
    · show VirtualFileSystem.onResponsibleFS (VirtualFileSystem.touchLocal host) self _ = _
      rw [VirtualFileSystem.onResponsibleFS_of_plain _ self _ hplain]
      exact VirtualFileSystem.createLocal_existing_name host false self name hplain.2.1 hname
        hchild

/-! ## Theorems: search by name and size -/

/-- C21: on three byte strings longer than 17 bytes `decompress` is not defensive: with a
single-leaf tree and one encoded bit it steps to the missing left child of the leaf and
dereferences it, with a tree cut off after its left leaf it steps to the missing right child
of the root and dereferences it, and with the one-byte tree "0" and no bits it returns the
empty string instead of the input. -/
theorem huffman_decompress_follows_missing_child :
    HuffmanCompression.decompress singleLeafRecord = none ∧
      HuffmanCompression.decompress truncatedTreeRecord = none ∧
      HuffmanCompression.decompress childlessTreeRecord = some [] := by
  refine ⟨by decide, by decide, by decide⟩

/-- C23: with XOR encryption under the key "k" enabled on a fresh file before
`setContent("a"); setContent("b")`, `restoreVersion(0)` returns true as without encryption,
but `getContent()` afterwards returns the byte 0x09 where the unencrypted file returns "b":
the ledger holds the stored ciphertext, and `restoreVersion` encrypts it once more. -/
theorem restoreVersion_reencrypts_ciphertext :
    encryptedTwiceWritten.getContent = some (str "b") ∧
      (encryptedTwiceWritten.restoreVersion sampleHost 0).1 = true ∧
      (encryptedTwiceWritten.restoreVersion sampleHost 0).2.getContent = some [0x09] ∧
      (plainTwiceWritten.restoreVersion sampleHost 0).1 = true ∧
      (plainTwiceWritten.restoreVersion sampleHost 0).2.getContent = some (str "b") := by
  refine ⟨by decide, by decide, by decide, by decide, by decide⟩

/-- C24: on a file holding "aaaa" under XOR encryption with the key "k",
`setCompressed(true, "RLE")` caches the compression of the stored ciphertext, the bytes
04 0A, not `compress("aaaa")`, the bytes 04 61, and `getContent()` afterwards returns the
ciphertext 0A 0A 0A 0A. -/
theorem setCompressed_compresses_ciphertext :
    xorEncryptedFile.getContent = some (str "aaaa") ∧
      (xorEncryptedFile.setCompressed sampleHost true (str "RLE")).getCompressedContent =
        [0x04, 0x0A] ∧
      RLECompression.compress (str "aaaa") = [0x04, 0x61] ∧
      RLECompression.decompress (RLECompression.compress (str "aaaa")) = str "aaaa" ∧
      (xorEncryptedFile.setCompressed sampleHost true (str "RLE")).getContent =
        some [0x0A, 0x0A, 0x0A, 0x0A] := by
  refine ⟨by decide, by decide, by decide, by decide, by decide⟩

/-- C25: in the tree with the 5-byte files /docs/a.txt and /g of content "hello", the
files-only searches `searchBySize(0, 10, "/")` and `searchByContent("ell", false, "/")` return
nothing, and so does the files-only search started at the directory /docs, while the same
search by content without `filesOnly` finds both files. -/
theorem files_only_search_skips_children :
    sampleDocsState.searchBySize sampleHost 0 10 (str "/") = some [] ∧
      sampleDocsState.searchByContent (fun _ => none) sampleHost (str "ell") false (str "/") =
        some [] ∧
      sampleDocsState.search sampleHost { SearchFilter.default with filesOnly := true }
        (str "/docs") = some [] ∧
      sampleDocsState.search sampleHost
        { SearchFilter.default with contentContains := some (str "ell") } (str "/") =
        some [str "/", str "/docs", str "/docs/a.txt", str "/g"] := by
  refine ⟨by decide, by decide, by decide, by decide⟩

/-- C26: the search for the name "a.txt" started at "/docs" reports the file /docs/a.txt as
"/docs/docs/a.txt", a path that resolves to no node, while the file is at "/docs/a.txt"; the
same search started at "/" reports "/docs/a.txt". -/
theorem search_reports_start_name_twice :
    sampleDocsState.search sampleHost
        { SearchFilter.default with nameContains := some (str "a.txt") } (str "/docs") =
        some [str "/docs/docs/a.txt"] ∧
      sampleDocsState.resolvePath (str "/docs/docs/a.txt") = some none ∧
      sampleDocsState.resolvePath (str "/docs/a.txt") = some (some [0, 0]) ∧
      sampleDocsState.search sampleHost
        { SearchFilter.default with nameContains := some (str "a.txt") } (str "/") =
        some [str "/docs/a.txt"] := by
  refine ⟨by decide, by decide, by decide, by decide⟩

/-- The namespace after `mkdir("/a")` and `mountVolume("v.img", "/a/b")` is the state written
out as `deepMountedState`. -/
theorem sampleDeepMountedState_eq : sampleDeepMountedState = deepMountedState := rfl

/-- C27: with the empty volume mounted at /a/b, `write("/a/b/f", "x")` makes the file in the
volume and leaves the mount directory of the parent empty.  With the cursor at the root,
`write("a/b/f", "x")` returns true, leaves the volume empty and makes the file `f` in the
mount directory of the parent's own tree: the path compared with the mount points is
"//a/b/f".  With the cursor at /a, `write("b/f", "x")` has no value, as `getResponsibleFS`
takes `substr(4)` of the three characters "b/f", and `write("b/file", "x")` makes the file
"le" in the volume. -/
theorem relative_path_misses_mounted_volume :
    ((sampleDeepMountedState.write sampleHost (str "/a/b/f") (str "x")).map fun s =>
        (s.1, s.2.ls (str "/a/b"),
          (s.2.root.nodeAt [0, 0]).map fun mountDir => mountDir.children.map (·.name))) =
        some (true, some [str "f"], some []) ∧
      ((sampleDeepMountedState.write sampleHost (str "a/b/f") (str "x")).map fun s =>
        (s.1, s.2.ls (str "/a/b"),
          (s.2.root.nodeAt [0, 0]).map fun mountDir => mountDir.children.map (·.name))) =
        some (true, some [], some [str "f"]) ∧
      ((sampleDeepMountedState.cd (str "/a")).bind fun s1 =>
        (s1.2.write sampleHost (str "b/f") (str "x")).map fun s2 => s2.1) = none ∧
      ((sampleDeepMountedState.cd (str "/a")).bind fun s1 =>
        (s1.2.write sampleHost (str "b/file") (str "x")).map fun s2 =>
          (s1.1, s1.2.getCurrentPath, s2.1, s2.2.ls (str "/a/b"))) =
        some (true, some (str "/a"), true, some [str "le"]) := by
  rw [sampleDeepMountedState_eq]
  refine ⟨by decide, by decide, by decide, by decide⟩

/-! ## Lemmas: paths of nodes -/

namespace FileNode

/-- Among children with distinct names, the search for the name of a child finds it. -/
theorem findIndex_of_nodup (children : List FileNode) (child : FileNode) (i index : Nat)
    (hnodup : (children.map (·.name)).Nodup) (hchild : children[i]? = some child) :
    findIndex child.name children index = some (index + i) := by
  induction children generalizing i index with
  | nil => simp at hchild
  | cons first rest ih =>
    rw [List.map_cons, List.nodup_cons] at hnodup
    cases i with
    | zero =>
      simp only [List.getElem?_cons_zero, Option.some.injEq] at hchild
      subst hchild
      simp [findIndex]
    | succ j =>
      simp only [List.getElem?_cons_succ] at hchild
      have hne : first.name ≠ child.name := by
        intro h
        apply hnodup.1
        rw [h]
        exact List.mem_map_of_mem _ (List.getElem?_mem hchild)
      simp only [findIndex, hne, if_false]
      rw [ih j (index + 1) hnodup.2 hchild]
      congr 1
      omega

/-- The path built from the names on the way to a node, read from the root down: every name
with a separator in front. -/
theorem pathOfNames_reverse (names : List (List Byte)) (hnames : names ≠ []) :
    pathOfNames names.reverse = names.flatMap fun name => 47 :: name := by
  induction names using List.reverseRecOn with
  | nil => exact absurd rfl hnames
  | append_singleton front last ih =>
    rw [List.reverse_append, List.reverse_singleton, List.singleton_append]
    by_cases hfront : front = []
    · subst hfront
      simp [pathOfNames, str]
      rfl
    · obtain ⟨first, rest, hrev⟩ := List.exists_cons_of_ne_nil
        (show front.reverse ≠ [] by simpa using hfront)
      have hstep : pathOfNames (last :: front.reverse) =
          pathOfNames front.reverse ++ str "/" ++ last := by
        rw [hrev]
        rfl
      rw [hstep, ih hfront, List.flatMap_append, List.append_assoc]
      simp [str]
      rfl

end FileNode

namespace VirtualFileSystem

/-- The non-empty pieces of a name followed by further names, each with a separator in
front. -/
theorem getlines_filter_flatMap (names : List (List Byte)) (name : List Byte)
    (hname : (47 : Byte) ∉ name) (hnames : ∀ n ∈ names, (47 : Byte) ∉ n) :
    (getlines (name ++ names.flatMap fun n => 47 :: n) []).filter (fun piece => piece ≠ []) =
      (if name = [] then [] else [name]) ++ names.filter fun piece => piece ≠ [] := by
  induction names generalizing name with
  | nil =>
    simp only [List.flatMap_nil, List.append_nil, List.filter_nil]
    exact getlines_filter_of_not_mem name hname
  | cons next rest ih =>
    rw [List.flatMap_cons, List.cons_append, getlines_filter_append,
      getlines_filter_of_not_mem name hname,
      ih next (hnames next (List.mem_cons_self _ _))
        fun n hn => hnames n (List.mem_cons_of_mem _ hn)]
    by_cases hnext : next = []
    · simp [hnext]
    · simp [hnext]

/-- The walk over the names on the way to a node arrives at the node, in a well-named
tree. -/
theorem resolveLoop_namesTo (root : FileNode) (hroot : root.TreeWellNamed) (ptr : NodePtr) :
    ∀ (current : NodePtr) (node : FileNode) (names : List (List Byte)),
      root.nodeAt current = some node → node.namesTo ptr = some names →
      resolveLoop root names current = some (some (current ++ ptr)) := by
  induction ptr with
  | nil =>
    intro current node names _ hnames
    simp only [FileNode.namesTo, Option.some.injEq] at hnames
    subst hnames
    simp [resolveLoop]
  | cons i rest ih =>
    intro current node names hnode hnames
    rw [FileNode.namesTo] at hnames
    simp only [List.get?_eq_getElem?] at hnames
    cases hchild : node.children[i]? with
    | none => simp [hchild] at hnames
    | some child =>
      simp only [hchild, Option.map_eq_some'] at hnames
      obtain ⟨below, hbelow, hcons⟩ := hnames
      subst hcons
      obtain ⟨hnodup, hgood⟩ := hroot current node hnode
      obtain ⟨hne, _, hdot, hdots⟩ := hgood child (List.getElem?_mem hchild)
      have hfind : node.findChild child.name = some i := by
        have := FileNode.findIndex_of_nodup node.children child i 0 hnodup hchild
        simpa [FileNode.findChild] using this
      have hnext : root.nodeAt (current ++ [i]) = some child := by
        rw [FileNode.nodeAt_append, hnode]
        simp [FileNode.nodeAt_cons, hchild]
      rw [resolveLoop]
      simp only [hne, hdot, hdots, or_self, if_false, hnode, hfind]
      rw [ih (current ++ [i]) child below hnext hbelow, List.append_assoc]
      rfl

/-- The names on the way to a node of a well-named tree are path components. -/
theorem namesTo_wellNamed (ptr : NodePtr) :
    ∀ (node : FileNode) (names : List (List Byte)),
      node.TreeWellNamed → node.namesTo ptr = some names →
      ∀ name ∈ names, name ≠ [] ∧ (47 : Byte) ∉ name := by
  induction ptr with
  | nil =>
    intro node names _ hnames
    simp only [FileNode.namesTo, Option.some.injEq] at hnames
    subst hnames
    simp
  | cons i rest ih =>
    intro node names hnode hnames
    rw [FileNode.namesTo] at hnames
    simp only [List.get?_eq_getElem?] at hnames
    cases hchild : node.children[i]? with
    | none => simp [hchild] at hnames
    | some child =>
      simp only [hchild, Option.map_eq_some'] at hnames
      obtain ⟨below, hbelow, hcons⟩ := hnames
      subst hcons
      obtain ⟨_, hgood⟩ := hnode [] node rfl
      obtain ⟨hne, hslash, _, _⟩ := hgood child (List.getElem?_mem hchild)
      have hchildTree : child.TreeWellNamed := by
        intro ptr below' hbelow'
        apply hnode (i :: ptr) below'
        rw [FileNode.nodeAt_cons]
        simp [hchild, hbelow']
      intro name hname
      rcases List.mem_cons.mp hname with h | h
      · rw [h]; exact ⟨hne, hslash⟩
      · exact ih child below hchildTree hbelow name h

end VirtualFileSystem

namespace FileNode

/-- A tree is well named when the children of its root are and the trees of its children
are. -/
theorem treeWellNamed_of_children (root : FileNode) (hroot : root.WellNamed)
    (hchildren : ∀ child ∈ root.children, child.TreeWellNamed) : root.TreeWellNamed := by
  intro ptr node hnode
  cases ptr with
  | nil =>
    simp only [nodeAt_nil, Option.some.injEq] at hnode
    subst hnode
    exact hroot
  | cons i rest =>
    rw [nodeAt_cons] at hnode
    cases hget : root.children[i]? with
    | none => simp [hget] at hnode
    | some child =>
      simp only [List.get?_eq_getElem?, hget, Option.some_bind] at hnode
      exact hchildren child (List.getElem?_mem hget) rest node hnode

end FileNode

/-! ## Theorems: the path of a node -/

/-- C30: in a namespace whose tree is well named (sibling names distinct, every name of a
node below the root non-empty, without '/', and neither "." nor ".."), whatever the cursor
is, every node of the tree has a path, `resolvePath` of that path returns the node, and the
path of the root is "/". -/
theorem resolvePath_getPath (self : VirtualFileSystem) (ptr : NodePtr) (node : FileNode)
    (hnamed : self.root.TreeWellNamed) (hnode : self.root.nodeAt ptr = some node) :
    (∃ path, self.root.getPath ptr = some path ∧ self.resolvePath path = some (some ptr)) ∧
      self.root.getPath [] = some (str "/") := by
  refine ⟨?_, rfl⟩
  obtain ⟨path, hpath⟩ :=
    Option.isSome_iff_exists.mp
      (FileNode.getPath_isSome self.root ptr (by rw [hnode]; rfl))
  refine ⟨path, hpath, ?_⟩
  unfold FileNode.getPath at hpath
  cases hnames : self.root.namesTo ptr with
  | none => simp [hnames] at hpath
  | some names =>
    simp only [hnames, Option.map_some', Option.some.injEq] at hpath
    subst hpath
    have hwalk := VirtualFileSystem.resolveLoop_namesTo self.root hnamed ptr [] self.root names
      rfl hnames
    rw [List.nil_append] at hwalk
    by_cases hempty : names = []
    · subst hempty
      simp only [VirtualFileSystem.resolveLoop, Option.some.injEq] at hwalk
      subst hwalk
      rfl
    · have hgood := VirtualFileSystem.namesTo_wellNamed ptr self.root names hnamed hnames
      rw [FileNode.pathOfNames_reverse names hempty]
      obtain ⟨first, rest, hcons⟩ := List.exists_cons_of_ne_nil hempty
      subst hcons
      have hfirst := hgood first (List.mem_cons_self _ _)
      have hpieces :
          (VirtualFileSystem.splitPath
            ((first :: rest).flatMap fun name => 47 :: name)).filter
              (fun piece => piece ≠ []) = first :: rest := by
        rw [List.flatMap_cons, List.cons_append]
        show (VirtualFileSystem.getlines _ []).filter _ = _
        rw [VirtualFileSystem.getlines_filter_flatMap rest first hfirst.2
          fun n hn => (hgood n (List.mem_cons_of_mem _ hn)).2]
        simp only [hfirst.1, if_false, List.singleton_append, List.cons.injEq, true_and]
        rw [List.filter_eq_self]
        intro n hn
        simpa using (hgood n (List.mem_cons_of_mem _ hn)).1
      unfold VirtualFileSystem.resolvePath
      rw [if_neg (by simp), if_pos (by simp), VirtualFileSystem.resolveLoop_filter, hpieces]
      exact hwalk

/-- C30 at a concrete input: in the tree with the directory /logs and the files /logs/app.log
and /small.log, the file at the pointer [0, 0] has a path that `resolvePath` leads back to
the pointer, and the path of the root is "/". -/
theorem resolvePath_getPath_witness :
    (∃ path, sampleLogState.root.getPath [0, 0] = some path ∧
        sampleLogState.resolvePath path = some (some [0, 0])) ∧
      sampleLogState.root.getPath [] = some (str "/") :=
  resolvePath_getPath sampleLogState [0, 0]
    { FileNode.new (str "app.log") false with content := List.replicate 120 65, size := 120 }
    (by
      apply FileNode.treeWellNamed_of_children
      · unfold FileNode.WellNamed; decide
      · intro child hchild
        simp only [sampleLogState, List.mem_cons, List.mem_singleton, List.not_mem_nil,
          or_false] at hchild
        rcases hchild with h | h <;> subst h
        · apply FileNode.treeWellNamed_of_children
          · unfold FileNode.WellNamed; decide
          · intro child hchild
            simp only [List.mem_singleton] at hchild
            subst hchild
            apply FileNode.treeWellNamed_of_children
            · unfold FileNode.WellNamed; decide
            · intro child hchild
              simp [FileNode.new] at hchild
        · apply FileNode.treeWellNamed_of_children
          · unfold FileNode.WellNamed; decide
          · intro child hchild
            simp [FileNode.new] at hchild)
    rfl

/-! ## Lemmas: the used space -/

namespace FileNode

/-- The sum over the tree under a node, by the fields of the node. -/
theorem totalSize_eq (overhead : Nat) (node : FileNode) :
    totalSize overhead node =
      overhead + node.name.length + (if node.isDir then 0 else node.content.length) +
        totalSizes overhead node.children := by
  cases node
  rw [totalSize]

theorem totalSizes_append (overhead : Nat) (xs ys : List FileNode) :
    totalSizes overhead (xs ++ ys) = totalSizes overhead xs + totalSizes overhead ys := by
  induction xs with
  | nil => simp [totalSizes]
  | cons x xs ih =>
    rw [List.cons_append, totalSizes, totalSizes, ih]
    omega

/-- Replacing one tree of a list moves the sum by the difference of the two trees. -/
theorem totalSizes_modify (overhead : Nat) (f : FileNode → FileNode) (children : List FileNode)
    (i : Nat) (child : FileNode) (hchild : children[i]? = some child) :
    totalSizes overhead (children.modify f i) + totalSize overhead child =
      totalSizes overhead children + totalSize overhead (f child) := by
  induction children generalizing i with
  | nil => simp at hchild
  | cons first rest ih =>
    cases i with
    | zero =>
      simp only [List.getElem?_cons_zero, Option.some.injEq] at hchild
      subst hchild
      rw [List.modify_zero_cons, totalSizes, totalSizes]
      omega
    | succ j =>
      simp only [List.getElem?_cons_succ] at hchild
      have := ih j hchild
      rw [List.modify_succ_cons, totalSizes, totalSizes]
      omega

/-- Replacing a node of a tree moves the sum over the tree by the difference of the sums over
the old and the new tree under the node. -/
theorem totalSize_modifyAt (overhead : Nat) (f : FileNode → FileNode) (p : NodePtr) :
    ∀ (root node : FileNode), root.nodeAt p = some node →
      totalSize overhead (root.modifyAt f p) + totalSize overhead node =
        totalSize overhead root + totalSize overhead (f node) := by
  induction p with
  | nil =>
    intro root node hnode
    simp only [nodeAt_nil, Option.some.injEq] at hnode
    subst hnode
    rw [modifyAt_nil]
    omega
  | cons i rest ih =>
    intro root node hnode
    rw [nodeAt_cons] at hnode
    simp only [List.get?_eq_getElem?] at hnode
    cases hchild : root.children[i]? with
    | none => simp [hchild] at hnode
    | some child =>
      simp only [hchild, Option.some_bind] at hnode
      have hbelow := ih child node hnode
      have hlist := totalSizes_modify overhead (modifyAt f rest) root.children i child hchild
      rw [modifyAt_cons, totalSize_eq, totalSize_eq overhead root]
      simp only
      omega

theorem treeSized_child (root child : FileNode) (i : Nat) (h : root.TreeSized)
    (hchild : root.children[i]? = some child) : child.TreeSized := by
  intro ptr node hnode
  apply h (i :: ptr) node
  rw [nodeAt_cons]
  simp [hchild, hnode]

/-- A tree is sized when its root is and the trees of its children are. -/
theorem treeSized_of_children (root : FileNode) (hroot : root.Sized)
    (hchildren : ∀ child ∈ root.children, child.TreeSized) : root.TreeSized := by
  intro ptr node hnode
  cases ptr with
  | nil =>
    simp only [nodeAt_nil, Option.some.injEq] at hnode
    subst hnode
    exact hroot
  | cons i rest =>
    rw [nodeAt_cons] at hnode
    cases hget : root.children[i]? with
    | none => simp [hget] at hnode
    | some child =>
      simp only [List.get?_eq_getElem?, hget, Option.some_bind] at hnode
      exact hchildren child (List.getElem?_mem hget) rest node hnode

/-- The tree below a node of a sized tree is sized. -/
theorem treeSized_nodeAt (root node : FileNode) (p : NodePtr) (hroot : root.TreeSized)
    (hnode : root.nodeAt p = some node) : node.TreeSized := by
  intro ptr below hbelow
  apply hroot (p ++ ptr) below
  rw [nodeAt_append, hnode]
  exact hbelow

/-- Replacing a node of a sized tree by a sized tree leaves a sized tree. -/
theorem treeSized_modifyAt (f : FileNode → FileNode) (p : NodePtr) (root : FileNode)
    (hroot : root.TreeSized) (hf : ∀ node, root.nodeAt p = some node → (f node).TreeSized) :
    (root.modifyAt f p).TreeSized := by
  induction p generalizing root with
  | nil => exact hf root rfl
  | cons i rest ih =>
    apply treeSized_of_children
    · exact hroot [] root rfl
    · intro child hchild
      have hchild' : child ∈ root.children.modify (modifyAt f rest) i := hchild
      obtain ⟨j, hj⟩ := List.getElem?_of_mem hchild'
      rw [List.getElem?_modify] at hj
      cases hget : root.children[j]? with
      | none => simp [hget] at hj
      | some old =>
        simp only [hget, Option.map_eq_map, Option.map_some', Option.some.injEq] at hj
        by_cases hij : i = j
        · subst hij
          simp only [if_true] at hj
          subst hj
          apply ih old (treeSized_child root old i hroot hget)
          intro node hnode
          apply hf node
          rw [nodeAt_cons]
          simp [hget, hnode]
        · simp only [hij, if_false] at hj
          subst hj
          exact treeSized_child root old j hroot hget

/-- Adding a sized, childless child keeps a tree sized. -/
theorem treeSized_addChild (node child : FileNode) (hnode : node.TreeSized)
    (hleaf : child.children = []) (hchild : child.Sized) : (node.addChild child).TreeSized := by
  unfold addChild
  by_cases hdir : node.isDir
  · rw [if_pos hdir]
    apply treeSized_of_children
    · exact hnode [] node rfl
    · intro c hc
      have hc' : c ∈ node.children ++ [child] := hc
      rcases List.mem_append.mp hc' with h | h
      · obtain ⟨j, hj⟩ := List.getElem?_of_mem h
        exact treeSized_child node c j hnode hj
      · rw [List.mem_singleton.mp h]
        apply treeSized_of_children _ hchild
        intro c' hc'
        simp [hleaf] at hc'
  · rw [if_neg hdir]
    exact hnode

/-- Removing the children of a name keeps a tree sized. -/
theorem treeSized_removeChild (node : FileNode) (childName : List Byte)
    (hnode : node.TreeSized) : (node.removeChild childName).TreeSized := by
  apply treeSized_of_children
  · exact hnode [] node rfl
  · intro c hc
    have hc' : c ∈ node.children.filter fun c => c.name ≠ childName := hc
    obtain ⟨j, hj⟩ := List.getElem?_of_mem (List.mem_of_mem_filter hc')
    exact treeSized_child node c j hnode hj

/-- Writing a content to an uncompressed, unencrypted file stores it as it is. -/
theorem setContent_plain (host : Host) (node : FileNode) (newContent : List Byte)
    (hfile : node.isDir = false) (hcompressed : node.compressed = false)
    (hencrypted : node.encrypted = false) :
    (node.setContent host newContent).content = newContent ∧
      (node.setContent host newContent).size = newContent.length ∧
      (node.setContent host newContent).encrypted = false := by
  unfold setContent
  simp only [hfile, Bool.false_eq_true, if_false]
  unfold reencrypt recompress store saveVersion
  by_cases hcontent : node.content = [] <;>
    simp [hfile, hcontent, hcompressed, hencrypted]

/-- Writing a content keeps the encryption flag of a directory and every field but the
content, the size and the ledger. -/
theorem setContent_dir (host : Host) (node : FileNode) (newContent : List Byte)
    (hdir : node.isDir = true) : node.setContent host newContent = node := by
  unfold setContent
  simp [hdir]

/-- Writing a content keeps an uncompressed tree sized. -/
theorem treeSized_setContent (host : Host) (node : FileNode) (newContent : List Byte)
    (hnode : node.TreeSized) (hcompressed : node.compressed = false) :
    (node.setContent host newContent).TreeSized := by
  by_cases hdir : node.isDir = true
  · rw [setContent_dir host node newContent hdir]
    exact hnode
  · have hfile : node.isDir = false := by simpa using hdir
    obtain ⟨hcontent, hsize, hencrypted⟩ :=
      setContent_plain host node newContent hfile hcompressed (hnode [] node rfl).1
    obtain ⟨_, _, hchildren, _⟩ := setContent_frame host node newContent
    apply treeSized_of_children
    · exact ⟨hencrypted, by rw [hsize, hcontent]⟩
    · intro c hc
      rw [hchildren] at hc
      obtain ⟨j, hj⟩ := List.getElem?_of_mem hc
      exact treeSized_child node c j hnode hj

end FileNode

namespace VirtualFileSystem

mutual
/-- The size lambda computes the sum over the tree, on a well-formed, sized tree. -/
theorem calculateSize_eq_totalSize (host : Host) :
    ∀ (node : FileNode), node.TreeWellFormed → node.TreeSized →
      calculateSize host node = some (FileNode.totalSize host.sizeofFileNode node)
  | FileNode.mk name isDir children content size compressed compressedContent
      compressionAlgorithm encrypted encryptionKey encryptionAlgorithm versions maxVersions,
      hformed, hsized => by
    rw [calculateSize_eq, FileNode.totalSize_eq]
    cases isDir with
    | true =>
      have hbelow := calculateSizes_eq_totalSizes host children
        (fun child hchild => by
          obtain ⟨j, hj⟩ := List.getElem?_of_mem hchild
          exact FileNode.treeWellFormed_child _ child j hformed hj)
        (fun child hchild => by
          obtain ⟨j, hj⟩ := List.getElem?_of_mem hchild
          exact FileNode.treeSized_child _ child j hsized hj)
      simp only [if_true, hbelow, Option.map_some']
      congr 1
    | false =>
      have hplain := (hformed [] _ rfl).2.2
      have hleaf := (hformed [] _ rfl).2.1 rfl
      have hclear := (hsized [] _ rfl).1
      simp only at hplain hleaf hclear
      subst hleaf
      simp [FileNode.getContent, hplain, hclear, FileNode.totalSizes]
/-- The size loop computes the sum over the trees, on well-formed, sized trees. -/
theorem calculateSizes_eq_totalSizes (host : Host) :
    ∀ (children : List FileNode), (∀ child ∈ children, child.TreeWellFormed) →
      (∀ child ∈ children, child.TreeSized) →
      calculateSizes host children = some (FileNode.totalSizes host.sizeofFileNode children)
  | [], _, _ => rfl
  | child :: rest, hformed, hsized => by
    rw [calculateSizes,
      calculateSize_eq_totalSize host child (hformed child (List.mem_cons_self _ _))
        (hsized child (List.mem_cons_self _ _)),
      calculateSizes_eq_totalSizes host rest
        (fun c hc => hformed c (List.mem_cons_of_mem _ hc))
        (fun c hc => hsized c (List.mem_cons_of_mem _ hc))]
    rfl
end

end VirtualFileSystem

namespace VirtualFileSystem

/-- The step shared by `mkdir` and `touch` once the target directory is known, as an
outcome. -/
theorem createAt_outcome (host : Host) (isDirectory : Bool) (self : VirtualFileSystem)
    (p : NodePtr) (name : List Byte) (hself : self.Plain)
    (hp : (self.root.nodeAt p).isSome) :
    ∃ result,
      ((self.root.nodeAt p).bind fun node =>
        if (node.findChild name).isSome then some (false, self)
        else
          (updateUsedSpace host
            { self with
              root :=
                self.root.modifyAt
                  (fun parent => parent.addChild (FileNode.new name isDirectory)) p }).bind
            fun self' => some (true, self')) = some result ∧ Outcome host self result := by
  obtain ⟨node, hnode⟩ := Option.isSome_iff_exists.mp hp
  by_cases hchild : (node.findChild name).isSome
  · exact ⟨(false, self), by simp [hnode, hchild], Or.inl rfl⟩
  · obtain ⟨self', hself', _⟩ :=
      plain_addChild host self p node (FileNode.new name isDirectory) hself hnode
        (by simpa using hchild) rfl rfl
    exact ⟨(true, self'), by simp [hnode, hchild, hself'],
      Or.inr (Or.inl ⟨p, node, FileNode.new name isDirectory, hnode, by simpa using hchild,
        rfl, rfl, ⟨rfl, rfl⟩, rfl, hself'⟩)⟩

/-- The calls `mkdir` and `touch` on a plain namespace, as an outcome. -/
theorem createLocal_outcome (host : Host) (isDirectory : Bool) (self : VirtualFileSystem)
    (path : List Byte) (hself : self.Plain) :
    ∃ result, createLocal host isDirectory self path = some result ∧
      Outcome host self result := by
  rcases findLastSlash_spec path with ⟨hnone, _⟩ | ⟨front, back, hpath, hback, hsome⟩
  · obtain ⟨result, hresult, hout⟩ :=
      createAt_outcome host isDirectory self [] path hself rfl
    refine ⟨result, ?_, hout⟩
    rw [← hresult]
    unfold createLocal
    simp [hnone, hself.2.1]
  · subst hpath
    by_cases hfront : front = []
    · subst hfront
      obtain ⟨result, hresult, hout⟩ :=
        createAt_outcome host isDirectory self [] back hself rfl
      refine ⟨result, ?_, hout⟩
      rw [← hresult]
      have hsome' : findLastSlash (47 :: back) = some 0 := hsome
      unfold createLocal
      simp [hsome']
    · rw [createLocal_below host isDirectory self front back hback hfront]
      obtain ⟨resolved, hres, hvalid⟩ := resolvePath_isSome self front hself.2.1
      rw [hres]
      cases resolved with
      | none => exact ⟨(false, self), rfl, Or.inl rfl⟩
      | some parent =>
        obtain ⟨node, hnode⟩ := Option.isSome_iff_exists.mp (hvalid parent rfl)
        by_cases hdir : node.isDir
        · obtain ⟨result, hresult, hout⟩ :=
            createAt_outcome host isDirectory self parent back hself (hvalid parent rfl)
          refine ⟨result, ?_, hout⟩
          rw [← hresult]
          simp only [Option.some_bind, hnode, hdir, if_true]
          by_cases hchild : (node.findChild back).isSome
          · simp [hchild]
          · simp only [hchild, Bool.false_eq_true, if_false]
            cases updateUsedSpace host
              { self with
                root :=
                  self.root.modifyAt
                    (fun parent => parent.addChild (FileNode.new back isDirectory)) parent } <;>
              rfl
        · exact ⟨(false, self), by simp [hnode, hdir], Or.inl rfl⟩

/-- The step of `write` that makes a new file, as an outcome. -/
theorem writeNew_outcome (host : Host) (content : List Byte) (self : VirtualFileSystem)
    (p : NodePtr) (node : FileNode) (name : List Byte) (hself : self.Plain)
    (hnode : self.root.nodeAt p = some node) (hfresh : node.findChild name = none) :
    ∃ self', updateUsedSpace host
        { self with
          root :=
            self.root.modifyAt
              (fun parent => parent.addChild ((FileNode.new name false).setContent host content))
              p } = some self' ∧ Outcome host self (true, self') := by
  obtain ⟨self', hself', _⟩ := writeNew_plain host content self p node name hself hnode hfresh
  refine ⟨self', hself', Or.inr (Or.inl ⟨p, node, _, hnode, ?_, ?_, ?_, ?_, rfl, hself'⟩)⟩
  · rw [FileNode.setContent_new]
    exact hfresh
  · rw [FileNode.setContent_new]
    rfl
  · rw [FileNode.setContent_new]
    rfl
  · rw [FileNode.setContent_new]
    exact ⟨rfl, rfl⟩

/-- The call `write` on a plain namespace, as an outcome. -/
theorem writeLocal_outcome (host : Host) (content : List Byte) (self : VirtualFileSystem)
    (path : List Byte) (hself : self.Plain) :
    ∃ result, writeLocal host content self path = some result ∧ Outcome host self result := by
  obtain ⟨resolved, hres, hvalid⟩ := resolvePath_isSome self path hself.2.1
  cases resolved with
  | some target =>
    obtain ⟨node, hnode⟩ := Option.isSome_iff_exists.mp (hvalid target rfl)
    by_cases hdir : node.isDir
    · exact ⟨(false, self), by simp [writeLocal, hres, hnode, hdir], Or.inl rfl⟩
    · exact ⟨(true,
        { self with
          root := self.root.modifyAt (fun t => t.setContent host content) target
          usedSpace :=
            (self.usedSpace + (sizeTModulus - node.getSize % sizeTModulus) + content.length) %
              sizeTModulus }), by simp [writeLocal, hres, hnode, hdir],
        Or.inr (Or.inr (Or.inl ⟨target, node, content, hnode, by simpa using hdir, rfl⟩))⟩
  | none =>
    rcases findLastSlash_spec path with ⟨hnone, hmem⟩ | ⟨front, back, hpath, hback, hsome⟩
    · have hstep := resolvePath_name self path hself.2.1 hmem
      rw [hres] at hstep
      have hfresh := findChild_eq_none_of_step self.root self.root path [] rfl hstep.symm
      obtain ⟨self', hself', hout⟩ :=
        writeNew_outcome host content self [] self.root path hself rfl hfresh
      rw [hself.2.1] at hself'
      exact ⟨(true, self'), by simp [writeLocal, hres, hnone, hself.2.1, hself'], hout⟩
    · subst hpath
      have htake : (front ++ 47 :: back).take front.length = front := List.take_left' rfl
      have hdrop : (front ++ 47 :: back).drop (front.length + 1) = back := by
        rw [← List.drop_drop]; simp
      obtain ⟨parentResolved, hparent, hparentValid⟩ :=
        resolvePath_isSome self front hself.2.1
      cases parentResolved with
      | none =>
        exact ⟨(false, self), by simp [writeLocal, hres, hsome, htake, hparent], Or.inl rfl⟩
      | some parent =>
        obtain ⟨node, hnode⟩ := Option.isSome_iff_exists.mp (hparentValid parent rfl)
        by_cases hdir : node.isDir
        · have hstep := resolvePath_append self front back hself.2.1 hback
          rw [hres, hparent] at hstep
          simp only [Option.some_bind] at hstep
          have hfresh := findChild_eq_none_of_step self.root node back parent hnode hstep.symm
          obtain ⟨self', hself', hout⟩ :=
            writeNew_outcome host content self parent node back hself hnode hfresh
          exact ⟨(true, self'),
            by simp [writeLocal, hres, hsome, htake, hdrop, hparent, hnode, hdir, hself'],
            hout⟩
        · exact ⟨(false, self),
            by simp [writeLocal, hres, hsome, htake, hparent, hnode, hdir], Or.inl rfl⟩

/-- The call `remove` on a plain namespace, as an outcome. -/
theorem removeLocal_outcome (host : Host) (self : VirtualFileSystem) (path : List Byte)
    (hself : self.Plain) :
    ∃ result, removeLocal host self path = some result ∧ Outcome host self result := by
  obtain ⟨resolved, hres, hvalid⟩ := resolvePath_isSome self path hself.2.1
  cases resolved with
  | none => exact ⟨(false, self), by simp [removeLocal, hres], Or.inl rfl⟩
  | some target =>
    obtain ⟨node, hnode⟩ := Option.isSome_iff_exists.mp (hvalid target rfl)
    obtain ⟨targetPath, htargetPath⟩ :=
      Option.isSome_iff_exists.mp (FileNode.getPath_isSome self.root target (hvalid target rfl))
    have hnomount : self.isMountPoint targetPath = false := by
      simp [isMountPoint, hself.1, mapFind]
    by_cases hroot : target = []
    · subst hroot
      exact ⟨(false, self),
        by simp [removeLocal, hres, htargetPath, hnomount, FileNode.getParent],
        Or.inl rfl⟩
    · obtain ⟨parentNode, hparentNode⟩ := FileNode.nodeAt_dropLast self.root target node hnode
      have hcursor :
          self.currentDirectory.bind
              (FileNode.afterRemoveChild target.dropLast parentNode.children node.name) =
            some [] := by
        rw [hself.2.1]; exact FileNode.afterRemoveChild_nil _ _ _
      obtain ⟨self', hself', _⟩ :=
        plain_updateUsedSpace host self
          (self.root.modifyAt (fun p => p.removeChild node.name) target.dropLast)
          (self.currentDirectory.bind
            (FileNode.afterRemoveChild target.dropLast parentNode.children node.name))
          hself hcursor
          (by
            apply FileNode.treeWellFormed_modifyAt _ _ target.dropLast self.root hself.2.2
            · intro found hfound
              exact FileNode.treeWellFormed_removeChild found node.name
                (FileNode.treeWellFormed_nodeAt self.root found _ hself.2.2 hfound)
            · intro found
              rfl)
      exact ⟨(true, self'),
        by simp [removeLocal, hres, hnode, htargetPath, hnomount, FileNode.getParent, hroot,
          hparentNode, hself'],
        Or.inr (Or.inr (Or.inr ⟨target.dropLast, node.name, _, hcursor, rfl, hself'⟩))⟩

/-- Every call of `mkdir`, `touch`, `write` and `remove` on a plain namespace has a result,
which is one of the outcomes. -/
theorem run_outcome (call : FsCall) (self : VirtualFileSystem) (hself : self.Plain) :
    ∃ result, call.run self = some result ∧ Outcome call.host self result := by
  cases call with
  | mkdir host path =>
    show ∃ result, onResponsibleFS (mkdirLocal host) self path = some result ∧ _
    rw [onResponsibleFS_of_plain _ self path hself]
    exact createLocal_outcome host true self path hself
  | touch host path =>
    show ∃ result, onResponsibleFS (touchLocal host) self path = some result ∧ _
    rw [onResponsibleFS_of_plain _ self path hself]
    exact createLocal_outcome host false self path hself
  | write host path content =>
    show ∃ result, onResponsibleFS (writeLocal host content) self path = some result ∧ _
    rw [onResponsibleFS_of_plain _ self path hself]
    exact writeLocal_outcome host content self path hself
  | remove host path =>
    show ∃ result, onResponsibleFS (removeLocal host) self path = some result ∧ _
    rw [onResponsibleFS_of_plain _ self path hself]
    exact removeLocal_outcome host self path hself

end VirtualFileSystem

namespace VirtualFileSystem

/-- The recomputed used space of a plain namespace with a well-formed, sized new tree is the
sum over the tree, as a `size_t`. -/
theorem updateUsedSpace_accounted (host : Host) (self self' : VirtualFileSystem)
    (root' : FileNode) (cursor : Option NodePtr) (hself : self.Plain)
    (hcursor : cursor = some []) (hformed : root'.TreeWellFormed) (hsized : root'.TreeSized)
    (hupdate :
      updateUsedSpace host { self with root := root', currentDirectory := cursor } =
        some self') :
    self'.Plain ∧ self'.root.TreeSized ∧
      self'.usedSpace = FileNode.totalSize host.sizeofFileNode self'.root % sizeTModulus := by
  unfold updateUsedSpace at hupdate
  simp only [calculateSize_eq_totalSize host root' hformed hsized, Option.map_some',
    Option.some.injEq] at hupdate
  subst hupdate
  exact ⟨⟨hself.1, hcursor, hformed⟩, hsized, rfl⟩

/-- The fresh namespace has no file. -/
theorem nodeAt_new_isDir (diskSize : Nat) (ptr : NodePtr) (node : FileNode)
    (hnode : (VirtualFileSystem.new diskSize).root.nodeAt ptr = some node) :
    node.isDir = true := by
  cases ptr with
  | nil =>
    simp only [FileNode.nodeAt_nil, Option.some.injEq] at hnode
    subst hnode
    rfl
  | cons i rest =>
    rw [FileNode.nodeAt_cons] at hnode
    simp [VirtualFileSystem.new, FileNode.new] at hnode

/-- The fresh namespace is sized. -/
theorem treeSized_new (diskSize : Nat) : (VirtualFileSystem.new diskSize).root.TreeSized := by
  apply FileNode.treeSized_of_children
  · exact ⟨rfl, rfl⟩
  · intro child hchild
    simp [VirtualFileSystem.new, FileNode.new] at hchild

/-- The used space after an outcome of a call: a call that returns false leaves the namespace
as it is, and after a call that returns true the namespace is plain and sized and its used
space is the sum over its tree, as a `size_t`, provided it was so before or the namespace was
fresh. -/
theorem outcome_accounted (host : Host) (self : VirtualFileSystem)
    (result : Bool × VirtualFileSystem) (hself : self.Plain) (hsized : self.root.TreeSized)
    (hout : Outcome host self result)
    (hbefore :
      self.usedSpace = FileNode.totalSize host.sizeofFileNode self.root % sizeTModulus ∨
        ∃ diskSize, self = VirtualFileSystem.new diskSize) :
    (result.1 = false ∧ result.2 = self) ∨
      (result.1 = true ∧ result.2.Plain ∧ result.2.root.TreeSized ∧
        result.2.usedSpace =
          FileNode.totalSize host.sizeofFileNode result.2.root % sizeTModulus) := by
  rcases hout with hsame | ⟨p, node, child, hnode, hfresh, hleaf, hplain, hchild, htrue, hupdate⟩ |
    ⟨target, node, content, hnode, hfile, hresult⟩ | ⟨parent, name, cursor, hcursor, htrue, hupdate⟩
  · left
    rw [hsame]
    exact ⟨rfl, rfl⟩
  · right
    refine ⟨htrue, ?_⟩
    apply updateUsedSpace_accounted host self result.2 _ self.currentDirectory hself hself.2.1
      ?_ ?_ hupdate
    · apply FileNode.treeWellFormed_modifyAt _ _ p self.root hself.2.2
      · intro found hfound
        rw [hnode] at hfound
        simp only [Option.some.injEq] at hfound
        subst hfound
        exact FileNode.treeWellFormed_addChild _ child
          (FileNode.treeWellFormed_nodeAt self.root _ p hself.2.2 hnode) hfresh hleaf hplain
      · intro parent
        unfold FileNode.addChild
        split <;> rfl
    · apply FileNode.treeSized_modifyAt _ p self.root hsized
      intro found hfound
      exact FileNode.treeSized_addChild found child
        (FileNode.treeSized_nodeAt self.root found p hsized hfound) hleaf hchild
  · right
    subst hresult
    have hformedNode := hself.2.2 target node hnode
    have hsizedNode := hsized target node hnode
    refine ⟨rfl, ⟨hself.1, hself.2.1, ?_⟩, ?_, ?_⟩
    · apply FileNode.treeWellFormed_modifyAt _ _ target self.root hself.2.2
      · intro found hfound
        exact FileNode.treeWellFormed_setContent host found content
          (FileNode.treeWellFormed_nodeAt self.root found target hself.2.2 hfound)
      · intro found
        exact (FileNode.setContent_frame host found content).1
    · apply FileNode.treeSized_modifyAt _ target self.root hsized
      intro found hfound
      exact FileNode.treeSized_setContent host found content
        (FileNode.treeSized_nodeAt self.root found target hsized hfound)
        (hself.2.2 target found hfound).2.2
    · rcases hbefore with hbefore | ⟨diskSize, hnew⟩
      · have hmove := FileNode.totalSize_modifyAt host.sizeofFileNode
          (fun t => t.setContent host content) target self.root node hnode
        obtain ⟨hname, hkind, hchildren, _⟩ := FileNode.setContent_frame host node content
        obtain ⟨hcontent, _, _⟩ :=
          FileNode.setContent_plain host node content hfile hformedNode.2.2 hsizedNode.1
        rw [FileNode.totalSize_eq _ node, FileNode.totalSize_eq _ (node.setContent host content),
          hname, hkind, hchildren, hcontent] at hmove
        simp only [hfile, Bool.false_eq_true, if_false] at hmove
        have hold : node.getSize = node.content.length := hsizedNode.2
        show (self.usedSpace + (sizeTModulus - node.getSize % sizeTModulus) + content.length) %
            sizeTModulus = _
        rw [hbefore, hold]
        simp only [sizeTModulus] at *
        omega
      · exfalso
        rw [hnew] at hnode
        have := nodeAt_new_isDir diskSize target node hnode
        rw [hfile] at this
        exact absurd this (by decide)
  · right
    refine ⟨htrue, ?_⟩
    apply updateUsedSpace_accounted host self result.2 _ cursor hself hcursor ?_ ?_ hupdate
    · apply FileNode.treeWellFormed_modifyAt _ _ parent self.root hself.2.2
      · intro found hfound
        exact FileNode.treeWellFormed_removeChild found name
          (FileNode.treeWellFormed_nodeAt self.root found _ hself.2.2 hfound)
      · intro found
        rfl
    · apply FileNode.treeSized_modifyAt _ parent self.root hsized
      intro found hfound
      exact FileNode.treeSized_removeChild found name
        (FileNode.treeSized_nodeAt self.root found parent hsized hfound)

/-- After any calls of `mkdir`, `touch`, `write` and `remove` on hosts with one per-node
overhead, from a plain, sized namespace whose used space is the sum over its tree or which is
fresh, the used space is the sum over the tree, as a `size_t`, if it was so before or a call
has returned true. -/
theorem runFsCallResults_accounted (overhead : Nat) (calls : List FsCall)
    (hhost : ∀ call ∈ calls, call.host.sizeofFileNode = overhead) :
    ∀ (self : VirtualFileSystem), self.Plain → self.root.TreeSized →
      (self.usedSpace = FileNode.totalSize overhead self.root % sizeTModulus ∨
        ∃ diskSize, self = VirtualFileSystem.new diskSize) →
      ∃ results self', runFsCallResults calls self = some (results, self') ∧
        self'.Plain ∧ self'.root.TreeSized ∧
        (self.usedSpace = FileNode.totalSize overhead self.root % sizeTModulus ∨
            true ∈ results →
          self'.usedSpace = FileNode.totalSize overhead self'.root % sizeTModulus) := by
  induction calls with
  | nil =>
    intro self hself hsized _
    exact ⟨[], self, rfl, hself, hsized, fun h => by simpa using h⟩
  | cons call rest ih =>
    intro self hself hsized hbefore
    have hcall := hhost call (List.mem_cons_self _ _)
    obtain ⟨result, hrun, hout⟩ := run_outcome call self hself
    rw [← hcall] at hbefore
    rcases outcome_accounted call.host self result hself hsized hout hbefore with
      ⟨hfalse, hsame⟩ | ⟨htrue, hplain, hsized', hused⟩
    · rw [hcall] at hbefore
      obtain ⟨results, self', hrest, hplain', hsized', hused'⟩ :=
        ih (fun c hc => hhost c (List.mem_cons_of_mem _ hc)) self hself hsized hbefore
      refine ⟨result.1 :: results, self', ?_, hplain', hsized', ?_⟩
      · simp [runFsCallResults, hrun, hsame, hrest]
      · intro hmem
        rw [hfalse] at hmem
        simp only [List.mem_cons, Bool.true_eq_false, false_or] at hmem
        exact hused' hmem
    · rw [hcall] at hused
      obtain ⟨results, self', hrest, hplain', hsized'', hused'⟩ :=
        ih (fun c hc => hhost c (List.mem_cons_of_mem _ hc)) result.2 hplain hsized'
          (Or.inl hused)
      refine ⟨result.1 :: results, self', ?_, hplain', hsized'', ?_⟩
      · simp [runFsCallResults, hrun, hrest]
      · intro _
        exact hused' (Or.inl hused)

end VirtualFileSystem

/-! ## Theorems: the used space -/

/-- C22: every sequence of `mkdir`, `touch`, `write` and `remove` calls on a fresh namespace,
made on hosts with one per-node overhead, has results, and once one of the calls has returned
true, `getUsedSpace()` is the sum over every node of the tree, the root included, of the
overhead, the length of the name and, for a file, the length of the content, taken as a
`size_t` (so it is that sum when the sum is below 2^64); a full recomputation by
`updateUsedSpace` then leaves the used space as it is, also after an overwriting `write`,
which updates it by the difference of the sizes. -/
theorem usedSpace_is_tree_total (overhead diskSize : Nat) (calls : List FsCall)
    (hhost : ∀ call ∈ calls, call.host.sizeofFileNode = overhead) :
    ∃ results self,
      runFsCallResults calls (VirtualFileSystem.new diskSize) = some (results, self) ∧
        (true ∈ results →
          self.getUsedSpace = FileNode.totalSize overhead self.root % sizeTModulus ∧
            (FileNode.totalSize overhead self.root < sizeTModulus →
              self.getUsedSpace = FileNode.totalSize overhead self.root) ∧
            ∀ host : Host, host.sizeofFileNode = overhead →
              (self.updateUsedSpace host).map (·.getUsedSpace) = some self.getUsedSpace) := by
  obtain ⟨results, self, hrun, hplain, hsized, hused⟩ :=
    VirtualFileSystem.runFsCallResults_accounted overhead calls hhost
      (VirtualFileSystem.new diskSize) (VirtualFileSystem.plain_new diskSize)
      (VirtualFileSystem.treeSized_new diskSize) (Or.inr ⟨diskSize, rfl⟩)
  refine ⟨results, self, hrun, ?_⟩
  intro hmem
  have hexact := hused (Or.inr hmem)
  refine ⟨hexact, ?_, ?_⟩
  · intro hsmall
    show self.usedSpace = _
    rw [hexact, Nat.mod_eq_of_lt hsmall]
  · intro host hoverhead
    unfold VirtualFileSystem.updateUsedSpace
    rw [VirtualFileSystem.calculateSize_eq_totalSize host self.root hplain.2.2 hsized,
      hoverhead]
    simp only [Option.map_some', VirtualFileSystem.getUsedSpace, Option.some.injEq]
    exact hexact.symm

/-- C22 at a concrete input: after `mkdir("/d")`, `write("/d/f", "abc")`, the overwriting
`write("/d/f", "hello")` and `touch("/g")` on a host with an overhead of 344 bytes, all of
which return true, the used space is 344 + 1 for the root, 344 + 1 for /d, 344 + 1 + 5 for
/d/f and 344 + 1 for /g: 1385 bytes. -/
theorem usedSpace_is_tree_total_witness :
    ∃ results self,
      runFsCallResults sampleAccountedCalls (VirtualFileSystem.new 4096) =
          some (results, self) ∧
        (true ∈ results →
          self.getUsedSpace = FileNode.totalSize 344 self.root % sizeTModulus ∧
            (FileNode.totalSize 344 self.root < sizeTModulus →
              self.getUsedSpace = FileNode.totalSize 344 self.root) ∧
            ∀ host : Host, host.sizeofFileNode = 344 →
              (self.updateUsedSpace host).map (·.getUsedSpace) = some self.getUsedSpace) :=
  usedSpace_is_tree_total 344 4096 sampleAccountedCalls (by decide)

/-- The calls of `sampleAccountedCalls` all return true and leave 1385 bytes used. -/
theorem sampleAccountedCalls_results :
    (runFsCallResults sampleAccountedCalls (VirtualFileSystem.new 4096)).map
        (fun run => (run.1, run.2.getUsedSpace, FileNode.totalSize 344 run.2.root)) =
      some ([true, true, true, true], 1385, 1385) := by
  rfl

/-! ## Lemmas: the LZW dictionaries -/

/-- Looking up a key that is not among the keys finds nothing. -/
theorem mapFind_eq_none_of_forall {κ ν : Type} [DecidableEq κ] (table : List (κ × ν)) (key : κ)
    (h : ∀ entry ∈ table, entry.1 ≠ key) : mapFind table key = none := by
  induction table with
  | nil => rfl
  | cons entry rest ih =>
    obtain ⟨k, v⟩ := entry
    have hk : k ≠ key := h (k, v) (List.mem_cons_self _ _)
    simp only [mapFind, hk, if_false]
    exact ih fun e he => h e (List.mem_cons_of_mem _ he)

/-- A lookup in two tables in a row is a lookup in the first and, failing that, in the
second. -/
theorem mapFind_append {κ ν : Type} [DecidableEq κ] (first second : List (κ × ν)) (key : κ) :
    mapFind (first ++ second) key =
      match mapFind first key with
      | some value => some value
      | none => mapFind second key := by
  induction first with
  | nil => rfl
  | cons entry rest ih =>
    obtain ⟨k, v⟩ := entry
    by_cases hk : k = key
    · simp [mapFind, hk]
    · simp only [List.cons_append, mapFind, hk, if_false]
      exact ih

/-- Assigning to a key that is not in the table adds the entry at the end. -/
theorem mapSet_of_mapFind_eq_none {κ ν : Type} [DecidableEq κ] (table : List (κ × ν)) (key : κ)
    (value : ν) (h : mapFind table key = none) : mapSet table key value = table ++ [(key, value)]
    := by
  induction table with
  | nil => rfl
  | cons entry rest ih =>
    obtain ⟨k, v⟩ := entry
    by_cases hk : k = key
    · simp [mapFind, hk] at h
    · simp only [mapFind, hk, if_false] at h
      simp only [mapSet, hk, if_false, List.cons_append, ih h]

/-- Reading a key that is in the table leaves the table as it is. -/
theorem mapIndex_of_mapFind_eq_some {κ ν : Type} [DecidableEq κ] (dflt : ν)
    (table : List (κ × ν)) (key : κ) (value : ν) (h : mapFind table key = some value) :
    mapIndex dflt table key = (value, table) := by
  simp [mapIndex, h]

namespace LZWCompression

set_option maxHeartbeats 4000000 in
/-- The encoder's starting dictionary maps every one-byte string to its byte value. -/
theorem mapFind_encodeDictionary_single :
    ∀ b : Byte, mapFind encodeDictionary [b] = some (Int.ofNat b.val) := by
  decide

set_option maxHeartbeats 4000000 in
/-- The decoder's starting dictionary maps every byte value to its one-byte string. -/
theorem mapFind_decodeDictionary_single :
    ∀ b : Byte, mapFind decodeDictionary (Int.ofNat b.val) = some [b] := by
  decide

end LZWCompression

namespace LZWCompression

/-- The keys of the encoder's starting dictionary are the one-byte strings. -/
theorem mem_encodeDictionary (entry : List Byte × Int) (h : entry ∈ encodeDictionary) :
    ∃ b : Byte, entry.1 = [b] := by
  unfold encodeDictionary at h
  rw [List.mem_map] at h
  obtain ⟨i, _, hentry⟩ := h
  exact ⟨Fin.ofNat i, by rw [← hentry]⟩

/-- The keys of the decoder's starting dictionary are below 256. -/
theorem mem_decodeDictionary (entry : Int × List Byte) (h : entry ∈ decodeDictionary) :
    entry.1 < 256 := by
  unfold decodeDictionary at h
  rw [List.mem_map] at h
  obtain ⟨i, hi, hentry⟩ := h
  rw [← hentry]
  have : i < 256 := List.mem_range.mp hi
  simp only [Int.ofNat_eq_coe]
  omega

/-- A string found in the encoder's starting dictionary is a one-byte string, found under its
byte value. -/
theorem mapFind_encodeDictionary_eq_some (key : List Byte) (code : Int)
    (h : mapFind encodeDictionary key = some code) :
    ∃ b : Byte, key = [b] ∧ code = Int.ofNat b.val := by
  by_cases hkey : ∃ b : Byte, key = [b]
  · obtain ⟨b, hb⟩ := hkey
    subst hb
    rw [mapFind_encodeDictionary_single b] at h
    exact ⟨b, rfl, by simpa using h.symm⟩
  · rw [mapFind_eq_none_of_forall encodeDictionary key] at h
    · simp at h
    · intro entry hentry heq
      obtain ⟨b, hb⟩ := mem_encodeDictionary entry hentry
      exact hkey ⟨b, by rw [← heq, hb]⟩

/-- No code from 256 on is in the decoder's starting dictionary. -/
theorem mapFind_decodeDictionary_of_le (code : Int) (h : 256 ≤ code) :
    mapFind decodeDictionary code = none := by
  apply mapFind_eq_none_of_forall
  intro entry hentry heq
  have := mem_decodeDictionary entry hentry
  omega

theorem phraseEntries_append (first : Int) (phrases : List (List Byte)) (phrase : List Byte) :
    phraseEntries first (phrases ++ [phrase]) =
      phraseEntries first phrases ++ [(phrase, first + phrases.length)] := by
  induction phrases generalizing first with
  | nil => simp [phraseEntries]
  | cons p rest ih =>
    have hplace : first + 1 + (rest.length : Int) = first + ((p :: rest).length : Int) := by
      rw [List.length_cons]
      push_cast
      omega
    rw [List.cons_append, phraseEntries, phraseEntries, ih, hplace]
    rfl

theorem codeEntries_append (first : Int) (phrases : List (List Byte)) (phrase : List Byte) :
    codeEntries first (phrases ++ [phrase]) =
      codeEntries first phrases ++ [(first + phrases.length, phrase)] := by
  induction phrases generalizing first with
  | nil => simp [codeEntries]
  | cons p rest ih =>
    have hplace : first + 1 + (rest.length : Int) = first + ((p :: rest).length : Int) := by
      rw [List.length_cons]
      push_cast
      omega
    rw [List.cons_append, codeEntries, codeEntries, ih, hplace]
    rfl

/-- A string found among the encoder's phrase entries is one of the phrases, found under the
code of its place. -/
theorem mapFind_phraseEntries_eq_some (first : Int) (phrases : List (List Byte))
    (key : List Byte) (code : Int) (h : mapFind (phraseEntries first phrases) key = some code) :
    ∃ j : Nat, phrases[j]? = some key ∧ code = first + j := by
  induction phrases generalizing first with
  | nil => simp [phraseEntries, mapFind] at h
  | cons p rest ih =>
    simp only [phraseEntries, mapFind] at h
    by_cases hp : p = key
    · simp only [hp, if_true, Option.some.injEq] at h
      exact ⟨0, by simp [hp], by simp [h]⟩
    · simp only [hp, if_false] at h
      obtain ⟨j, hj, hcode⟩ := ih (first + 1) h
      exact ⟨j + 1, by simpa using hj, by rw [hcode]; push_cast; omega⟩

/-- The decoder's phrase entries map the code of a place to the phrase at the place. -/
theorem mapFind_codeEntries (first : Int) (phrases : List (List Byte)) (j : Nat) :
    mapFind (codeEntries first phrases) (first + j) = phrases[j]? := by
  induction phrases generalizing first j with
  | nil => simp [codeEntries, mapFind]
  | cons p rest ih =>
    simp only [codeEntries, mapFind]
    cases j with
    | zero => simp
    | succ k =>
      have hne : first ≠ first + ((k + 1 : Nat) : Int) := by push_cast; omega
      simp only [hne, if_false, List.getElem?_cons_succ]
      have := ih (first + 1) k
      rw [← this]
      congr 1
      push_cast
      omega

/-- The dictionary of the encoder after the phrases `phrases`: what is found under a string
is the byte value of a one-byte string, or the code of a place of the string among the
phrases. -/
theorem mapFind_encoder (phrases : List (List Byte)) (key : List Byte) (code : Int)
    (h : mapFind (encodeDictionary ++ phraseEntries 256 phrases) key = some code) :
    (∃ b : Byte, key = [b] ∧ code = Int.ofNat b.val) ∨
      ∃ j : Nat, phrases[j]? = some key ∧ code = 256 + j := by
  rw [mapFind_append] at h
  cases hbase : mapFind encodeDictionary key with
  | some value =>
    simp only [hbase, Option.some.injEq] at h
    subst h
    exact Or.inl (mapFind_encodeDictionary_eq_some key value hbase)
  | none =>
    simp only [hbase] at h
    exact Or.inr (mapFind_phraseEntries_eq_some 256 phrases key code h)

/-- The dictionary of the decoder after the phrases `phrases`, at a byte value. -/
theorem mapFind_decoder_single (phrases : List (List Byte)) (b : Byte) :
    mapFind (decodeDictionary ++ codeEntries 256 phrases) (Int.ofNat b.val) = some [b] := by
  rw [mapFind_append, mapFind_decodeDictionary_single b]

/-- The dictionary of the decoder after the phrases `phrases`, at the code of a place. -/
theorem mapFind_decoder_phrase (phrases : List (List Byte)) (j : Nat) :
    mapFind (decodeDictionary ++ codeEntries 256 phrases) (256 + j) = phrases[j]? := by
  rw [mapFind_append, mapFind_decodeDictionary_of_le (256 + j) (by omega)]
  exact mapFind_codeEntries 256 phrases j

/-- The `for` loop of `lzwEncode` appends to the codes it has. -/
theorem encodeLoop_result (rest : List Byte) :
    ∀ (dictionary : List (List Byte × Int)) (dictSize : Int) (current : List Byte)
      (result : List Int),
      encodeLoop rest dictionary dictSize current result =
        result ++ encodeLoop rest dictionary dictSize current [] := by
  induction rest with
  | nil =>
    intro dictionary dictSize current result
    simp only [encodeLoop]
    by_cases hcurrent : current = []
    · simp [hcurrent]
    · simp [hcurrent]
  | cons c rest ih =>
    intro dictionary dictSize current result
    simp only [encodeLoop]
    by_cases hfound : (mapFind dictionary (current ++ [c])).isSome
    · simp only [hfound, if_true]
      exact ih _ _ _ _
    · simp only [hfound, Bool.false_eq_true, if_false]
      rw [ih _ _ _ (result ++ _), ih _ _ _ ([] ++ _)]
      simp

end LZWCompression

namespace LZWCompression

/-- A round of the decoder's loop on a code that is in its dictionary. -/
theorem decodeLoop_known (code : Int) (rest : List Int) (dictionary : List (Int × List Byte))
    (dictSize oldCode : Int) (result s old : List Byte)
    (hcode : mapFind dictionary code = some s) (hold : mapFind dictionary oldCode = some old) :
    decodeLoop (code :: rest) dictionary dictSize oldCode result =
      decodeLoop rest (mapSet dictionary dictSize (old ++ [s.headD 0])) (dictSize + 1) code
        (result ++ s) := by
  rw [decodeLoop]
  simp only [hcode, Option.isSome_some, if_true,
    mapIndex_of_mapFind_eq_some [] dictionary code s hcode,
    mapIndex_of_mapFind_eq_some [] dictionary oldCode old hold]

/-- A round of the decoder's loop on the code it is about to assign. -/
theorem decodeLoop_next (rest : List Int) (dictionary : List (Int × List Byte))
    (dictSize oldCode : Int) (result old : List Byte)
    (hcode : mapFind dictionary dictSize = none)
    (hold : mapFind dictionary oldCode = some old) :
    decodeLoop (dictSize :: rest) dictionary dictSize oldCode result =
      decodeLoop rest
        (mapSet dictionary dictSize (old ++ [(old ++ [old.headD 0]).headD 0])) (dictSize + 1)
        dictSize (result ++ (old ++ [old.headD 0])) := by
  rw [decodeLoop]
  simp only [hcode, Option.isSome_none, Bool.false_eq_true, if_false, if_true,
    mapIndex_of_mapFind_eq_some [] dictionary oldCode old hold]

/-- A round of the decoder's loop on the code the encoder emits for the string `w`, when the
encoder's last phrase is the decoder's last string followed by the first byte of `w`: the
decoder appends `w`, and its dictionary catches up with the encoder's. -/
theorem decodeLoop_step (phrases : List (List Byte)) (old w : List Byte) (code oldCode : Int)
    (rest : List Int) (result : List Byte) (hold : old ≠ []) (hw : w ≠ [])
    (holdCode : mapFind (decodeDictionary ++ codeEntries 256 phrases) oldCode = some old)
    (hcode :
      mapFind (encodeDictionary ++ phraseEntries 256 (phrases ++ [old ++ [w.headD 0]])) w =
        some code) :
    decodeLoop (code :: rest) (decodeDictionary ++ codeEntries 256 phrases)
        (256 + phrases.length) oldCode result =
      decodeLoop rest
        (decodeDictionary ++ codeEntries 256 (phrases ++ [old ++ [w.headD 0]]))
        (256 + (phrases ++ [old ++ [w.headD 0]]).length) code (result ++ w) ∧
      mapFind (decodeDictionary ++ codeEntries 256 (phrases ++ [old ++ [w.headD 0]])) code =
        some w := by
  have hnext : mapFind (decodeDictionary ++ codeEntries 256 phrases) (256 + phrases.length) =
      none := by
    rw [mapFind_decoder_phrase]
    simp
  have hset : ∀ s : List Byte, s.headD 0 = w.headD 0 →
      mapSet (decodeDictionary ++ codeEntries 256 phrases) (256 + phrases.length)
          (old ++ [s.headD 0]) =
        decodeDictionary ++ codeEntries 256 (phrases ++ [old ++ [w.headD 0]]) := by
    intro s hs
    rw [mapSet_of_mapFind_eq_none _ _ _ hnext, codeEntries_append, hs, List.append_assoc]
  have hsize : (256 : Int) + phrases.length + 1 =
      256 + ((phrases ++ [old ++ [w.headD 0]]).length : Int) := by
    rw [List.length_append, List.length_singleton]
    push_cast
    omega
  rcases mapFind_encoder _ w code hcode with ⟨b, hb, hcodeb⟩ | ⟨j, hj, hcodej⟩
  · subst hb hcodeb
    have hfound := mapFind_decoder_single phrases b
    constructor
    · rw [decodeLoop_known _ rest _ _ oldCode result [b] old hfound holdCode,
        hset [b] rfl, hsize]
    · exact mapFind_decoder_single _ b
  · subst hcodej
    have hlookup := mapFind_decoder_phrase (phrases ++ [old ++ [w.headD 0]]) j
    rw [hj] at hlookup
    refine ⟨?_, hlookup⟩
    by_cases hplace : j < phrases.length
    · have hfound : mapFind (decodeDictionary ++ codeEntries 256 phrases) (256 + j) = some w := by
        rw [mapFind_decoder_phrase, ← hj, List.getElem?_append_left hplace]
      rw [decodeLoop_known _ rest _ _ oldCode result w old hfound holdCode, hset w rfl, hsize]
    · have hlast : j = phrases.length := by
        have hlt : j < (phrases ++ [old ++ [w.headD 0]]).length := by
          by_contra hge
          rw [List.getElem?_eq_none (by omega)] at hj
          simp at hj
        rw [List.length_append, List.length_singleton] at hlt
        omega
      subst hlast
      rw [List.getElem?_append_right (le_refl _)] at hj
      simp only [Nat.sub_self, List.getElem?_cons_zero, Option.some.injEq] at hj
      have hhead : w.headD 0 = old.headD 0 := by
        obtain ⟨first, tail, hcons⟩ := List.exists_cons_of_ne_nil hold
        rw [← hj, hcons]
        rfl
      have hw' : old ++ [old.headD 0] = w := by rw [← hhead]; exact hj
      rw [decodeLoop_next rest _ _ oldCode result old hnext holdCode, hw',
        hset w rfl, hsize]

/-- The decoder's loop reads back what the encoder's loop emits, from the second code on: when
the encoder holds the pending string `w` and its last phrase is the decoder's last string
followed by the first byte of `w`, the decoder appends `w` and the rest of the input. -/
theorem decodeLoop_encodeLoop (rest : List Byte) :
    ∀ (phrases : List (List Byte)) (old w : List Byte) (code oldCode : Int)
      (result : List Byte), old ≠ [] → w ≠ [] →
      mapFind (decodeDictionary ++ codeEntries 256 phrases) oldCode = some old →
      mapFind (encodeDictionary ++ phraseEntries 256 (phrases ++ [old ++ [w.headD 0]])) w =
        some code →
      decodeLoop
          (encodeLoop rest
            (encodeDictionary ++ phraseEntries 256 (phrases ++ [old ++ [w.headD 0]]))
            (256 + (phrases ++ [old ++ [w.headD 0]]).length) w [])
          (decodeDictionary ++ codeEntries 256 phrases) (256 + phrases.length) oldCode result =
        result ++ w ++ rest := by
  induction rest with
  | nil =>
    intro phrases old w code oldCode result hold hw holdCode hcode
    have hemit :
        encodeLoop []
            (encodeDictionary ++ phraseEntries 256 (phrases ++ [old ++ [w.headD 0]]))
            (256 + (phrases ++ [old ++ [w.headD 0]]).length) w [] = [code] := by
      rw [encodeLoop, if_pos hw, mapIndex_of_mapFind_eq_some _ _ _ _ hcode]
      rfl
    rw [hemit, (decodeLoop_step phrases old w code oldCode [] result hold hw holdCode hcode).1]
    simp [decodeLoop]
  | cons c rest ih =>
    intro phrases old w code oldCode result hold hw holdCode hcode
    rw [encodeLoop]
    cases hnext :
        mapFind (encodeDictionary ++ phraseEntries 256 (phrases ++ [old ++ [w.headD 0]]))
          (w ++ [c]) with
    | some nextCode =>
      simp only [Option.isSome_some, if_true]
      have hhead : (w ++ [c]).headD 0 = w.headD 0 := by
        obtain ⟨first, tail, hcons⟩ := List.exists_cons_of_ne_nil hw
        rw [hcons]
        rfl
      have := ih phrases old (w ++ [c]) nextCode oldCode result hold (by simp) holdCode
        (by rw [hhead]; exact hnext)
      rw [hhead] at this
      rw [this]
      simp
    | none =>
      simp only [Option.isSome_none, Bool.false_eq_true, if_false,
        mapIndex_of_mapFind_eq_some _ _ _ _ hcode, List.nil_append]
      rw [encodeLoop_result, List.singleton_append]
      obtain ⟨hstep, hfound⟩ :=
        decodeLoop_step phrases old w code oldCode
          (encodeLoop rest
            (mapSet (encodeDictionary ++ phraseEntries 256 (phrases ++ [old ++ [w.headD 0]]))
              (w ++ [c]) (256 + (phrases ++ [old ++ [w.headD 0]]).length))
            (256 + (phrases ++ [old ++ [w.headD 0]]).length + 1) [c] [])
          result hold hw holdCode hcode
      rw [hstep, mapSet_of_mapFind_eq_none _ _ _ hnext, List.append_assoc encodeDictionary,
        ← phraseEntries_append]
      have hsize : (256 : Int) + ((phrases ++ [old ++ [w.headD 0]]).length : Int) + 1 =
          256 + (((phrases ++ [old ++ [w.headD 0]]) ++ [w ++ [([c] : List Byte).headD 0]]).length :
            Int) := by
        simp only [List.length_append, List.length_singleton]
        push_cast
        omega
      rw [hsize]
      have hsingle :
          mapFind
              (encodeDictionary ++
                phraseEntries 256
                  ((phrases ++ [old ++ [w.headD 0]]) ++ [w ++ [([c] : List Byte).headD 0]]))
              [c] = some (Int.ofNat c.val) := by
        rw [mapFind_append, mapFind_encodeDictionary_single c]
      have := ih (phrases ++ [old ++ [w.headD 0]]) w [c] (Int.ofNat c.val) code (result ++ w)
        hw (by simp) hfound hsingle
      exact this.trans (by simp)

end LZWCompression

namespace LZWCompression

/-- No string of two bytes or more is in the encoder's starting dictionary. -/
theorem mapFind_encodeDictionary_pair (first second : Byte) (rest : List Byte) :
    mapFind encodeDictionary (first :: second :: rest) = none := by
  apply mapFind_eq_none_of_forall
  intro entry hentry heq
  obtain ⟨b, hb⟩ := mem_encodeDictionary entry hentry
  rw [hb] at heq
  simp at heq

/-- The codes the encoder's loop emits are not negative and lie below the size its dictionary
can reach: 256, the phrases it has and the bytes it has still to read. -/
theorem encodeLoop_bound (rest : List Byte) :
    ∀ (phrases : List (List Byte)) (w : List Byte),
      (w = [] ∨ ∃ code, mapFind (encodeDictionary ++ phraseEntries 256 phrases) w = some code) →
      ∀ code ∈ encodeLoop rest (encodeDictionary ++ phraseEntries 256 phrases)
          (256 + phrases.length) w [],
        0 ≤ code ∧ code < 256 + phrases.length + rest.length := by
  have hcodeBound : ∀ (phrases : List (List Byte)) (w : List Byte) (code : Int),
      mapFind (encodeDictionary ++ phraseEntries 256 phrases) w = some code →
      0 ≤ code ∧ code < 256 + phrases.length := by
    intro phrases w code hcode
    rcases mapFind_encoder phrases w code hcode with ⟨b, _, hb⟩ | ⟨j, hj, hcodej⟩
    · have := b.isLt
      subst hb
      simp only [Int.ofNat_eq_coe]
      omega
    · have hlt : j < phrases.length := by
        by_contra hge
        rw [List.getElem?_eq_none (by omega)] at hj
        simp at hj
      omega
  induction rest with
  | nil =>
    intro phrases w hw code hmem
    rw [encodeLoop] at hmem
    rcases hw with hw | ⟨found, hfound⟩
    · simp [hw] at hmem
    · by_cases hempty : w = []
      · simp [hempty] at hmem
      · rw [if_pos hempty, mapIndex_of_mapFind_eq_some _ _ _ _ hfound] at hmem
        simp only [List.nil_append, List.mem_singleton] at hmem
        subst hmem
        have := hcodeBound phrases w code hfound
        simp only [List.length_nil, Nat.cast_zero, add_zero]
        exact this
  | cons c rest ih =>
    intro phrases w hw code hmem
    rw [encodeLoop] at hmem
    cases hnext : mapFind (encodeDictionary ++ phraseEntries 256 phrases) (w ++ [c]) with
    | some nextCode =>
      simp only [hnext, Option.isSome_some, if_true] at hmem
      have := ih phrases (w ++ [c]) (Or.inr ⟨nextCode, hnext⟩) code hmem
      rw [List.length_cons]
      push_cast
      omega
    | none =>
      have hfound : ∃ found, mapFind (encodeDictionary ++ phraseEntries 256 phrases) w =
          some found := by
        rcases hw with hw | hw
        · subst hw
          rw [List.nil_append, mapFind_append, mapFind_encodeDictionary_single c] at hnext
          simp at hnext
        · exact hw
      obtain ⟨found, hfound⟩ := hfound
      simp only [hnext, Option.isSome_none, Bool.false_eq_true, if_false,
        mapIndex_of_mapFind_eq_some _ _ _ _ hfound, List.nil_append] at hmem
      rw [encodeLoop_result, List.singleton_append, List.mem_cons] at hmem
      rcases hmem with hmem | hmem
      · subst hmem
        have := hcodeBound phrases w code hfound
        rw [List.length_cons]
        push_cast
        omega
      · rw [mapSet_of_mapFind_eq_none _ _ _ hnext, List.append_assoc encodeDictionary,
          ← phraseEntries_append] at hmem
        have hsize : (256 : Int) + (phrases.length : Int) + 1 =
            256 + ((phrases ++ [w ++ [c]]).length : Int) := by
          simp only [List.length_append, List.length_singleton]
          push_cast
          omega
        rw [hsize] at hmem
        have := ih (phrases ++ [w ++ [c]]) [c]
          (Or.inr ⟨Int.ofNat c.val, by rw [mapFind_append, mapFind_encodeDictionary_single c]⟩)
          code hmem
        have hlen : ((phrases ++ [w ++ [c]]).length : Int) = phrases.length + 1 := by
          simp only [List.length_append, List.length_singleton]
          push_cast
          rfl
        rw [hlen] at this
        rw [List.length_cons]
        push_cast
        omega

/-- The decoder reads back what the encoder emits. -/
theorem lzwDecode_lzwEncode_eq (input : List Byte) : lzwDecode (lzwEncode input) = input := by
  cases input with
  | nil => rfl
  | cons c rest =>
    have hfirst : mapFind encodeDictionary [c] = some (Int.ofNat c.val) :=
      mapFind_encodeDictionary_single c
    have hentry : mapIndex [] decodeDictionary (Int.ofNat c.val) = ([c], decodeDictionary) :=
      mapIndex_of_mapFind_eq_some _ _ _ _ (mapFind_decodeDictionary_single c)
    unfold lzwEncode
    rw [encodeLoop]
    simp only [List.nil_append, hfirst, Option.isSome_some, if_true]
    cases rest with
    | nil =>
      rw [encodeLoop, if_pos (show ([c] : List Byte) ≠ [] by simp),
        mapIndex_of_mapFind_eq_some _ _ _ _ (mapFind_encodeDictionary_single c)]
      simp only [List.nil_append, lzwDecode, hentry]
      rfl
    | cons c2 rest =>
      rw [encodeLoop]
      have hpair : mapFind encodeDictionary ([c] ++ [c2]) = none :=
        mapFind_encodeDictionary_pair c c2 []
      simp only [hpair, Option.isSome_none, Bool.false_eq_true, if_false,
        mapIndex_of_mapFind_eq_some _ _ _ _ (mapFind_encodeDictionary_single c),
        List.nil_append]
      rw [encodeLoop_result, List.singleton_append, mapSet_of_mapFind_eq_none _ _ _ hpair]
      simp only [lzwDecode, hentry]
      have hmain := decodeLoop_encodeLoop rest [] [c] [c2] (Int.ofNat c2.val)
        (Int.ofNat c.val) [c] (by simp) (by simp)
        (by
          rw [mapFind_append, mapFind_decodeDictionary_single c])
        (by
          rw [mapFind_append, mapFind_encodeDictionary_single c2])
      simp only [List.nil_append, codeEntries, List.append_nil, List.length_nil,
        Nat.cast_zero, add_zero, List.length_singleton, Nat.cast_one, phraseEntries,
        List.headD_cons] at hmain
      simpa using hmain

end LZWCompression

/-! ## Theorems: the LZW coder -/

/-- C28: for every byte string, `lzwDecode(lzwEncode(s))` is `s`; the codes `lzwEncode` emits
are not negative and lie below 256 plus the length of `s`, inside the range of `int` for every
input shorter than 2^31 - 256 bytes; and for "aaa" the encoder emits 97 and 256, the second
being the code the decoder is about to assign, which the decoder reads back as "aaa".  The
decoder's branch for an invalid code returns the empty string for the whole call, so it is
not taken on the codes of a non-empty `s`, and the empty `s` has no codes. -/
theorem lzw_decode_encode (input : List Byte) :
    LZWCompression.lzwDecode (LZWCompression.lzwEncode input) = input ∧
      (∀ code ∈ LZWCompression.lzwEncode input, 0 ≤ code ∧ code < 256 + input.length) ∧
      LZWCompression.lzwEncode (str "aaa") = [97, 256] ∧
      LZWCompression.lzwDecode [97, 256] = str "aaa" := by
  refine ⟨LZWCompression.lzwDecode_lzwEncode_eq input, ?_, by decide, by decide⟩
  have hbound := LZWCompression.encodeLoop_bound input [] [] (Or.inl rfl)
  simp only [LZWCompression.phraseEntries, List.append_nil, List.length_nil, Nat.cast_zero,
    add_zero] at hbound
  exact hbound

/-! ## Lemmas: the Huffman tree -/

namespace HuffmanNode

theorem isNull_eq_false_of_proper (t : HuffmanNode) (h : t.Proper) : t.isNull = false := by
  cases t with
  | null => exact absurd h (by simp [Proper])
  | node ch f l r => rfl

/-- The leaf test, by the children. -/
theorem isLeaf_node (ch : Byte) (f : Nat) (l r : HuffmanNode) :
    (node ch f l r).isLeaf = (l.isNull && r.isNull) := rfl

theorem isNull_eq_true_iff (t : HuffmanNode) : t.isNull = true ↔ t = null := by
  cases t <;> simp [isNull]

end HuffmanNode

namespace HuffmanCompression

open HuffmanNode

/-- The least entry of a queue splits it into the entries before it, all at greater
addresses, and the entries after it. -/
theorem pqMin_split (rest : PriorityQueue) :
    ∀ best : Nat × HuffmanNode, ∃ front back,
      best :: rest = front ++ pqMin best rest :: back ∧
        ∀ x ∈ front, (pqMin best rest).1 < x.1 := by
  induction rest with
  | nil =>
    intro best
    exact ⟨[], [], rfl, fun x hx => by simp at hx⟩
  | cons e rest ih =>
    intro best
    rw [pqMin]
    by_cases hlt : e.1 < best.1
    · rw [if_pos hlt]
      obtain ⟨front, back, hsplit, hfront⟩ := ih e
      refine ⟨best :: front, back, by rw [hsplit]; rfl, ?_⟩
      intro x hx
      rcases List.mem_cons.mp hx with h | h
      · subst h
        have hle : (pqMin e rest).1 ≤ e.1 := by
          cases front with
          | nil =>
            simp only [List.nil_append, List.cons.injEq] at hsplit
            rw [← hsplit.1]
          | cons y ys =>
            simp only [List.cons_append, List.cons.injEq] at hsplit
            have := hfront y (List.mem_cons_self _ _)
            rw [← hsplit.1] at this
            omega
        omega
      · exact hfront x h
    · rw [if_neg hlt]
      obtain ⟨front, back, hsplit, hfront⟩ := ih best
      cases front with
      | nil =>
        simp only [List.nil_append, List.cons.injEq] at hsplit
        refine ⟨[], e :: rest, ?_, fun x hx => by simp at hx⟩
        rw [← hsplit.1]
        rfl
      | cons y ys =>
        simp only [List.cons_append, List.cons.injEq] at hsplit
        refine ⟨best :: e :: ys, back, ?_, ?_⟩
        · exact congrArg (fun t => best :: e :: t) hsplit.2
        · intro x hx
          have hy := hfront y (List.mem_cons_self _ _)
          rw [← hsplit.1] at hy
          rcases List.mem_cons.mp hx with h | h
          · subst h; exact hy
          · rcases List.mem_cons.mp h with h | h
            · subst h; omega
            · exact hfront x (List.mem_cons_of_mem _ (by rw [← hsplit.1] at *; exact h))

/-- Erasing the address of an entry takes the entry out, when no entry before it has the
address. -/
theorem pqErase_split (front back : PriorityQueue) (entry : Nat × HuffmanNode)
    (hfront : ∀ x ∈ front, x.1 ≠ entry.1) :
    pqErase entry.1 (front ++ entry :: back) = front ++ back := by
  induction front with
  | nil => simp [pqErase]
  | cons y ys ih =>
    have hy : y.1 ≠ entry.1 := hfront y (List.mem_cons_self _ _)
    rw [List.cons_append, pqErase, if_neg hy, ih fun x hx => hfront x (List.mem_cons_of_mem _ hx)]
    rfl

/-- The calls `top` and `pop` on a queue that is not empty take one entry out of it. -/
theorem pqTop_pqPop (pq : PriorityQueue) (hpq : pq ≠ []) :
    ∃ (address : Nat) (front back : PriorityQueue),
      pq = front ++ (address, pqTop pq) :: back ∧ pqPop pq = front ++ back := by
  cases pq with
  | nil => exact absurd rfl hpq
  | cons e rest =>
    obtain ⟨front, back, hsplit, hfront⟩ := pqMin_split rest e
    refine ⟨(pqMin e rest).1, front, back, hsplit, ?_⟩
    show pqErase (pqMin e rest).1 (e :: rest) = front ++ back
    rw [hsplit]
    exact pqErase_split front back (pqMin e rest) fun x hx => by
      have := hfront x hx
      omega

end HuffmanCompression

namespace HuffmanCompression

open HuffmanNode

theorem mem_pqLeaves (pq : PriorityQueue) (ch : Byte) :
    ch ∈ pqLeaves pq ↔ ∃ entry ∈ pq, ch ∈ entry.2.leaves := by
  unfold pqLeaves
  exact List.mem_flatMap

/-- The leaves of a node with a left child that is not null. -/
theorem leaves_node_of_proper (ch : Byte) (f : Nat) (l r : HuffmanNode) (hl : l.Proper) :
    (node ch f l r).leaves = l.leaves ++ r.leaves := by
  rw [leaves, isNull_eq_false_of_proper l hl]
  rfl

/-- One round of the merge loop: the two trees taken out of the queue are in it, and the rest
of the queue is what stays. -/
theorem merge_round (pq : PriorityQueue) (hlen : 1 < pq.length) :
    ∃ (a b : Nat) (rest : PriorityQueue),
      (a, pqTop pq) ∈ pq ∧ (b, pqTop (pqPop pq)) ∈ pq ∧ pqPop (pqPop pq) = rest ∧
        rest.length + 2 = pq.length ∧
        (∀ entry ∈ rest, entry ∈ pq) ∧
        ∀ entry ∈ pq, entry = (a, pqTop pq) ∨ entry = (b, pqTop (pqPop pq)) ∨ entry ∈ rest := by
  have hpq : pq ≠ [] := by
    intro h
    rw [h] at hlen
    simp at hlen
  obtain ⟨a, front, back, hsplit, hpop⟩ := pqTop_pqPop pq hpq
  have hlen1 : (pqPop pq).length + 1 = pq.length := by
    rw [hpop]
    conv => rhs; rw [hsplit]
    simp only [List.length_append, List.length_cons]
    omega
  have hpq1 : pqPop pq ≠ [] := by
    intro h
    rw [h] at hlen1
    simp at hlen1
    omega
  obtain ⟨b, front1, back1, hsplit1, hpop1⟩ := pqTop_pqPop (pqPop pq) hpq1
  have hmem1 : ∀ entry, entry ∈ pq ↔ entry = (a, pqTop pq) ∨ entry ∈ pqPop pq := by
    intro entry
    rw [hpop]
    conv => lhs; rw [hsplit]
    simp only [List.mem_append, List.mem_cons]
    tauto
  have hmem2 : ∀ entry, entry ∈ pqPop pq ↔
      entry = (b, pqTop (pqPop pq)) ∨ entry ∈ pqPop (pqPop pq) := by
    intro entry
    rw [hpop1]
    conv => lhs; rw [hsplit1]
    simp only [List.mem_append, List.mem_cons]
    tauto
  refine ⟨a, b, pqPop (pqPop pq), ?_, ?_, rfl, ?_, ?_, ?_⟩
  · exact (hmem1 _).mpr (Or.inl rfl)
  · exact (hmem1 _).mpr (Or.inr ((hmem2 _).mpr (Or.inl rfl)))
  · have hlen2 : (pqPop (pqPop pq)).length + 1 = (pqPop pq).length := by
      rw [hpop1]
      conv => rhs; rw [hsplit1]
      simp only [List.length_append, List.length_cons]
      omega
    omega
  · intro entry hentry
    exact (hmem1 _).mpr (Or.inr ((hmem2 _).mpr (Or.inr hentry)))
  · intro entry hentry
    rcases (hmem1 _).mp hentry with h | h
    · exact Or.inl h
    · exact Or.inr ((hmem2 _).mp h)

/-- The merge loop leaves one proper tree in the queue, and every leaf of the queue is a leaf
of it. -/
theorem mergeLoop_spec (addr : Nat → Nat) :
    ∀ (fuel next : Nat) (pq : PriorityQueue), pq ≠ [] → pq.length ≤ fuel + 1 →
      (∀ entry ∈ pq, entry.2.Proper) →
      ∃ a tree, mergeLoop addr fuel next pq = [(a, tree)] ∧ tree.Proper ∧
        ∀ ch ∈ pqLeaves pq, ch ∈ tree.leaves := by
  have hsingle : ∀ pq : PriorityQueue, pq ≠ [] → pq.length ≤ 1 →
      (∀ entry ∈ pq, entry.2.Proper) →
      ∃ a tree, pq = [(a, tree)] ∧ tree.Proper ∧ ∀ ch ∈ pqLeaves pq, ch ∈ tree.leaves := by
    intro pq hpq hlen hproper
    match pq, hpq, hlen, hproper with
    | [(a, tree)], _, _, hproper =>
      refine ⟨a, tree, rfl, hproper _ (List.mem_singleton.mpr rfl), ?_⟩
      intro ch hch
      simpa [pqLeaves] using hch
    | _ :: _ :: _, _, hlen, _ => simp at hlen
  intro fuel
  induction fuel with
  | zero =>
    intro next pq hpq hlen hproper
    rw [mergeLoop]
    exact hsingle pq hpq (by omega) hproper
  | succ fuel ih =>
    intro next pq hpq hlen hproper
    rw [mergeLoop]
    by_cases hlong : 1 < pq.length
    · rw [if_pos hlong]
      obtain ⟨a, b, rest, hleft, hright, hrest, hlength, hsub, hcover⟩ := merge_round pq hlong
      have hl : (pqTop pq).Proper := hproper _ hleft
      have hr : (pqTop (pqPop pq)).Proper := hproper _ hright
      simp only [hrest]
      obtain ⟨a1, tree, hrun, htree, hleaves⟩ :=
        ih (next + 1)
          ((addr next, node 0 ((pqTop pq).freq + (pqTop (pqPop pq)).freq) (pqTop pq)
            (pqTop (pqPop pq))) :: rest)
          (by simp) (by simp only [List.length_cons]; omega)
          (by
            intro entry hentry
            rcases List.mem_cons.mp hentry with h | h
            · rw [h]
              exact Or.inr ⟨hl, hr⟩
            · exact hproper _ (hsub _ h))
      refine ⟨a1, tree, hrun, htree, ?_⟩
      intro ch hch
      apply hleaves
      obtain ⟨entry, hentry, hin⟩ := (mem_pqLeaves _ _).mp hch
      rw [mem_pqLeaves]
      rcases hcover entry hentry with h | h | h
      · refine ⟨_, List.mem_cons_self _ _, ?_⟩
        rw [leaves_node_of_proper _ _ _ _ hl]
        rw [h] at hin
        exact List.mem_append_left _ hin
      · refine ⟨_, List.mem_cons_self _ _, ?_⟩
        rw [leaves_node_of_proper _ _ _ _ hl]
        rw [h] at hin
        exact List.mem_append_right _ hin
      · exact ⟨entry, List.mem_cons_of_mem _ h, hin⟩
    · rw [if_neg hlong]
      exact hsingle pq hpq (by omega) hproper

/-- The keys of a frequency table after one more character. -/
theorem mem_bump (table : List (Byte × Nat)) (c ch : Byte) :
    ch ∈ (bump table c).map Prod.fst ↔ ch = c ∨ ch ∈ table.map Prod.fst := by
  induction table with
  | nil => simp [bump]
  | cons e rest ih =>
    obtain ⟨k, n⟩ := e
    rw [bump]
    by_cases hk : k = c
    · rw [if_pos hk]
      simp only [List.map_cons, List.mem_cons]
      constructor
      · intro h; exact Or.inr h
      · rintro (h | h)
        · exact Or.inl (h.trans hk.symm)
        · exact h
    · rw [if_neg hk]
      simp only [List.map_cons, List.mem_cons] at ih ⊢
      rw [ih]
      tauto

theorem mem_foldl_bump (input : List Byte) :
    ∀ (table : List (Byte × Nat)) (ch : Byte),
      ch ∈ (input.foldl bump table).map Prod.fst ↔ ch ∈ input ∨ ch ∈ table.map Prod.fst := by
  induction input with
  | nil => intro table ch; simp
  | cons c rest ih =>
    intro table ch
    rw [List.foldl_cons, ih, mem_bump]
    simp only [List.mem_cons]
    tauto

/-- The frequency table has a key for every character of the input. -/
theorem mem_freqMap (input : List Byte) (ch : Byte) :
    ch ∈ (freqMap input).map Prod.fst ↔ ch ∈ input := by
  unfold freqMap
  rw [mem_foldl_bump]
  simp

/-- The leaves pushed into the queue are proper trees, one for every key of the table. -/
theorem leafQueue_spec (addr : Nat → Nat) (table : List (Byte × Nat)) :
    (leafQueue addr table).length = table.length ∧
      (∀ entry ∈ leafQueue addr table, entry.2.Proper) ∧
      ∀ ch ∈ table.map Prod.fst, ch ∈ pqLeaves (leafQueue addr table) := by
  refine ⟨by simp [leafQueue], ?_, ?_⟩
  · intro entry hentry
    simp only [leafQueue, List.mem_map] at hentry
    obtain ⟨e, _, he⟩ := hentry
    rw [← he]
    exact Or.inl ⟨rfl, rfl⟩
  · intro ch hch
    obtain ⟨e, he, hfst⟩ := List.mem_map.mp hch
    obtain ⟨i, hlt, hi⟩ := List.getElem_of_mem he
    rw [mem_pqLeaves]
    refine ⟨(addr i, node e.1 e.2 null null), ?_, ?_⟩
    · simp only [leafQueue, List.mem_map]
      refine ⟨(i, e), ?_, rfl⟩
      rw [List.mem_iff_getElem?]
      exact ⟨i, by
        rw [List.enum_eq_zip_range]
        simp [List.getElem?_zip_eq_some, hi, List.getElem?_range, hlt]⟩
    · rw [← hfst]
      simp [leaves, isNull]

/-- The tree `buildHuffmanTree` returns for an input that is not empty: a proper tree with a
leaf for every character of the input, wherever the nodes are allocated. -/
theorem buildHuffmanTree_spec (addr : Nat → Nat) (input : List Byte) (hinput : input ≠ []) :
    (buildHuffmanTree addr input).Proper ∧
      ∀ ch ∈ input, ch ∈ (buildHuffmanTree addr input).leaves := by
  obtain ⟨hlen, hproper, hkeys⟩ := leafQueue_spec addr (freqMap input)
  have hne : leafQueue addr (freqMap input) ≠ [] := by
    intro h
    cases input with
    | nil => exact hinput rfl
    | cons c rest =>
      have hc := hkeys c ((mem_freqMap _ _).mpr (List.mem_cons_self _ _))
      rw [h] at hc
      simp [pqLeaves] at hc
  obtain ⟨a, tree, hrun, htree, hleaves⟩ :=
    mergeLoop_spec addr (leafQueue addr (freqMap input)).length
      (leafQueue addr (freqMap input)).length (leafQueue addr (freqMap input)) hne (by omega)
      hproper
  have hbuild : buildHuffmanTree addr input = tree := by
    unfold buildHuffmanTree
    rw [if_neg hinput]
    simp only [hrun]
    rfl
  rw [hbuild]
  exact ⟨htree, fun ch hch => hleaves ch (hkeys ch ((mem_freqMap _ _).mpr hch))⟩

end HuffmanCompression

/-! ## Lemmas: the Huffman codes -/

theorem mapFind_mapSet {κ ν : Type} [DecidableEq κ] (table : List (κ × ν)) (key other : κ)
    (value : ν) :
    mapFind (mapSet table key value) other =
      if key = other then some value else mapFind table other := by
  induction table with
  | nil => simp [mapSet, mapFind]
  | cons e rest ih =>
    obtain ⟨k, v⟩ := e
    rw [mapSet]
    by_cases hk : k = key
    · rw [if_pos hk, mapFind, mapFind]
      by_cases hother : key = other
      · rw [if_pos hother, if_pos hother]
      · rw [if_neg hother, if_neg hother, if_neg (by rw [hk]; exact hother)]
    · rw [if_neg hk, mapFind, mapFind, ih]
      by_cases hko : k = other
      · rw [if_pos hko, if_neg (by rw [← hko]; exact fun h => hk h.symm), if_pos hko]
      · rw [if_neg hko, if_neg hko]

namespace HuffmanNode

theorem isNull_strip (t : HuffmanNode) : t.strip.isNull = t.isNull := by
  cases t with
  | null => rfl
  | node ch f l r =>
    rw [strip]
    split <;> rfl

/-- The codes of a tree do not depend on the frequencies and on the characters of the inner
nodes. -/
theorem codeOf_strip (t : HuffmanNode) (ch : Byte) : t.strip.codeOf ch = t.codeOf ch := by
  induction t with
  | null => rfl
  | node c f l r ihl ihr =>
    rw [strip]
    by_cases hleaf : (l.isNull && r.isNull) = true
    · rw [if_pos hleaf]
      conv => rhs; rw [codeOf, if_pos hleaf]
      rfl
    · rw [if_neg hleaf, codeOf, codeOf, if_neg hleaf, isNull_strip, isNull_strip, if_neg hleaf,
        ihl, ihr]

theorem isLeaf_strip (t : HuffmanNode) : t.strip.isLeaf = t.isLeaf := by
  cases t with
  | null => rfl
  | node c f l r =>
    rw [strip]
    by_cases hleaf : (l.isNull && r.isNull) = true
    · rw [if_pos hleaf, isLeaf_node, isLeaf_node, hleaf]
      rfl
    · rw [if_neg hleaf, isLeaf_node, isLeaf_node, isNull_strip, isNull_strip]

/-- Every leaf of a tree has a code. -/
theorem codeOf_isSome_of_mem_leaves (t : HuffmanNode) (ch : Byte) (h : ch ∈ t.leaves) :
    (t.codeOf ch).isSome = true := by
  induction t with
  | null => simp [leaves] at h
  | node c f l r ihl ihr =>
    rw [leaves] at h
    rw [codeOf]
    by_cases hleaf : (l.isNull && r.isNull) = true
    · rw [if_pos hleaf] at h ⊢
      rw [if_pos (List.mem_singleton.mp h).symm]
      rfl
    · rw [if_neg hleaf] at h ⊢
      cases hr : r.codeOf ch with
      | some code => rfl
      | none =>
        rcases List.mem_append.mp h with hl | hrr
        · have := ihl hl
          cases hlc : l.codeOf ch with
          | some code => rfl
          | none => rw [hlc] at this; exact absurd this (by simp)
        · have := ihr hrr
          rw [hr] at this
          exact absurd this (by simp)

end HuffmanNode

namespace HuffmanCompression

open HuffmanNode

/-- The code table `generateCodes` fills: the code of a character is the prefix followed by
the way to its leaf, and the entries of the other characters stay. -/
theorem mapFind_generateCodes (tree : HuffmanNode) :
    ∀ (code : List Bool) (codes : List (Byte × List Bool)) (ch : Byte),
      (code ≠ [] ∨ tree.isLeaf = false) →
      mapFind (generateCodes tree code codes) ch =
        match tree.codeOf ch with
        | some way => some (code ++ way)
        | none => mapFind codes ch := by
  induction tree with
  | null =>
    intro code codes ch _
    rfl
  | node c f l r ihl ihr =>
    intro code codes ch hcode
    rw [generateCodes, codeOf]
    by_cases hleaf : (l.isNull && r.isNull) = true
    · have hl : l = null := (isNull_eq_true_iff l).mp (by simp at hleaf; exact hleaf.1)
      have hr : r = null := (isNull_eq_true_iff r).mp (by simp at hleaf; exact hleaf.2)
      have hne : code ≠ [] := by
        rcases hcode with h | h
        · exact h
        · rw [isLeaf_node, hleaf] at h
          exact absurd h (by simp)
      subst hl hr
      simp only [isLeaf_node, isNull, Bool.and_self, if_true, generateCodes, if_neg hne]
      rw [mapFind_mapSet]
      by_cases hc : c = ch
      · rw [if_pos hc, if_pos hc]
        simp
      · rw [if_neg hc, if_neg hc]
    · rw [if_neg hleaf]
      simp only [isLeaf_node, hleaf, if_false]
      rw [ihr _ _ _ (Or.inl (by simp))]
      cases hr : r.codeOf ch with
      | some way => simp
      | none =>
        simp only
        rw [ihl _ _ _ (Or.inl (by simp))]
        cases hl : l.codeOf ch with
        | some way => simp
        | none => rfl

/-- The code table of a tree that is not a single leaf holds the ways to the leaves. -/
theorem mapFind_generateCodes_root (tree : HuffmanNode) (hleaf : tree.isLeaf = false)
    (ch : Byte) : mapFind (generateCodes tree [] []) ch = tree.codeOf ch := by
  rw [mapFind_generateCodes tree [] [] ch (Or.inr hleaf)]
  cases tree.codeOf ch with
  | some way => rfl
  | none => rfl

/-- Decoding the way to a leaf appends the character of the leaf and goes back to the
root. -/
theorem decodeLoop_code (root : HuffmanNode) (tree : HuffmanNode) :
    ∀ (way bits : List Bool) (ch : Byte) (result : List Byte),
      tree.codeOf ch = some way → tree.isLeaf = false →
      decodeLoop root (way ++ bits) tree result = decodeLoop root bits root (result ++ [ch]) := by
  induction tree with
  | null =>
    intro way bits ch result hway
    simp [codeOf] at hway
  | node c f l r ihl ihr =>
    intro way bits ch result hway hleaf
    rw [isLeaf_node] at hleaf
    rw [codeOf, if_neg (by rw [hleaf]; simp)] at hway
    have hstep : ∀ (bit : Bool) (next : HuffmanNode) (rest : List Bool),
        next = (if bit then r else l) → next.codeOf ch = some rest →
        (next.isLeaf = false →
          decodeLoop root (rest ++ bits) next result =
            decodeLoop root bits root (result ++ [ch])) →
        decodeLoop root ((bit :: rest) ++ bits) (node c f l r) result =
          decodeLoop root bits root (result ++ [ch]) := by
      intro bit next rest hnext hrest hrec
      have hnull : next.isNull = false := by
        cases next with
        | null => simp [codeOf] at hrest
        | node _ _ _ _ => rfl
      have hnext1 : (if bit = true then (node c f l r).right else (node c f l r).left) = next := by
        rw [hnext]
        cases bit <;> rfl
      rw [List.cons_append, decodeLoop]
      simp only [hnext1, hnull]
      by_cases hnl : next.isLeaf = true
      · simp only [hnl, if_true]
        cases next with
        | null => simp [codeOf] at hrest
        | node c1 f1 l1 r1 =>
          rw [isLeaf_node] at hnl
          rw [codeOf, if_pos hnl] at hrest
          by_cases hc : c1 = ch
          · rw [if_pos hc] at hrest
            simp only [Option.some.injEq] at hrest
            rw [← hrest, ← hc]
            rfl
          · rw [if_neg hc] at hrest
            simp at hrest
      · simp only [hnl]
        exact hrec (by simpa using hnl)
    cases hr : r.codeOf ch with
    | some rest =>
      rw [hr] at hway
      simp only [Option.some.injEq] at hway
      rw [← hway]
      exact hstep true r rest rfl hr (ihr rest bits ch result hr)
    | none =>
      rw [hr] at hway
      cases hl : l.codeOf ch with
      | some rest =>
        rw [hl] at hway
        simp only [Option.map_some', Option.some.injEq] at hway
        rw [← hway]
        exact hstep false l rest rfl hl (ihl rest bits ch result hl)
      | none =>
        rw [hl] at hway
        simp at hway

/-- Decoding the codes of a string of leaves gives the string back. -/
theorem decodeLoop_codes (root : HuffmanNode) (hleaf : root.isLeaf = false) :
    ∀ (input result : List Byte), (∀ ch ∈ input, ch ∈ root.leaves) →
      decodeLoop root (input.flatMap fun ch => (root.codeOf ch).getD []) root result =
        some (result ++ input) := by
  intro input
  induction input with
  | nil =>
    intro result _
    simp [decodeLoop]
  | cons c rest ih =>
    intro result hmem
    have hsome := codeOf_isSome_of_mem_leaves root c (hmem c (List.mem_cons_self _ _))
    obtain ⟨way, hway⟩ := Option.isSome_iff_exists.mp hsome
    rw [List.flatMap_cons, hway, Option.getD_some, decodeLoop_code root root way _ c result hway hleaf,
      ih (result ++ [c]) fun ch hch => hmem ch (List.mem_cons_of_mem _ hch)]
    simp

/-- The serialized form of a proper tree is read back as the tree without its frequencies. -/
theorem deserialize_serialize (tree : HuffmanNode) :
    ∀ (fuel : Nat) (rest : List Byte), tree.Proper →
      (serializeHuffmanTree tree).length ≤ fuel →
      deserializeHuffmanTree fuel (serializeHuffmanTree tree ++ rest) = (tree.strip, rest) := by
  induction tree with
  | null =>
    intro fuel rest hproper
    exact absurd hproper (by simp [Proper])
  | node c f l r ihl ihr =>
    intro fuel rest hproper hfuel
    rw [serializeHuffmanTree, isLeaf_node] at hfuel
    rw [serializeHuffmanTree, isLeaf_node, strip]
    by_cases hleaf : (l.isNull && r.isNull) = true
    · rw [if_pos hleaf] at hfuel ⊢
      rw [if_pos hleaf]
      cases fuel with
      | zero => simp at hfuel
      | succ fuel => simp [deserializeHuffmanTree]
    · rw [if_neg hleaf] at hfuel ⊢
      rw [if_neg hleaf]
      have hboth : l.Proper ∧ r.Proper := by
        rcases hproper with h | h
        · rw [h.1, h.2] at hleaf
          exact absurd rfl hleaf
        · exact h
      simp only [List.length_cons, List.length_append] at hfuel
      cases fuel with
      | zero => omega
      | succ fuel =>
        have htag : ¬ (48 : Byte) = 49 := by decide
        simp only [List.cons_append, deserializeHuffmanTree, if_neg htag]
        have happend : (serializeHuffmanTree l ++ serializeHuffmanTree r).append rest =
            serializeHuffmanTree l ++ (serializeHuffmanTree r ++ rest) :=
          List.append_assoc _ _ _
        rw [happend, ihl fuel _ hboth.1 (by omega)]
        simp only
        rw [ihr fuel _ hboth.2 (by omega)]

end HuffmanCompression

/-! ## Lemmas: the packed bits and the header -/

namespace HuffmanCompression

open HuffmanNode

/-- A byte made of eight characters gives the eight characters back. -/
theorem byteToBits_bitsToByte_eight :
    ∀ b0 b1 b2 b3 b4 b5 b6 b7 : Bool,
      byteToBits (bitsToByte [b0, b1, b2, b3, b4, b5, b6, b7]) =
        [b0, b1, b2, b3, b4, b5, b6, b7] := by
  decide

/-- A byte made of fewer than eight characters gives them back followed by '0's. -/
theorem byteToBits_bitsToByte_short :
    (∀ b0 : Bool, byteToBits (bitsToByte [b0]) = [b0] ++ List.replicate 7 false) ∧
    (∀ b0 b1 : Bool, byteToBits (bitsToByte [b0, b1]) = [b0, b1] ++ List.replicate 6 false) ∧
    (∀ b0 b1 b2 : Bool,
      byteToBits (bitsToByte [b0, b1, b2]) = [b0, b1, b2] ++ List.replicate 5 false) ∧
    (∀ b0 b1 b2 b3 : Bool,
      byteToBits (bitsToByte [b0, b1, b2, b3]) = [b0, b1, b2, b3] ++ List.replicate 4 false) ∧
    (∀ b0 b1 b2 b3 b4 : Bool,
      byteToBits (bitsToByte [b0, b1, b2, b3, b4]) =
        [b0, b1, b2, b3, b4] ++ List.replicate 3 false) ∧
    (∀ b0 b1 b2 b3 b4 b5 : Bool,
      byteToBits (bitsToByte [b0, b1, b2, b3, b4, b5]) =
        [b0, b1, b2, b3, b4, b5] ++ List.replicate 2 false) ∧
    (∀ b0 b1 b2 b3 b4 b5 b6 : Bool,
      byteToBits (bitsToByte [b0, b1, b2, b3, b4, b5, b6]) =
        [b0, b1, b2, b3, b4, b5, b6] ++ List.replicate 1 false) := by
  refine ⟨by decide, by decide, by decide, by decide, by decide, by decide, by decide⟩

/-- The bits of the packed bytes are the encoded string followed by the padding, and there
is one byte for every eight characters. -/
theorem unpack_packBits (count : Nat) :
    ∀ bits : List Bool, bits.length = count →
      (packBits bits).flatMap byteToBits = bits ++ List.replicate (paddingOf count) false ∧
        (packBits bits).length = (count + 7) / 8 := by
  induction count using Nat.strong_induction_on with
  | _ count ih =>
    intro bits hlen
    match bits, hlen with
    | [], hlen =>
      simp only [List.length_nil] at hlen
      subst hlen
      exact ⟨rfl, rfl⟩
    | [b0], hlen =>
      simp only [List.length_cons, List.length_nil] at hlen
      subst hlen
      exact ⟨by simpa [packBits] using byteToBits_bitsToByte_short.1 b0, rfl⟩
    | [b0, b1], hlen =>
      simp only [List.length_cons, List.length_nil] at hlen
      subst hlen
      exact ⟨by simpa [packBits] using byteToBits_bitsToByte_short.2.1 b0 b1, rfl⟩
    | [b0, b1, b2], hlen =>
      simp only [List.length_cons, List.length_nil] at hlen
      subst hlen
      exact ⟨by simpa [packBits] using byteToBits_bitsToByte_short.2.2.1 b0 b1 b2, rfl⟩
    | [b0, b1, b2, b3], hlen =>
      simp only [List.length_cons, List.length_nil] at hlen
      subst hlen
      exact ⟨by simpa [packBits] using byteToBits_bitsToByte_short.2.2.2.1 b0 b1 b2 b3, rfl⟩
    | [b0, b1, b2, b3, b4], hlen =>
      simp only [List.length_cons, List.length_nil] at hlen
      subst hlen
      exact ⟨by simpa [packBits] using byteToBits_bitsToByte_short.2.2.2.2.1 b0 b1 b2 b3 b4, rfl⟩
    | [b0, b1, b2, b3, b4, b5], hlen =>
      simp only [List.length_cons, List.length_nil] at hlen
      subst hlen
      exact ⟨by simpa [packBits] using byteToBits_bitsToByte_short.2.2.2.2.2.1 b0 b1 b2 b3 b4 b5,
        rfl⟩
    | [b0, b1, b2, b3, b4, b5, b6], hlen =>
      simp only [List.length_cons, List.length_nil] at hlen
      subst hlen
      exact ⟨by
        simpa [packBits] using byteToBits_bitsToByte_short.2.2.2.2.2.2 b0 b1 b2 b3 b4 b5 b6, rfl⟩
    | b0 :: b1 :: b2 :: b3 :: b4 :: b5 :: b6 :: b7 :: rest, hlen =>
      simp only [List.length_cons] at hlen
      obtain ⟨hbits, hbytes⟩ := ih rest.length (by omega) rest rfl
      have hpad : paddingOf count = paddingOf rest.length := by
        unfold paddingOf
        rw [← hlen]
        have : (rest.length + 1 + 1 + 1 + 1 + 1 + 1 + 1 + 1) % 8 = rest.length % 8 := by omega
        rw [this]
      rw [packBits, List.flatMap_cons, byteToBits_bitsToByte_eight, hbits, hpad, List.length_cons,
        hbytes]
      refine ⟨rfl, ?_⟩
      omega

/-- Little-endian bytes are read back as the value they were made of. -/
theorem fromLittleEndian_littleEndian (width : Nat) :
    ∀ n : Nat, fromLittleEndian (littleEndian width n) = n % 256 ^ width := by
  induction width with
  | zero =>
    intro n
    simp [littleEndian, fromLittleEndian, Nat.mod_one]
  | succ width ih =>
    intro n
    rw [littleEndian, fromLittleEndian, ih]
    have hval : (Fin.ofNat (n % 256) : Byte).val = n % 256 := by
      show n % 256 % 256 = n % 256
      exact Nat.mod_mod _ _
    rw [hval, pow_succ, Nat.mul_comm (256 ^ width) 256, Nat.mod_mul]

/-- A `size_t` field is read back as the value stored in it. -/
theorem readSizeT_sizeTBytes (n : Nat) (rest : List Byte) (hn : n < sizeTModulus) :
    readSizeT (sizeTBytes n ++ rest) = n := by
  unfold readSizeT sizeTBytes
  rw [List.take_left' (by rfl), fromLittleEndian_littleEndian, Nat.mod_eq_of_lt hn]
  exact Nat.mod_eq_of_lt hn

end HuffmanCompression

namespace HuffmanCompression

open HuffmanNode

/-- The bits `decompress` decodes: the padding is cut off and the recorded number of bits is
kept. -/
theorem trim_unpacked (bits : List Bool) :
    (if 0 < paddingOf bits.length ∧
          paddingOf bits.length < (bits ++ List.replicate (paddingOf bits.length) false).length then
        (bits ++ List.replicate (paddingOf bits.length) false).take
          ((bits ++ List.replicate (paddingOf bits.length) false).length - paddingOf bits.length)
      else bits ++ List.replicate (paddingOf bits.length) false) = bits := by
  have hlen : (bits ++ List.replicate (paddingOf bits.length) false).length =
      bits.length + paddingOf bits.length := by simp
  by_cases hpad : 0 < paddingOf bits.length
  · have hpos : 0 < bits.length := by
      cases bits with
      | nil => simp [paddingOf] at hpad
      | cons b rest => simp
    rw [if_pos ⟨hpad, by rw [hlen]; omega⟩, hlen, Nat.add_sub_cancel]
    exact List.take_left' rfl
  · rw [if_neg fun h => hpad h.1]
    have hzero : paddingOf bits.length = 0 := by omega
    rw [hzero]
    simp

/-- The record `compress` writes for a proper tree is decoded with the tree read back from
it, over exactly the encoded string. -/
theorem decompress_record (root : HuffmanNode) (bits : List Bool) (hproper : root.Proper)
    (hsize : 17 + (serializeHuffmanTree root).length + (bits.length + 7) / 8 < sizeTModulus)
    (hcount : bits.length + 7 < sizeTModulus) :
    decompress
        (sizeTBytes (serializeHuffmanTree root).length ++ sizeTBytes bits.length ++
            [Fin.ofNat (paddingOf bits.length)] ++ serializeHuffmanTree root ++ packBits bits) =
      decodeLoop root.strip bits root.strip [] := by
  obtain ⟨hunpack, hpacked⟩ := unpack_packBits bits.length bits rfl
  have htwo := two_le_length_serializeHuffmanTree root (isNull_eq_false_of_proper root hproper)
  generalize hrecord :
    sizeTBytes (serializeHuffmanTree root).length ++ sizeTBytes bits.length ++
      [Fin.ofNat (paddingOf bits.length)] ++ serializeHuffmanTree root ++ packBits bits = record
  have hlen : record.length = 17 + (serializeHuffmanTree root).length + (bits.length + 7) / 8 := by
    rw [← hrecord]
    simp only [List.length_append, length_sizeTBytes, List.length_singleton, hpacked]
  have htree : readSizeT record = (serializeHuffmanTree root).length := by
    rw [← hrecord]
    simp only [List.append_assoc]
    exact readSizeT_sizeTBytes _ _ (by omega)
  have hbits : readSizeT (record.drop 8) = bits.length := by
    rw [← hrecord]
    simp only [List.append_assoc]
    rw [List.drop_left' (length_sizeTBytes _)]
    exact readSizeT_sizeTBytes _ _ (by omega)
  have hpadlt : paddingOf bits.length < 8 := by
    unfold paddingOf
    split <;> omega
  have hpad : (record.getD 16 0).val = paddingOf bits.length := by
    rw [← hrecord]
    have hhead : (sizeTBytes (serializeHuffmanTree root).length ++ sizeTBytes bits.length).length =
        16 := rfl
    simp only [List.append_assoc]
    rw [← List.append_assoc, List.getD_eq_getElem?_getD, List.getElem?_append_right (by rw [hhead]),
      hhead]
    simp only [Nat.sub_self, List.singleton_append, List.getElem?_cons_zero, Option.getD_some]
    show paddingOf bits.length % 256 = paddingOf bits.length
    omega
  have hhead : (sizeTBytes (serializeHuffmanTree root).length ++ sizeTBytes bits.length ++
      [Fin.ofNat (paddingOf bits.length)]).length = 17 := rfl
  have hserialized : (record.drop 17).take (serializeHuffmanTree root).length =
      serializeHuffmanTree root := by
    rw [← hrecord]
    simp only [List.append_assoc]
    rw [← List.append_assoc, ← List.append_assoc, List.drop_left' hhead]
    exact List.take_left' rfl
  have hrest : record.drop (17 + (serializeHuffmanTree root).length) = packBits bits := by
    rw [← hrecord]
    exact List.drop_left' (by
      simp only [List.length_append, length_sizeTBytes, List.length_singleton])
  have hroot : (deserializeHuffmanTree ((serializeHuffmanTree root).length + 1)
      (serializeHuffmanTree root)).1 = root.strip := by
    have := deserialize_serialize root ((serializeHuffmanTree root).length + 1) [] hproper
      (by omega)
    rw [List.append_nil] at this
    rw [this]
  have hnull : root.strip.isNull = false := by
    rw [isNull_strip]
    exact isNull_eq_false_of_proper root hproper
  unfold decompress
  rw [if_neg (by rw [hlen]; omega)]
  simp only [htree, hbits, hpad]
  rw [Nat.mod_eq_of_lt hcount, Nat.mod_eq_of_lt hsize,
    Nat.mod_eq_of_lt (show 17 + (serializeHuffmanTree root).length < sizeTModulus by omega),
    if_neg (by rw [hlen]; omega), hserialized, hroot, hrest, hunpack]
  simp only [hnull, Bool.false_eq_true, if_false]
  rw [trim_unpacked]
  simp

end HuffmanCompression

namespace HuffmanNode

theorem leaves_strip (t : HuffmanNode) : t.strip.leaves = t.leaves := by
  induction t with
  | null => rfl
  | node c f l r ihl ihr =>
    rw [strip]
    by_cases hleaf : (l.isNull && r.isNull) = true
    · rw [if_pos hleaf]
      conv => rhs; rw [leaves, if_pos hleaf]
      rfl
    · rw [if_neg hleaf, leaves, leaves, isNull_strip, isNull_strip, ihl, ihr, if_neg hleaf,
        if_neg hleaf]

end HuffmanNode

namespace HuffmanCompression

open HuffmanNode

/-- A tree with two different leaves is not a single leaf. -/
theorem isLeaf_eq_false_of_two_leaves (tree : HuffmanNode) (a b : Byte) (ha : a ∈ tree.leaves)
    (hb : b ∈ tree.leaves) (hab : a ≠ b) : tree.isLeaf = false := by
  cases tree with
  | null => simp [leaves] at ha
  | node c f l r =>
    rw [isLeaf_node]
    rw [leaves] at ha hb
    by_cases hleaf : (l.isNull && r.isNull) = true
    · rw [if_pos hleaf] at ha hb
      exact absurd ((List.mem_singleton.mp ha).trans (List.mem_singleton.mp hb).symm) hab
    · simpa using hleaf

/-- The record written for a proper tree that is not a single leaf and has a leaf for every
character of the input is decoded to the input, whenever it is shorter than the input. -/
theorem decompress_encodeWithTree (root : HuffmanNode) (input : List Byte)
    (hproper : root.Proper) (hleaf : root.isLeaf = false)
    (hcover : ∀ ch ∈ input, ch ∈ root.leaves)
    (hshorter : (encodeWithTree root input).length < input.length)
    (hlength : input.length < 2 ^ 61) :
    decompress (encodeWithTree root input) = some input ∧
      decodeLoop root.strip (encodedString root input) root.strip [] = some input := by
  have hcodes : encodedString root input = input.flatMap fun ch => (root.strip.codeOf ch).getD [] := by
    unfold encodedString
    congr 1
    funext ch
    rw [mapFind_generateCodes_root root hleaf, codeOf_strip]
  have hdecode : decodeLoop root.strip (encodedString root input) root.strip [] = some input := by
    rw [hcodes, decodeLoop_codes root.strip (by rw [isLeaf_strip]; exact hleaf) input []
      (by rw [leaves_strip]; exact hcover)]
    rfl
  refine ⟨?_, hdecode⟩
  have hrecord : encodeWithTree root input =
      if (sizeTBytes (serializeHuffmanTree root).length ++
            sizeTBytes (encodedString root input).length ++
            [Fin.ofNat (paddingOf (encodedString root input).length)] ++
            serializeHuffmanTree root ++ packBits (encodedString root input)).length <
          input.length then
        sizeTBytes (serializeHuffmanTree root).length ++
            sizeTBytes (encodedString root input).length ++
            [Fin.ofNat (paddingOf (encodedString root input).length)] ++
            serializeHuffmanTree root ++ packBits (encodedString root input)
      else input := rfl
  rw [hrecord] at hshorter ⊢
  split at hshorter
  · rename_i hlt
    rw [if_pos hlt]
    obtain ⟨_, hpacked⟩ :=
      unpack_packBits (encodedString root input).length (encodedString root input) rfl
    simp only [List.length_append, length_sizeTBytes, List.length_singleton, hpacked] at hlt
    have hmod : sizeTModulus = 2 ^ 64 := rfl
    rw [decompress_record root (encodedString root input) hproper (by omega) (by omega)]
    exact hdecode
  · exact absurd hshorter (Nat.lt_irrefl _)

end HuffmanCompression

/-! ## Theorems: the Huffman round trip -/

namespace HuffmanCompression

open HuffmanNode

/-- C29: when `HuffmanCompression::compress` is applied it is lossless whatever the merge
order.  For every input with at least two distinct byte values whose compressed form is
strictly shorter than the input (an input shorter than 2^31 bytes, so that the `int`
frequencies do not overflow and the number of encoded bits fits its `size_t` field), and for
every allocator `addr`, that is for every tree `buildHuffmanTree` may return,
`decompress (compress input)` is the input; the serialized tree is read back as the tree
without its frequencies, and decoding the encoded string with that tree gives the input. -/
theorem huffman_decompress_compress (addr : Nat → Nat) (input : List Byte)
    (hdistinct : ∃ a ∈ input, ∃ b ∈ input, a ≠ b)
    (hshorter : (compress addr input).length < input.length)
    (hlength : input.length < 2 ^ 31) :
    decompress (compress addr input) = some input ∧
      deserializeHuffmanTree ((serializeHuffmanTree (buildHuffmanTree addr input)).length + 1)
          (serializeHuffmanTree (buildHuffmanTree addr input)) =
        ((buildHuffmanTree addr input).strip, []) ∧
      decodeLoop (buildHuffmanTree addr input).strip
          (encodedString (buildHuffmanTree addr input) input)
          (buildHuffmanTree addr input).strip [] = some input := by
  obtain ⟨a, ha, b, hb, hab⟩ := hdistinct
  have hinput : input ≠ [] := List.ne_nil_of_mem ha
  obtain ⟨hproper, hcover⟩ := buildHuffmanTree_spec addr input hinput
  have hleaf := isLeaf_eq_false_of_two_leaves _ a b (hcover a ha) (hcover b hb) hab
  have hnull := isNull_eq_false_of_proper _ hproper
  have hcompress : compress addr input = encodeWithTree (buildHuffmanTree addr input) input := by
    unfold compress
    by_cases hshort : input.length < 2
    · rw [compress, if_pos hshort] at hshorter
      exact absurd hshorter (Nat.lt_irrefl _)
    · rw [if_neg hshort]
      simp only [hnull, Bool.false_eq_true, if_false]
  rw [hcompress] at hshorter ⊢
  obtain ⟨hround, hdecode⟩ :=
    decompress_encodeWithTree _ input hproper hleaf hcover hshorter
      (Nat.lt_trans hlength (by decide))
  refine ⟨hround, ?_, hdecode⟩
  have := deserialize_serialize (buildHuffmanTree addr input)
    ((serializeHuffmanTree (buildHuffmanTree addr input)).length + 1) [] hproper (by omega)
  rw [List.append_nil] at this
  exact this

/-- C29 at an input: twenty-six times 'a' and one 'b', with the nodes allocated at rising
addresses, is compressed to 26 bytes and decompressed to itself. -/
theorem huffman_decompress_compress_witness :
    (compress id sampleTwoSymbolInput).length < sampleTwoSymbolInput.length ∧
      decompress (compress id sampleTwoSymbolInput) = some sampleTwoSymbolInput :=
  ⟨by decide,
    (huffman_decompress_compress id sampleTwoSymbolInput
      ⟨97, by decide, 98, by decide, by decide⟩ (by decide) (by decide)).1⟩

/-- The record of the sample input: 26 bytes for 27. -/
theorem sampleTwoSymbolInput_compressed :
    (compress id sampleTwoSymbolInput).length = 26 := by decide

end HuffmanCompression

/-! ## Theorems: creating a directory next to a compressed file -/

/-- C12: on a fresh namespace the calls `mkdir("/a")`, `write("/f", c)` with `c` 24 times 'a'
and `compressFile("/f", true, "Huffman")` all return true and leave a namespace without
mounts in which `/a` is a directory without children; there `mkdir("/a/b")` has no value,
and neither has `cat("/f")`: the recomputation of the used space reads the content of `/f`,
and `decompress` follows the missing child of the single leaf.  Without the call of
`compressFile`, `mkdir("/a/b")` returns true and `ls("/a")` is the entry "b/". -/
theorem mkdir_fails_next_to_huffman_file :
    huffmanCompressedFileState.map (·.1) = some (true, true, true) ∧
      (huffmanCompressedFileState.map fun s => s.2.mountedVolumes.length) = some 0 ∧
      (huffmanCompressedFileState.bind fun s => s.2.resolvePath (str "/a")) =
        some (some [0]) ∧
      (huffmanCompressedFileState.bind fun s =>
        (s.2.root.nodeAt [0]).map fun node => (node.isDir, node.findChild (str "b"))) =
        some (true, none) ∧
      (huffmanCompressedFileState.bind fun s => s.2.ls (str "/a")) = some [] ∧
      (huffmanCompressedFileState.bind fun s =>
        (s.2.mkdir sampleHost (str "/a/b")).map (·.1)) = none ∧
      (huffmanCompressedFileState.bind fun s => s.2.cat (str "/f")) = none ∧
      (((VirtualFileSystem.new 4096).mkdir sampleHost (str "/a")).bind fun made =>
        (made.2.write sampleHost (str "/f") (List.replicate 24 97)).bind fun written =>
          (written.2.mkdir sampleHost (str "/a/b")).bind fun below =>
            (below.2.ls (str "/a")).map fun listing => (below.1, listing)) =
        some (true, [str "b/"]) := by
  refine ⟨by decide, by decide, by decide, by decide, by decide, by decide, by decide,
    by decide⟩
